import Mathlib

/-!
# big-produce: the in-memory produce store and its batch pipeline

A shallow embedding of `produce.go` (the store `DB`, the validators) and of the
pipeline stages of `handlers.go`, followed by the properties proved about them.

Modelling conventions.

* A Go `string` is a Lean `String` (a sequence of Unicode code points; Go strings
  that are not valid UTF-8 are outside the model).
* `strings.ToLower` maps every code point through `unicode.ToLower`.  That table is
  library data: it is the parameter `CaseTable`, of which only the documented
  behaviour on ASCII is assumed.  `goCase` is the instance used for evaluation.
* A `float64` is the triple of its IEEE-754 bit fields (`Float64`).
* In the store functions (`DB`) the slice `[]*ProduceItem` is the `List ProduceItem`
  of the items its pointers point to.  That describes calls with a pointer to an
  item nobody writes to once it is handed to `Add` (the literals of `LoadDB`, the
  tests).  The write `Add` makes through the caller's pointer (the rounded price)
  is returned next to the store.
* The pipeline hands `Add` the pointer `&i.Produce` to the range variable of its
  `add` stage, which the stage overwrites with every element it receives.  There
  the slice is a list of pointers (`Heap`, in the section on the network), and the
  unlocked scan of `Add` can meet a write of another lane.
* The logger is dropped: it only writes log lines.
-/

namespace Produce

/-! ## Strings and case folding -/

/-- The lower-case table of Go's `unicode.ToLower`.  On ASCII it is documented to map
`A`..`Z` to `a`..`z` and to fix every other code point, which is what `Char.toLower`
does; nothing is assumed about the other code points. -/
structure CaseTable where
  toLower : Char → Char
  ascii : ∀ c : Char, c.val.toNat < 128 → toLower c = c.toLower

/-- A case table for evaluation: ASCII as documented and U+212A (KELVIN SIGN) to `k`,
both as in Go's table; the other code points are left as they are, which Go's table
does not do for other capital letters (`É`), none of which occurs in an input that is
evaluated. -/
def goCase : CaseTable where
  toLower := fun c => if c = Char.ofNat 0x212A then 'k' else c.toLower
  ascii := by
    intro c hc
    have hne : c ≠ Char.ofNat 0x212A := by
      rintro rfl
      revert hc
      decide
    simp [hne]

/-- Go `strings.ToLower`: every code point mapped through the case table. -/
def ToLower (T : CaseTable) (s : String) : String := ⟨s.data.map T.toLower⟩

/-! ## Errors -/

/-- The five sentinel errors of `produce.go`. -/
inductive Err where
  | ErrNotFound
  | ErrDuplicateItem
  | ErrInvalidCode
  | ErrInvalidName
  | ErrInvalidUnitPrice
  deriving DecidableEq, Repr

/-- The text each sentinel was created with (`errors.New`), returned by `err.Error()`. -/
def Err.Error : Err → String
  | .ErrNotFound => "item not found"
  | .ErrDuplicateItem => "item already exists"
  | .ErrInvalidCode => "item code is invalid"
  | .ErrInvalidName => "item name is invalid"
  | .ErrInvalidUnitPrice => "item unit price is invalid"

/-! ## Validators for code and name -/

/-- The character class `[a-zA-Z0-9]`. -/
def isAlnum (c : Char) : Bool := c.isAlphanum

/-- The pattern `[a-zA-Z0-9]{4}-[a-zA-Z0-9]{4}-[a-zA-Z0-9]{4}-[a-zA-Z0-9]{4}` matched
at the very start of the text (a prefix match of 19 characters). -/
def matchCodeAt : List Char → Bool
  | a1 :: a2 :: a3 :: a4 :: h1 :: b1 :: b2 :: b3 :: b4 :: h2 ::
      c1 :: c2 :: c3 :: c4 :: h3 :: d1 :: d2 :: d3 :: d4 :: _ =>
    isAlnum a1 && isAlnum a2 && isAlnum a3 && isAlnum a4 && h1 == '-' &&
    isAlnum b1 && isAlnum b2 && isAlnum b3 && isAlnum b4 && h2 == '-' &&
    isAlnum c1 && isAlnum c2 && isAlnum c3 && isAlnum c4 && h3 == '-' &&
    isAlnum d1 && isAlnum d2 && isAlnum d3 && isAlnum d4
  | _ => false

/-- Unanchored search, as `regexp.MatchString` does it: the pattern may start at any
position of the text. -/
def matchCodeAnywhere : List Char → Bool
  | [] => false
  | c :: cs => matchCodeAt (c :: cs) || matchCodeAnywhere cs

/-- `CodeIsValid`: the pattern is a constant that compiles, so `err` is nil and the
result is the match. -/
def CodeIsValid (c : String) : Bool := matchCodeAnywhere c.data

/-- The character class `[a-zA-Z0-9\s]`; in Go's regexp syntax `\s` is `[\t\n\f\r ]`. -/
def isNameChar (c : Char) : Bool :=
  c.isAlphanum || c == '\t' || c == '\n' || c == Char.ofNat 12 || c == '\r' || c == ' '

/-- `NameIsValid`: the pattern `^[a-zA-Z0-9\s]+$` is anchored at both ends of the text,
so the whole name is one or more characters of the class. -/
def NameIsValid (n : String) : Bool := !n.data.isEmpty && n.data.all isNameChar

/-! ## float64 -/

/-- An IEEE-754 binary64 value by its bit fields: sign bit, 11-bit biased exponent,
52-bit fraction. -/
structure Float64 where
  sign : Bool
  expo : Fin 2048
  frac : Fin 4503599627370496
  deriving DecidableEq, Repr

namespace Float64

/-- The constant 2^52: the hidden bit of a normal number. -/
def hidden : Nat := 4503599627370496

/-- Exponent field 2047 with a non-zero fraction. -/
def isNaN (x : Float64) : Bool := x.expo.val == 2047 && x.frac.val != 0

/-- Exponent field 2047 with a zero fraction. -/
def isInf (x : Float64) : Bool := x.expo.val == 2047 && x.frac.val == 0

/-- Plus or minus zero. -/
def isZero (x : Float64) : Bool := x.expo.val == 0 && x.frac.val == 0

/-- Integer significand of a finite value (the hidden bit added for normal numbers). -/
def mant (x : Float64) : Nat := if x.expo.val = 0 then x.frac.val else hidden + x.frac.val

/-- Binary exponent of a finite value: its magnitude is `mant x * 2 ^ exp2 x`. -/
def exp2 (x : Float64) : Int := (max x.expo.val 1 : Nat) - 1075

/-- Go `x < 0`: false for NaN and for both zeros. -/
def lt0 (x : Float64) : Bool := x.sign && !x.isNaN && !x.isZero

/-- Go `x >= 0`: false for NaN, true for both zeros. -/
def ge0 (x : Float64) : Bool := !x.isNaN && (!x.sign || x.isZero)

/-- The value `math.NaN()` that `strconv.ParseFloat` returns for the text `NaN`. -/
def nan : Float64 := ⟨false, ⟨2047, by decide⟩, ⟨2251799813685249, by decide⟩⟩

/-- Plus or minus infinity. -/
def inf (neg : Bool) : Float64 := ⟨neg, ⟨2047, by decide⟩, ⟨0, by decide⟩⟩

/-- Plus or minus zero. -/
def zero (neg : Bool) : Float64 := ⟨neg, ⟨0, by decide⟩, ⟨0, by decide⟩⟩

end Float64

/-- Number of binary digits of `n`, by halving (`fuel` bounds the number of steps). -/
def bitLenAux : Nat → Nat → Nat
  | 0, _ => 0
  | fuel + 1, n => if n = 0 then 0 else bitLenAux fuel (n / 2) + 1

/-- Number of binary digits of `n` (0 for 0). -/
def bitLen (n : Nat) : Nat := bitLenAux n n

/-- Quotient `a / b` rounded to the nearest integer, ties to the even one. -/
def rneDiv (a b : Nat) : Nat :=
  let q := a / b
  let r := a % b
  if 2 * r < b then q
  else if b < 2 * r then q + 1
  else if q % 2 = 0 then q else q + 1

/-- The rational `a / (b * 2 ^ e)` rounded down. -/
def scaledFloor (a b : Nat) (e : Int) : Nat :=
  if 0 ≤ e then a / (b * 2 ^ e.toNat) else (a * 2 ^ (-e).toNat) / b

/-- The rational `a / (b * 2 ^ e)` rounded to the nearest integer, ties to even. -/
def scaledRne (a b : Nat) (e : Int) : Nat :=
  if 0 ≤ e then rneDiv a (b * 2 ^ e.toNat) else rneDiv (a * 2 ^ (-e).toNat) b

/-- The text `fmt.Sprintf("%0.2f", x)` produces, kept structured: `NaN`, `+Inf` or
`-Inf`, or an optional minus sign and decimal digits with exactly two of them after the
point, recorded as the integer number of hundredths the digits spell. -/
inductive FloatText where
  | nan
  | inf (neg : Bool)
  | fixed (neg : Bool) (hundredths : Nat)
  deriving DecidableEq, Repr

/-- Go `fmt.Sprintf("%0.2f", x)`: the exact binary value rounded to two decimals, to
nearest and ties to even (strconv formats from the exact decimal expansion). -/
def Sprintf02f (x : Float64) : FloatText :=
  if x.isNaN then .nan
  else if x.isInf then .inf x.sign
  else .fixed x.sign (scaledRne (100 * x.mant) 1 (-x.exp2))

/-- The binary exponent `e` at which `a / (b * 2 ^ e)`, rounded down, has exactly 53
binary digits: found from the digit counts of `a` and `b`, one more when the quotient at
the first guess still has 54 digits. -/
def binadeExp (a b : Nat) : Int :=
  let e0 : Int := (bitLen a : Int) - (bitLen b : Int) - 53
  if Float64.hidden * 2 ≤ scaledFloor a b e0 then e0 + 1 else e0

/-- Significand and exponent of the binary64 nearest to `a / b` (ties to even): the
exponent is not taken below that of the subnormal numbers, and a significand rounded up
to 2^53 is renormalised. -/
def roundSig (a b : Nat) : Nat × Int :=
  let e2 : Int := max (binadeExp a b) (-1074)
  let m := scaledRne a b e2
  if m = Float64.hidden * 2 then (Float64.hidden, e2 + 1) else (m, e2)

/-- The bit fields for significand `m` and exponent `e`, with the range-error flag:
infinity when the exponent is beyond the largest finite one, a subnormal number when the
significand has fewer than 53 digits. -/
def encodeFloat (neg : Bool) (m : Nat) (e : Int) : Float64 × Bool :=
  if 971 < e then (Float64.inf neg, true)
  else if m < Float64.hidden then
    (⟨neg, ⟨0, by decide⟩, ⟨m % 4503599627370496, Nat.mod_lt _ (by decide)⟩⟩, false)
  else
    (⟨neg, ⟨(e + 1075).toNat % 2048, Nat.mod_lt _ (by decide)⟩,
      ⟨(m - Float64.hidden) % 4503599627370496, Nat.mod_lt _ (by decide)⟩⟩, false)

/-- The binary64 nearest to the rational `a / b` (ties to even), with the flag
`strconv.ParseFloat` raises as a range error when the result overflows to infinity. -/
def nearestFloat (neg : Bool) (a b : Nat) : Float64 × Bool :=
  if a = 0 then (Float64.zero neg, false)
  else encodeFloat neg (roundSig a b).1 (roundSig a b).2

/-- Go `strconv.ParseFloat(text, 64)` on a text `Sprintf02f` can produce: the value and
whether `err` is non-nil. -/
def ParseFloat : FloatText → Float64 × Bool
  | .nan => (Float64.nan, false)
  | .inf neg => (Float64.inf neg, false)
  | .fixed neg h => nearestFloat neg h 100

/-- A decimal constant of the Go source, `digits / 10 ^ scale` (negated when `neg`),
converted to float64 as the compiler does: to the nearest value. -/
def lit (neg : Bool) (digits scale : Nat) : Float64 := (nearestFloat neg digits (10 ^ scale)).1

/-- `PriceIsValid`: formats and re-parses the price only to look at `err`; false when
`p < 0` or the parse failed. -/
def PriceIsValid (p : Float64) : Bool :=
  let r := ParseFloat (Sprintf02f p)
  !(p.lt0 || r.2)

/-! ## The store -/

/-- `ProduceItem`: name, code and unit price. -/
structure ProduceItem where
  Name : String
  Code : String
  UnitPrice : Float64
  deriving DecidableEq, Repr

/-- `DB`: the slice `Produce`, as the list of the items its pointers point to (logger
and mutex carry no data). -/
structure DB where
  Produce : List ProduceItem
  deriving DecidableEq, Repr

/-- `NewDB`: a store with an empty slice. -/
def NewDB : DB := ⟨[]⟩

/-- `DB.List`: the slice itself. -/
def DB.List (d : DB) : List ProduceItem := d.Produce

/-- The loop of `GetItemIndex` from position `i` on, `pi` being the items not yet
visited. -/
def GetItemIndexFrom (T : CaseTable) (c : String) : List ProduceItem → Nat → Option Nat
  | [], _ => none
  | p :: ps, i =>
    if ToLower T c = ToLower T p.Code then some i else GetItemIndexFrom T c ps (i + 1)

/-- `GetItemIndex`: index of the first item whose lower-cased code equals the
lower-cased `c`; `none` is the nil pointer. -/
def GetItemIndex (T : CaseTable) (c : String) (pi : List ProduceItem) : Option Nat :=
  GetItemIndexFrom T c pi 0

/-- What a call that indexes the slice comes back with: a value with a nil error, one
of the sentinel errors, or the run-time panic of an index out of range. -/
inductive Ret (α : Type) where
  | ok (a : α)
  | err (e : Err)
  | indexOutOfRange
  deriving DecidableEq, Repr

/-- `DB.Get`: validates the code, scans, and reads the slot found. -/
def DB.Get (T : CaseTable) (d : DB) (code : String) : Ret ProduceItem :=
  if !CodeIsValid code then .err .ErrInvalidCode
  else
    match GetItemIndex T code d.Produce with
    | none => .err .ErrNotFound
    | some idx =>
      match d.Produce[idx]? with
      | some p => .ok p
      | none => .indexOutOfRange

/-- `DB.Delete`: scans, overwrites the slot found with the last item and drops the last
slot.  Returns the store after the call and the error. -/
def DB.Delete (T : CaseTable) (d : DB) (code : String) : DB × Ret Unit :=
  match GetItemIndex T code d.Produce with
  | none => (d, .err .ErrNotFound)
  | some idx =>
    match d.Produce[d.Produce.length - 1]?, decide (idx < d.Produce.length) with
    | some last, true => (⟨(d.Produce.set idx last).dropLast⟩, .ok ())
    | _, _ => (d, .indexOutOfRange)

/-- `DB.Add` up to the lock (lines 114-139): validates code, name and price, rounds the
price in place and scans for a duplicate.  Returns the caller's item as these lines leave
it (its price is overwritten once the validators passed) and the error found (`none`:
none so far).  The store is only read. -/
def DB.AddCheck (T : CaseTable) (d : DB) (p : ProduceItem) : ProduceItem × Option Err :=
  if !CodeIsValid p.Code then (p, some .ErrInvalidCode)
  else if !NameIsValid p.Name then (p, some .ErrInvalidName)
  else if !PriceIsValid p.UnitPrice then (p, some .ErrInvalidUnitPrice)
  else
    let r := ParseFloat (Sprintf02f p.UnitPrice)
    let p1 : ProduceItem := { p with UnitPrice := r.1 }
    if r.2 then (p1, some .ErrInvalidUnitPrice)
    else if (GetItemIndex T p1.Code d.Produce).isSome then (p1, some .ErrDuplicateItem)
    else (p1, none)

/-- `DB.Add` under the lock (lines 141-144): the append. -/
def DB.AddAppend (d : DB) (p1 : ProduceItem) : DB := ⟨d.Produce ++ [p1]⟩

/-- `DB.Add`, run without interruption: the checks, then the append when they found no
error.  Returns the store after the call, the caller's item as the call leaves it and
the error (`none` is nil). -/
def DB.Add (T : CaseTable) (d : DB) (p : ProduceItem) : DB × ProduceItem × Option Err :=
  match DB.AddCheck T d p with
  | (p1, some e) => (d, p1, some e)
  | (p1, none) => (DB.AddAppend d p1, p1, none)

/-! ## The stages of the batch pipeline (`AddProduce`) -/

/-- `AddResult`: an item with the status of adding it; `StatusCode = 0` is undecided. -/
structure AddResult where
  Produce : ProduceItem
  StatusCode : Int
  Status : String
  deriving DecidableEq, Repr

/-- Body of the generator loop: the pending result made from one posted item. -/
def genResult (pi : ProduceItem) : AddResult := ⟨pi, 0, ""⟩

/-- The status the `add` stage records for what `DB.Add` returned, `p1` being the
element's item as `DB.Add` left it. -/
def addOutcome (p1 : ProduceItem) : Option Err → AddResult
  | some err =>
    if err = .ErrInvalidCode then ⟨p1, 400, "400 " ++ err.Error⟩
    else if err = .ErrDuplicateItem then ⟨p1, 409, "409: " ++ Err.ErrDuplicateItem.Error⟩
    else if err = .ErrInvalidName then ⟨p1, 400, "400: " ++ Err.ErrInvalidName.Error⟩
    else ⟨p1, 500, "500: " ++ err.Error⟩
  | none => ⟨p1, 201, "201: added"⟩

/-- Body of the `add` stage for one received element: when undecided, calls `DB.Add` on
the element's own item and records the status. -/
def add (T : CaseTable) (d : DB) (i : AddResult) : DB × AddResult :=
  if i.StatusCode = 0 then
    match DB.Add T d i.Produce with
    | (d1, p1, e) => (d1, addOutcome p1 e)
  else (d, i)

/-- Body of the `verifyPrice` stage for one received element. -/
def verifyPrice (i : AddResult) : AddResult :=
  if i.StatusCode = 0 then
    if !PriceIsValid i.Produce.UnitPrice then { i with StatusCode := 400, Status := "400: ErrInvalidPrice" }
    else i
  else i

/-- Body of the `verifyCode` stage for one received element. -/
def verifyCode (i : AddResult) : AddResult :=
  if i.StatusCode = 0 then
    if !CodeIsValid i.Produce.Code then { i with StatusCode := 400, Status := "400: ErrInvalidCode" }
    else i
  else i

/-- Body of the `verifyName` stage for one received element. -/
def verifyName (i : AddResult) : AddResult :=
  if i.StatusCode = 0 then
    if !NameIsValid i.Produce.Name then { i with StatusCode := 400, Status := "400: ErrInvalidName" }
    else i
  else i

/-! ## Vocabulary of the statements -/

/-- A string with its ASCII letters `A`..`Z` lower-cased: two codes with the same fold
differ only in the case of those letters. -/
def asciiFold (s : String) : List Char := s.data.map Char.toLower

/-- The price `Add` stores: the price formatted with two decimals and parsed back. -/
def roundPrice (x : Float64) : Float64 := (ParseFloat (Sprintf02f x)).1

/-- Two codes are the same for the store: equal after `strings.ToLower`. -/
def sameCode (T : CaseTable) (c1 c2 : String) : Bool := ToLower T c1 == ToLower T c2

/-- Stores reached from the empty store by `Add` and `Delete` calls made one after the
other, whatever they return, every `Add` with a pointer to an item nobody writes to
afterwards. -/
inductive Reachable (T : CaseTable) : DB → Prop where
  | newDB : Reachable T NewDB
  | add (d : DB) (p : ProduceItem) : Reachable T d → Reachable T (DB.Add T d p).1
  | delete (d : DB) (code : String) : Reachable T d → Reachable T (DB.Delete T d code).1

/-- The tail of the slice after a removal at its head: the last item moved to the
front, the others in their order. -/
def lastToFront (l : List ProduceItem) : List ProduceItem :=
  match l.getLast? with
  | none => []
  | some z => z :: l.dropLast

/-- What holds of every reachable store: codes pairwise different after
`strings.ToLower`, and every item with a valid code, a valid name and a price that is
not below zero and that the two-decimal rounding leaves as it is. -/
def StoreInv (T : CaseTable) (d : DB) : Prop :=
  d.Produce.Pairwise (fun a b => sameCode T a.Code b.Code = false) ∧
    ∀ q ∈ d.Produce, CodeIsValid q.Code = true ∧ NameIsValid q.Name = true ∧
      q.UnitPrice.lt0 = false ∧ roundPrice q.UnitPrice = q.UnitPrice

/-! ## The pipeline as a network of goroutines

`AddProduce` starts the generator, `maxProcs` lanes of four stage goroutines
(`add`, `verifyPrice`, `verifyCode`, `verifyName`), one `mplex` goroutine per lane and
drains the merged stream in the handler.  All channels are unbuffered, so an element
passes from a goroutine that holds it to the next one when that one is idle.  The
network below records where every element is; each move is one such hand-over (or one
of the two halves of `DB.Add`), and the moves are taken in the order the scheduler
decides.  The `done` channel stays open for the whole request (no cancellation).

A lane has seven places: 0 the `add` stage holding the element it received, 1 the `add`
stage inside `DB.Add` between the scan and the lock, 2 the `add` stage holding the result
to send, 3 `verifyPrice`, 4 `verifyCode`, 5 `verifyName`, 6 `mplex`.  Place `k` of lane
`w` is slot `7 * w + k`.

Pointers.  The `add` stage calls `h.DB.Add(&i.Produce)`, where `i` is the variable of
its loop `for i := range incomingStream` (`handlers.go:248-251`), and `Add` appends the
pointer it is given (`produce.go:143`).  The loop has one variable for all the elements
the stage receives: the sources predate Go 1.22 (`io/ioutil`), and the per-iteration
variables of Go 1.22 apply only to a module that declares that version.  So every slot
a lane appends points to the lane's variable, and a reader of the slice finds there the
element the lane received last, as the lane has left it.  `Heap` keeps the slice of
pointers and the variables of the lanes; an element at place 0, 1 or 2 of a lane is the
lane's variable itself.

Data races.  The scan of `Add` reads the slice and the items it points to without the
lock (`produce.go:137`).  While another lane is about to write what the scan reads (the
slice header, at the append of line 143, or its own variable, at the receive, when a
slot points to it), read and write are not ordered: the read may see a slice header or
a string of which only a part is written, and the process ends with a run-time panic.
The move `tear` is that outcome; a scan that is not torn sees the memory as it is
before or after the write. -/

/-- What a slot of the slice `d.Produce` points to while a request runs: an item that
was stored before the request (nothing writes to it any more), or the field `Produce`
of the range variable of lane `w`. -/
inductive Ref where
  | item (p : ProduceItem)
  | lane (w : Nat)
  deriving DecidableEq, Repr

/-- The memory the lanes of a request share: the slice `d.Produce` as a list of
pointers, and the field `Produce` of the range variable of every lane. -/
structure Heap where
  refs : List Ref
  vars : List ProduceItem
  deriving DecidableEq, Repr

/-- The zero value of `ProduceItem`, which a range variable holds before the first
element is received. -/
def ProduceItem.zero : ProduceItem := ⟨"", "", Float64.zero false⟩

/-- The field `Produce` of the range variable of lane `w`. -/
def Heap.var (h : Heap) (w : Nat) : ProduceItem := h.vars.getD w ProduceItem.zero

/-- The item a pointer points to. -/
def Heap.deref (h : Heap) : Ref → ProduceItem
  | .item p => p
  | .lane w => h.var w

/-- The store as a reader of the slice finds it: every pointer followed. -/
def Heap.db (h : Heap) : DB := ⟨h.refs.map h.deref⟩

/-- A write to the field `Produce` of the range variable of lane `w`. -/
def Heap.setVar (h : Heap) (w : Nat) (p : ProduceItem) : Heap :=
  { h with vars := h.vars.set w p }

/-- `DB.Add` up to the lock, called by lane `w` with the pointer to its variable, which
holds `p`: the item as the validators and the rounding leave it (`DB.AddCheck` returns
`p` itself when a validator fails) is written through the pointer (line 131), before the
scan (line 137) reads the slice, so a slot that points to the variable shows it.
Returns the memory, the content of the variable and the error found. -/
def Heap.AddCheck (T : CaseTable) (h : Heap) (w : Nat) (p : ProduceItem) :
    Heap × ProduceItem × Option Err :=
  let h1 := h.setVar w (DB.AddCheck T h.db p).1
  (h1, DB.AddCheck T h1.db p)

/-- `DB.Add` under the lock (lines 141-144), called by lane `w`: the pointer to the
lane's variable is appended. -/
def Heap.AddAppend (h : Heap) (w : Nat) : Heap := { h with refs := h.refs ++ [Ref.lane w] }

/-- An element in flight: the result record, and, while its `add` stage is inside
`DB.Add` after the scan, the error the scan found. -/
structure Tok where
  res : AddResult
  scanned : Option (Option Err)
  deriving DecidableEq, Repr

/-- State of the network: the memory, the items the generator has not sent yet, the
slots of all lanes, `rs.Results` as collected so far, and whether the process has ended
with a panic. -/
structure Net where
  heap : Heap
  pending : List ProduceItem
  slots : List (Option Tok)
  results : List AddResult
  crashed : Bool
  deriving DecidableEq, Repr

/-- The store of a network as `List()` would return it. -/
def Net.db (s : Net) : DB := s.heap.db

/-- The network when the handler has set up `maxProcs` lanes for the posted items, on a
store whose items nothing writes to any more. -/
def Net.init (d : DB) (batch : List ProduceItem) (maxProcs : Nat) : Net :=
  ⟨⟨d.Produce.map Ref.item, List.replicate maxProcs ProduceItem.zero⟩, batch,
    List.replicate (7 * maxProcs) none, [], false⟩

/-- What happens to an element of lane `w` that leaves place `k`.
0: the `add` stage, when the element is undecided, enters `DB.Add` and runs it up to the
lock.  1: it appends under the lock when the scan found no error, and records the
status.  2, 3, 4: the element is received by `verifyPrice`, `verifyCode`, `verifyName`.
5: it is received by `mplex`. -/
def stage (T : CaseTable) (k w : Nat) (h : Heap) (t : Tok) : Heap × Tok :=
  match k with
  | 0 =>
    if t.res.StatusCode = 0 then
      match Heap.AddCheck T h w t.res.Produce with
      | (h1, p1, e) => (h1, ⟨{ t.res with Produce := p1 }, some e⟩)
    else (h, t)
  | 1 =>
    match t.scanned with
    | some none => (h.AddAppend w, ⟨addOutcome t.res.Produce none, none⟩)
    | some (some e) => (h, ⟨addOutcome t.res.Produce (some e), none⟩)
    | none => (h, t)
  | 2 => (h, { t with res := verifyPrice t.res })
  | 3 => (h, { t with res := verifyCode t.res })
  | 4 => (h, { t with res := verifyName t.res })
  | _ => (h, t)

/-- The moves of the network. -/
inductive Move where
  | recv (w : Nat)
  | advance (j : Nat)
  | drain (j : Nat)
  | tear (a b : Nat)
  deriving DecidableEq, Repr

/-- Lane `a` is about to scan the slice: its `add` stage holds an undecided element that
passes the checks `DB.Add` makes before the scan. -/
def Net.scans (s : Net) (a : Nat) : Bool :=
  match s.slots[7 * a]? with
  | some (some t) =>
    t.res.StatusCode == 0 && CodeIsValid t.res.Produce.Code &&
      NameIsValid t.res.Produce.Name && PriceIsValid t.res.Produce.UnitPrice &&
      !(ParseFloat (Sprintf02f t.res.Produce.UnitPrice)).2
  | _ => false

/-- Lane `b` is about to write memory a scan reads: its `add` stage is before the append
of an element without error, or it is idle with an item to receive while a slot of the
slice points to its variable. -/
def Net.writes (s : Net) (b : Nat) : Bool :=
  (match s.slots[7 * b + 1]? with
    | some (some t) => t.scanned == some none
    | _ => false) ||
  (s.heap.refs.contains (Ref.lane b) && !s.pending.isEmpty &&
    s.slots[7 * b]? == some none && s.slots[7 * b + 1]? == some none &&
    s.slots[7 * b + 2]? == some none)

/-- One move, `none` when it is not enabled; no move is enabled after a panic.
`recv w`: the idle `add` stage of lane `w` receives the next item from the generator
into its range variable.
`advance j`: the element in slot `j` moves to the next place of its lane, which is free.
`drain j`: the handler receives the element `mplex` holds in slot `j` and appends it to
the results.
`tear a b`: the scan of lane `a` meets a write of lane `b`, and the process ends. -/
def step (T : CaseTable) (s : Net) (m : Move) : Option Net :=
  if s.crashed = true then none
  else
    match m with
    | .recv w =>
      match s.pending, s.slots[7 * w]?, s.slots[7 * w + 1]?, s.slots[7 * w + 2]? with
      | x :: xs, some none, some none, some none =>
        some { s with
          heap := s.heap.setVar w x
          pending := xs
          slots := s.slots.set (7 * w) (some ⟨genResult x, none⟩) }
      | _, _, _, _ => none
    | .advance j =>
      if j % 7 = 6 then none
      else
        match s.slots[j]?, s.slots[j + 1]? with
        | some (some t), some none =>
          some { s with
            heap := (stage T (j % 7) (j / 7) s.heap t).1
            slots := (s.slots.set j none).set (j + 1) (some (stage T (j % 7) (j / 7) s.heap t).2) }
        | _, _ => none
    | .drain j =>
      if j % 7 = 6 then
        match s.slots[j]? with
        | some (some t) =>
          some { s with slots := s.slots.set j none, results := s.results ++ [t.res] }
        | _ => none
      else none
    | .tear a b =>
      if a ≠ b ∧ s.scans a = true ∧ s.writes b = true then some { s with crashed := true }
      else none

/-- The network after the moves of a schedule, `none` when one of them is not enabled. -/
def run (T : CaseTable) (s : Net) : List Move → Option Net
  | [] => some s
  | m :: ms =>
    match step T s m with
    | some s1 => run T s1 ms
    | none => none

/-- The handler's loop over the merged stream has ended: the process is alive and every
lane has closed, which a lane does once the generator has closed its stream and the lane
holds nothing.  With no lane at all the merged stream is closed at once. -/
def Net.finished (s : Net) : Bool :=
  !s.crashed && (s.slots.isEmpty || (s.pending.isEmpty && s.slots.all Option.isNone))

/-- The moves one element makes through lane `w`, without interruption. -/
def laneMoves (w : Nat) : List Move :=
  [.recv w, .advance (7 * w), .advance (7 * w + 1), .advance (7 * w + 2),
    .advance (7 * w + 3), .advance (7 * w + 4), .advance (7 * w + 5), .drain (7 * w + 6)]

/-- The codes of the elements a network holds anywhere: not sent yet, in flight, and
collected. -/
def Net.codes (s : Net) : List String :=
  s.pending.map (·.Code) ++ (s.slots.reduceOption.map (·.res.Produce.Code) ++
    s.results.map (·.Produce.Code))

/-- Moves still to be made for the elements in the slots from index `j` on: an element
at place `k` of its lane has `7 - k` moves left. -/
def slotWeight : Nat → List (Option Tok) → Nat
  | _, [] => 0
  | j, o :: l => (if o.isSome then 7 - j % 7 else 0) + slotWeight (j + 1) l

/-- Moves still to be made by a network: eight for an item not sent yet. -/
def Net.weight (s : Net) : Nat := 8 * s.pending.length + slotWeight 0 s.slots

/-- A property of a network stated element by element: `Pp` of every item not sent yet,
`Pt` of every element in flight (with the place it is at) and `Pr` of every result
collected. -/
def NetInv (Pp : ProduceItem → Prop) (Pt : Nat → Tok → Prop) (Pr : AddResult → Prop)
    (s : Net) : Prop :=
  (∀ x ∈ s.pending, Pp x) ∧ (∀ j t, s.slots[j]? = some (some t) → Pt (j % 7) t) ∧
    ∀ r ∈ s.results, Pr r

/-- The format the documentation of `CodeIsValid` describes, taken literally: the whole
text is four groups of four alphanumeric characters separated by single hyphens (19
characters, nothing before or after). -/
def codeFormatExact (c : String) : Bool := c.data.length == 19 && matchCodeAt c.data

/-! ## Process configuration (`main.go`) -/

/-- The value of a non-empty run of decimal digits, `none` when the text is empty or
holds another character. -/
def parseDigits (ds : List Char) : Option Nat :=
  if ds.isEmpty then none
  else if ds.all Char.isDigit then some (ds.foldl (fun acc c => 10 * acc + (c.toNat - 48)) 0)
  else none

/-- Go `strconv.Atoi` for a 64-bit `int`: an optional sign and decimal digits; `none` is
a non-nil error (syntax, or a value outside the range of `int`). -/
def Atoi (s : String) : Option Int :=
  let signed : Bool × List Char :=
    match s.data with
    | '+' :: r => (false, r)
    | '-' :: r => (true, r)
    | r => (false, r)
  match parseDigits signed.2 with
  | none => none
  | some v =>
    let n : Int := if signed.1 then -(v : Int) else (v : Int)
    if -9223372036854775808 ≤ n ∧ n ≤ 9223372036854775807 then some n else none

/-- `loadMaxProcs`, with `runtime.NumCPU()` as the parameter `numCPU`. -/
def loadMaxProcs (numCPU : Int) (maxProcsStr : String) : Int :=
  match Atoi maxProcsStr with
  | none => numCPU
  | some maxProcs => if maxProcs ≤ 0 ∨ maxProcs > numCPU then numCPU else maxProcs

/-- The integer `n` is a closest integer to the rational `num / den`: they differ by at
most one half. -/
def closestInt (num den n : Nat) : Prop :=
  2 * num ≤ 2 * (den * n) + den ∧ 2 * (den * n) ≤ 2 * num + den

/-- The number of hundredths `Sprintf02f` writes for a finite value. -/
def hundredths (x : Float64) : Nat := scaledRne (100 * x.mant) 1 (-x.exp2)

/-! # Properties -/

/-! ## Arithmetic of the price rounding -/

theorem bitLenAux_spec (fuel : Nat) : ∀ n : Nat, n ≤ fuel → n ≠ 0 →
    2 ^ (bitLenAux fuel n - 1) ≤ n ∧ n < 2 ^ bitLenAux fuel n := by
  induction fuel with
  | zero => intro n h h0; omega
  | succ f ih =>
    intro n h h0
    simp only [bitLenAux, h0, if_false]
    by_cases h2 : n / 2 = 0
    · have h1 : n = 1 := by omega
      subst h1
      cases f <;> simp [bitLenAux]
    · have hle : n / 2 ≤ f := by omega
      obtain ⟨ha, hb⟩ := ih (n / 2) hle h2
      have hpos : 1 ≤ bitLenAux f (n / 2) := by
        cases f with
        | zero => omega
        | succ g => simp [bitLenAux, h2]
      constructor
      · have : bitLenAux f (n / 2) + 1 - 1 = (bitLenAux f (n / 2) - 1) + 1 := by omega
        rw [this, pow_succ]
        omega
      · rw [pow_succ]
        omega

theorem bitLen_spec (n : Nat) (h0 : n ≠ 0) : 2 ^ (bitLen n - 1) ≤ n ∧ n < 2 ^ bitLen n :=
  bitLenAux_spec n n (le_refl n) h0

theorem bitLen_pos (n : Nat) (h0 : n ≠ 0) : 1 ≤ bitLen n := by
  by_contra h
  have h1 : bitLen n = 0 := by omega
  have := (bitLen_spec n h0).2
  rw [h1] at this
  omega

theorem rneDiv_le_self (a b : Nat) (hb : 0 < b) : rneDiv a b ≤ a := by
  unfold rneDiv
  have hq : a / b ≤ a := Nat.div_le_self a b
  have hdm : b * (a / b) + a % b = a := Nat.div_add_mod a b
  have hmul : a / b ≤ b * (a / b) := Nat.le_mul_of_pos_left _ hb
  simp only
  split_ifs <;> omega

theorem rneDiv_le_of_le_mul (a c k : Nat) (hc : 0 < c) (h : a ≤ k * c) : rneDiv a c ≤ k := by
  unfold rneDiv
  have hdm : c * (a / c) + a % c = a := Nat.div_add_mod a c
  have hq : a / c ≤ k := by
    calc a / c ≤ (k * c) / c := Nat.div_le_div_right h
      _ = k := Nat.mul_div_cancel k hc
  simp only
  by_cases hk : a / c = k
  · have hr : a % c = 0 := by
      rw [hk] at hdm
      have : c * k = k * c := Nat.mul_comm c k
      omega
    simp [hr, hc, hk]
  · have : a / c + 1 ≤ k := by omega
    split_ifs <;> omega

theorem hidden_eq : Float64.hidden = 2 ^ 52 := by decide

theorem norm_lower (a b : Nat) (ha : a ≠ 0) (hb : 0 < b) (hpos : 0 ≤ binadeExp a b) :
    Float64.hidden * (b * 2 ^ (binadeExp a b).toNat) ≤ a := by
  have he1 : binadeExp a b =
      if Float64.hidden * 2 ≤ scaledFloor a b ((bitLen a : Int) - (bitLen b : Int) - 53)
      then (bitLen a : Int) - (bitLen b : Int) - 53 + 1
      else (bitLen a : Int) - (bitLen b : Int) - 53 := rfl
  generalize binadeExp a b = e1 at he1 hpos ⊢
  generalize he0 : (bitLen a : Int) - (bitLen b : Int) - 53 = e0 at he1
  rw [hidden_eq] at *
  have hla := bitLen_spec a ha
  have hlb := bitLen_spec b (by omega)
  have hla1 := bitLen_pos a ha
  by_cases hc : 2 ^ 52 * 2 ≤ scaledFloor a b e0
  · rw [if_pos hc] at he1
    by_cases h0 : 0 ≤ e0
    · have hsf : scaledFloor a b e0 = a / (b * 2 ^ e0.toNat) := by simp [scaledFloor, h0]
      rw [hsf] at hc
      have hbpos : 0 < b * 2 ^ e0.toNat := by positivity
      have := (Nat.le_div_iff_mul_le hbpos).1 hc
      have ht : e1.toNat = e0.toNat + 1 := by omega
      rw [ht, pow_succ]
      calc 2 ^ 52 * (b * (2 ^ e0.toNat * 2)) = 2 ^ 52 * 2 * (b * 2 ^ e0.toNat) := by ring
        _ ≤ a := this
    · have hm1 : e0 = -1 := by omega
      have hsf : scaledFloor a b e0 = (a * 2) / b := by
        subst hm1
        simp [scaledFloor]
      rw [hsf] at hc
      have := (Nat.le_div_iff_mul_le hb).1 hc
      have ht : e1.toNat = 0 := by omega
      rw [ht]
      simp only [pow_zero, mul_one]
      omega
  · rw [if_neg hc] at he1
    subst he1
    have hk : bitLen a - 1 = e1.toNat + bitLen b + 52 := by omega
    have h1 : 2 ^ (e1.toNat + bitLen b + 52) ≤ a := hk ▸ hla.1
    have h2 : 2 ^ 52 * (b * 2 ^ e1.toNat) ≤ 2 ^ 52 * (2 ^ bitLen b * 2 ^ e1.toNat) := by
      apply Nat.mul_le_mul_left
      apply Nat.mul_le_mul_right
      exact hlb.2.le
    calc 2 ^ 52 * (b * 2 ^ e1.toNat) ≤ 2 ^ 52 * (2 ^ bitLen b * 2 ^ e1.toNat) := h2
      _ = 2 ^ (e1.toNat + bitLen b + 52) := by ring
      _ ≤ a := h1

/-- The largest finite magnitude is `(2^53 - 1) * 2^971`: a ratio not above it is parsed
without a range error. -/
theorem roundSig_exp_le (a b : Nat) (ha : a ≠ 0) (hb : 0 < b)
    (h : a ≤ 9007199254740991 * (b * 2 ^ 971)) : (roundSig a b).2 ≤ 971 := by
  by_contra hlt
  have hlt : 971 < (roundSig a b).2 := by omega
  unfold roundSig at hlt
  simp only at hlt
  have h971 : 971 ≤ max (binadeExp a b) (-1074) := by
    split_ifs at hlt <;> simp only at hlt <;> omega
  have he21 : max (binadeExp a b) (-1074) = binadeExp a b := by omega
  rw [he21] at hlt h971
  have hpos : 0 ≤ binadeExp a b := by omega
  have hlow := norm_lower a b ha hb hpos
  rw [hidden_eq] at hlow
  by_cases h972 : 972 ≤ binadeExp a b
  · have hp : 2 ^ 972 ≤ 2 ^ (binadeExp a b).toNat :=
      Nat.pow_le_pow_right (by decide) (by omega)
    have h3 : 2 ^ 52 * (b * 2 ^ 972) ≤ a :=
      le_trans (Nat.mul_le_mul_left _ (Nat.mul_le_mul_left _ hp)) hlow
    have h4 : 9007199254740991 * (b * 2 ^ 971) < 2 ^ 52 * (b * 2 ^ 972) := by
      have hbp : 0 < b * 2 ^ 971 := by positivity
      calc 9007199254740991 * (b * 2 ^ 971) < 9007199254740992 * (b * 2 ^ 971) :=
            Nat.mul_lt_mul_of_pos_right (by norm_num) hbp
        _ = 2 ^ 52 * (b * 2 ^ 972) := by ring
    omega
  · have he : binadeExp a b = 971 := by omega
    rw [he] at hlt
    have hmm : scaledRne a b 971 = Float64.hidden * 2 := by
      by_contra hne
      rw [if_neg hne] at hlt
      simp only at hlt
      omega
    have hsr : scaledRne a b 971 = rneDiv a (b * 2 ^ 971) := by
      simp [scaledRne]
    have hbp : 0 < b * 2 ^ 971 := by positivity
    have := rneDiv_le_of_le_mul a (b * 2 ^ 971) 9007199254740991 hbp h
    rw [← hsr, hmm, hidden_eq] at this
    norm_num at this

theorem nearestFloat_no_range_err (neg : Bool) (a b : Nat) (hb : 0 < b)
    (h : a ≤ 9007199254740991 * (b * 2 ^ 971)) : (nearestFloat neg a b).2 = false := by
  unfold nearestFloat
  by_cases ha : a = 0
  · simp [ha]
  · simp only [ha, if_false]
    have k := roundSig_exp_le a b ha hb h
    have k2 : ¬ 971 < (roundSig a b).2 := by omega
    unfold encodeFloat
    simp only [k2, if_false]
    split_ifs <;> rfl

theorem rneDiv_zero (b : Nat) : rneDiv 0 b = 0 := by
  simp [rneDiv]

theorem rneDiv_one (a : Nat) : rneDiv a 1 = a := by
  simp [rneDiv, Nat.mod_one]

theorem Float64.mant_le (x : Float64) : x.mant ≤ 9007199254740991 := by
  have := x.frac.isLt
  unfold Float64.mant Float64.hidden
  split_ifs <;> omega

theorem Float64.exp2_le (x : Float64) (hn : x.isNaN = false) (hi : x.isInf = false) :
    x.exp2 ≤ 971 := by
  have hlt := x.expo.isLt
  have hne : x.expo.val ≠ 2047 := by
    intro h
    by_cases hf : x.frac.val = 0
    · simp [Float64.isInf, h, hf] at hi
    · simp [Float64.isNaN, h, hf] at hn
  unfold Float64.exp2
  omega

theorem sprintf_hundredths_le (x : Float64) (hn : x.isNaN = false) (hi : x.isInf = false) :
    scaledRne (100 * x.mant) 1 (-x.exp2) ≤ 9007199254740991 * (100 * 2 ^ 971) := by
  have hm := x.mant_le
  have he := x.exp2_le hn hi
  unfold scaledRne
  by_cases h0 : 0 ≤ -x.exp2
  · rw [if_pos h0]
    have hp : 0 < 1 * 2 ^ (-x.exp2).toNat := by positivity
    have h1 := rneDiv_le_self (100 * x.mant) _ hp
    have h2 : 1 ≤ 2 ^ 971 := Nat.one_le_two_pow
    calc rneDiv (100 * x.mant) (1 * 2 ^ (-x.exp2).toNat) ≤ 100 * x.mant := h1
      _ ≤ 100 * 9007199254740991 * 1 := by omega
      _ ≤ 100 * 9007199254740991 * 2 ^ 971 := Nat.mul_le_mul_left _ h2
      _ = 9007199254740991 * (100 * 2 ^ 971) := by ring
  · rw [if_neg h0, rneDiv_one]
    have hk : (- -x.exp2).toNat ≤ 971 := by omega
    have hp : 2 ^ (- -x.exp2).toNat ≤ 2 ^ 971 := Nat.pow_le_pow_right (by decide) hk
    calc 100 * x.mant * 2 ^ (- -x.exp2).toNat ≤ 100 * 9007199254740991 * 2 ^ 971 :=
          Nat.mul_le_mul (by omega) hp
      _ = 9007199254740991 * (100 * 2 ^ 971) := by ring

/-- Re-parsing the text `Sprintf02f` made never fails: `err` is nil for every float64. -/
theorem parse_sprintf_ok (x : Float64) : (ParseFloat (Sprintf02f x)).2 = false := by
  unfold Sprintf02f
  by_cases hn : x.isNaN = true
  · simp [hn, ParseFloat]
  · by_cases hi : x.isInf = true
    · simp [hn, hi, ParseFloat]
    · simp only [hn, hi, if_false, ParseFloat]
      exact nearestFloat_no_range_err _ _ _ (by decide)
        (sprintf_hundredths_le x (by simpa using hn) (by simpa using hi))

theorem PriceIsValid_eq (x : Float64) : PriceIsValid x = !x.lt0 := by
  simp [PriceIsValid, parse_sprintf_ok]

/-! ## ASCII letter case -/

theorem upper_cases (P : Char → Prop) (h : ∀ n : Nat, 65 ≤ n → n ≤ 90 → P (Char.ofNat n))
    (c : Char) (hc : 65 ≤ c.toNat ∧ c.toNat ≤ 90) : P c := by
  have := h c.toNat hc.1 hc.2
  rwa [Char.ofNat_toNat] at this

theorem toLower_of_not_upper (c : Char) (h : ¬ (65 ≤ c.toNat ∧ c.toNat ≤ 90)) :
    c.toLower = c := by
  unfold Char.toLower
  simp only [ge_iff_le]
  rw [if_neg h]

theorem toLower_isAlnum (c : Char) : isAlnum c.toLower = isAlnum c := by
  unfold isAlnum
  by_cases h : 65 ≤ c.toNat ∧ c.toNat ≤ 90
  · revert c
    apply upper_cases
    intro n h1 h2
    interval_cases n <;> decide
  · rw [toLower_of_not_upper c h]

theorem toLower_eq_hyphen (c : Char) : (c.toLower == '-') = (c == '-') := by
  by_cases h : 65 ≤ c.toNat ∧ c.toNat ≤ 90
  · revert c
    apply upper_cases
    intro n h1 h2
    interval_cases n <;> decide
  · rw [toLower_of_not_upper c h]

theorem toLower_ascii (c : Char) (hc : 65 ≤ c.toNat ∧ c.toNat ≤ 90) :
    c.toLower.val.toNat < 128 ∧ c.toLower.toLower = c.toLower := by
  revert c
  apply upper_cases
  intro n h1 h2
  interval_cases n <;> decide

/-- The case table sees a character and its ASCII lower-case form alike. -/
theorem CaseTable.toLower_toLower (T : CaseTable) (c : Char) :
    T.toLower c.toLower = T.toLower c := by
  by_cases h : 65 ≤ c.toNat ∧ c.toNat ≤ 90
  · have h1 := toLower_ascii c h
    have hc : c.val.toNat < 128 := by
      have : c.toNat = c.val.toNat := rfl
      omega
    rw [T.ascii c hc, T.ascii _ h1.1, h1.2]
  · rw [toLower_of_not_upper c h]

theorem ToLower_asciiFold (T : CaseTable) (s t : String)
    (h : asciiFold s = asciiFold t) : ToLower T s = ToLower T t := by
  have key : ∀ u : String, ToLower T u = ⟨(asciiFold u).map T.toLower⟩ := by
    intro u
    simp [ToLower, asciiFold, List.map_map, Function.comp_def, CaseTable.toLower_toLower]
  rw [key s, key t, h]

theorem matchCodeAt_map_toLower (l : List Char) :
    matchCodeAt (l.map Char.toLower) = matchCodeAt l := by
  match l with
  | a1 :: a2 :: a3 :: a4 :: h1 :: b1 :: b2 :: b3 :: b4 :: h2 ::
      c1 :: c2 :: c3 :: c4 :: h3 :: d1 :: d2 :: d3 :: d4 :: _ =>
    simp only [List.map, matchCodeAt, toLower_isAlnum, toLower_eq_hyphen]
  | [] => rfl
  | [_] => rfl
  | [_, _] => rfl
  | [_, _, _] => rfl
  | [_, _, _, _] => rfl
  | [_, _, _, _, _] => rfl
  | [_, _, _, _, _, _] => rfl
  | [_, _, _, _, _, _, _] => rfl
  | [_, _, _, _, _, _, _, _] => rfl
  | [_, _, _, _, _, _, _, _, _] => rfl
  | [_, _, _, _, _, _, _, _, _, _] => rfl
  | [_, _, _, _, _, _, _, _, _, _, _] => rfl
  | [_, _, _, _, _, _, _, _, _, _, _, _] => rfl
  | [_, _, _, _, _, _, _, _, _, _, _, _, _] => rfl
  | [_, _, _, _, _, _, _, _, _, _, _, _, _, _] => rfl
  | [_, _, _, _, _, _, _, _, _, _, _, _, _, _, _] => rfl
  | [_, _, _, _, _, _, _, _, _, _, _, _, _, _, _, _] => rfl
  | [_, _, _, _, _, _, _, _, _, _, _, _, _, _, _, _, _] => rfl
  | [_, _, _, _, _, _, _, _, _, _, _, _, _, _, _, _, _, _] => rfl

theorem matchCodeAnywhere_map_toLower (l : List Char) :
    matchCodeAnywhere (l.map Char.toLower) = matchCodeAnywhere l := by
  induction l with
  | nil => rfl
  | cons c cs ih =>
    have h := matchCodeAt_map_toLower (c :: cs)
    simp only [List.map] at h ih ⊢
    simp only [matchCodeAnywhere, h, ih]

/-- Format validity only depends on the code up to the case of its ASCII letters. -/
theorem CodeIsValid_asciiFold (s t : String) (h : asciiFold s = asciiFold t) :
    CodeIsValid s = CodeIsValid t := by
  have key : ∀ u : String, CodeIsValid u = matchCodeAnywhere (asciiFold u) := by
    intro u
    simp [CodeIsValid, asciiFold, matchCodeAnywhere_map_toLower]
  rw [key s, key t, h]

/-! ## The scan `GetItemIndex` -/

theorem sameCode_iff (T : CaseTable) (a b : String) :
    sameCode T a b = true ↔ ToLower T a = ToLower T b := by
  simp [sameCode]

theorem sameCode_false_iff (T : CaseTable) (a b : String) :
    sameCode T a b = false ↔ ToLower T a ≠ ToLower T b := by
  simp [sameCode]

theorem sameCode_comm (T : CaseTable) (a b : String) : sameCode T a b = sameCode T b a := by
  by_cases h : ToLower T a = ToLower T b
  · rw [(sameCode_iff T a b).2 h, (sameCode_iff T b a).2 h.symm]
  · rw [(sameCode_false_iff T a b).2 h, (sameCode_false_iff T b a).2 (fun e => h e.symm)]

theorem GetItemIndexFrom_eq_none (T : CaseTable) (c : String) (l : List ProduceItem) :
    ∀ i, GetItemIndexFrom T c l i = none ↔ ∀ p ∈ l, sameCode T c p.Code = false := by
  induction l with
  | nil => intro i; simp [GetItemIndexFrom]
  | cons p ps ih =>
    intro i
    by_cases h : ToLower T c = ToLower T p.Code
    · simp [GetItemIndexFrom, h, sameCode]
    · simp only [GetItemIndexFrom, h, if_false, ih, List.mem_cons, forall_eq_or_imp,
        sameCode_false_iff]
      simp [h]

/-- A found index points at the first item with the same code. -/
theorem GetItemIndexFrom_eq_some (T : CaseTable) (c : String) (l : List ProduceItem) :
    ∀ i j, GetItemIndexFrom T c l i = some j →
      ∃ k p, j = i + k ∧ l[k]? = some p ∧ sameCode T c p.Code = true ∧
        ∀ q ∈ l.take k, sameCode T c q.Code = false := by
  induction l with
  | nil => intro i j h; simp [GetItemIndexFrom] at h
  | cons p ps ih =>
    intro i j h
    by_cases hc : ToLower T c = ToLower T p.Code
    · simp only [GetItemIndexFrom, hc, if_true, Option.some.injEq] at h
      exact ⟨0, p, by omega, by simp, (sameCode_iff T _ _).2 hc, by simp⟩
    · simp only [GetItemIndexFrom, hc, if_false] at h
      obtain ⟨k, q, hj, hq, hs, hall⟩ := ih (i + 1) j h
      refine ⟨k + 1, q, by omega, by simpa using hq, hs, ?_⟩
      intro r hr
      simp only [List.take_succ_cons, List.mem_cons] at hr
      rcases hr with rfl | hr
      · exact (sameCode_false_iff T _ _).2 hc
      · exact hall r hr

theorem GetItemIndex_isSome_iff (T : CaseTable) (c : String) (l : List ProduceItem) :
    (GetItemIndex T c l).isSome = true ↔ ∃ q ∈ l, sameCode T c q.Code = true := by
  unfold GetItemIndex
  cases h : GetItemIndexFrom T c l 0 with
  | none =>
    have := (GetItemIndexFrom_eq_none T c l 0).1 h
    simp only [Option.isSome_none, Bool.false_eq_true, false_iff, not_exists, not_and]
    intro q hq
    simp [this q hq]
  | some j =>
    obtain ⟨k, p, _, hp, hs, _⟩ := GetItemIndexFrom_eq_some T c l 0 j h
    simp only [Option.isSome_some, true_iff]
    exact ⟨p, List.getElem?_mem hp, hs⟩

theorem GetItemIndexFrom_append (T : CaseTable) (c : String) (l : List ProduceItem)
    (x : ProduceItem) (hl : ∀ q ∈ l, sameCode T c q.Code = false)
    (hx : sameCode T c x.Code = true) :
    ∀ i, GetItemIndexFrom T c (l ++ [x]) i = some (i + l.length) := by
  induction l with
  | nil =>
    intro i
    simp [GetItemIndexFrom, (sameCode_iff T _ _).1 hx]
  | cons p ps ih =>
    intro i
    have hp : ToLower T c ≠ ToLower T p.Code :=
      (sameCode_false_iff T _ _).1 (hl p (List.mem_cons_self _ _))
    have := ih (fun q hq => hl q (List.mem_cons_of_mem _ hq)) (i + 1)
    have e : i + 1 + ps.length = i + (p :: ps).length := by
      simp only [List.length_cons]
      omega
    rw [e] at this
    simpa only [List.cons_append, GetItemIndexFrom, hp, if_false] using this

/-! ## `Add` -/

/-- `Add` as one case distinction; the rounding cannot fail, so the only price error
is a negative price. -/
theorem Add_eq (T : CaseTable) (d : DB) (p : ProduceItem) :
    DB.Add T d p =
      if CodeIsValid p.Code = false then (d, p, some .ErrInvalidCode)
      else if NameIsValid p.Name = false then (d, p, some .ErrInvalidName)
      else if p.UnitPrice.lt0 = true then (d, p, some .ErrInvalidUnitPrice)
      else if (GetItemIndex T p.Code d.Produce).isSome = true then
        (d, ⟨p.Name, p.Code, roundPrice p.UnitPrice⟩, some .ErrDuplicateItem)
      else (⟨d.Produce ++ [⟨p.Name, p.Code, roundPrice p.UnitPrice⟩]⟩,
        ⟨p.Name, p.Code, roundPrice p.UnitPrice⟩, none) := by
  unfold DB.Add DB.AddCheck DB.AddAppend
  simp only [PriceIsValid_eq, parse_sprintf_ok, roundPrice]
  by_cases h1 : CodeIsValid p.Code = true
  · by_cases h2 : NameIsValid p.Name = true
    · by_cases h3 : p.UnitPrice.lt0 = true
      · simp [h1, h2, h3]
      · by_cases h4 : (GetItemIndex T p.Code d.Produce).isSome = true
        · simp [h1, h2, h3, h4]
        · simp [h1, h2, h3, h4]
    · simp [h1, h2]
  · simp [h1]

theorem Add_eq_none_iff (T : CaseTable) (d : DB) (p : ProduceItem) :
    (DB.Add T d p).2.2 = none ↔
      CodeIsValid p.Code = true ∧ NameIsValid p.Name = true ∧ p.UnitPrice.lt0 = false ∧
        ∀ q ∈ d.Produce, sameCode T p.Code q.Code = false := by
  rw [Add_eq]
  have hiff := GetItemIndex_isSome_iff T p.Code d.Produce
  by_cases h1 : CodeIsValid p.Code = true
  · by_cases h2 : NameIsValid p.Name = true
    · by_cases h3 : p.UnitPrice.lt0 = true
      · simp [h1, h2, h3]
      · by_cases h4 : (GetItemIndex T p.Code d.Produce).isSome = true
        · obtain ⟨q, hq, hs⟩ := hiff.1 h4
          have hnall : ¬ ∀ q ∈ d.Produce, sameCode T p.Code q.Code = false := by
            intro hall
            simp [hall q hq] at hs
          simp [h1, h2, h3, h4, hnall]
        · have hall : ∀ q ∈ d.Produce, sameCode T p.Code q.Code = false := by
            intro q hq
            by_contra hne
            exact h4 (hiff.2 ⟨q, hq, by simpa using hne⟩)
          simp only [h1, h2, h3, h4, Bool.true_eq_false, if_false, true_and]
          exact ⟨fun _ => hall, fun _ => rfl⟩
    · simp [h1, h2]
  · simp [h1]

theorem Add_store_of_none (T : CaseTable) (d : DB) (p : ProduceItem)
    (h : (DB.Add T d p).2.2 = none) :
    (DB.Add T d p).1 = ⟨d.Produce ++ [⟨p.Name, p.Code, roundPrice p.UnitPrice⟩]⟩ ∧
      (DB.Add T d p).2.1 = ⟨p.Name, p.Code, roundPrice p.UnitPrice⟩ := by
  obtain ⟨h1, h2, h3, h4⟩ := (Add_eq_none_iff T d p).1 h
  have h5 : ¬ (GetItemIndex T p.Code d.Produce).isSome = true := by
    intro hs
    obtain ⟨q, hq, hsq⟩ := (GetItemIndex_isSome_iff T p.Code d.Produce).1 hs
    simp [h4 q hq] at hsq
  rw [Add_eq]
  simp [h1, h2, h3, h5]

theorem Add_store_of_some (T : CaseTable) (d : DB) (p : ProduceItem) (e : Err)
    (h : (DB.Add T d p).2.2 = some e) : (DB.Add T d p).1 = d := by
  rw [Add_eq] at h ⊢
  split_ifs at h ⊢ <;> simp_all

theorem Float64.lt0_of_ge0 (x : Float64) (h : x.ge0 = true) : x.lt0 = false := by
  unfold Float64.ge0 at h
  unfold Float64.lt0
  cases hs : x.sign <;> cases hn : x.isNaN <;> cases hz : x.isZero <;> simp_all

/-- Looking up a code that only the last item carries returns that item. -/
theorem Get_append_last (T : CaseTable) (l : List ProduceItem) (x : ProduceItem) (c : String)
    (hv : CodeIsValid c = true) (hl : ∀ q ∈ l, sameCode T c q.Code = false)
    (hx : sameCode T c x.Code = true) : DB.Get T ⟨l ++ [x]⟩ c = .ok x := by
  unfold DB.Get GetItemIndex
  simp only [hv, Bool.not_true, Bool.false_eq_true, if_false]
  rw [GetItemIndexFrom_append T c l x hl hx 0]
  simp

/-! ## Claims about `Add` and `Get` -/

/-- C1, as the code has it: for every store and every item with a valid code, a valid
name and a non-negative price whose code is not yet in the store, `Add` succeeds and
appends the item with its price rounded, and `Get` then returns exactly that stored item
for the item's own code and for every code `c` that passes the format check and equals
the item's code after `strings.ToLower`; every code that differs from the item's code
only in the case of ASCII letters is such a code. -/
theorem Add_then_Get (T : CaseTable) (d : DB) (p : ProduceItem) (c : String)
    (hcode : CodeIsValid p.Code = true) (hname : NameIsValid p.Name = true)
    (hprice : p.UnitPrice.ge0 = true)
    (hnew : ∀ q ∈ d.Produce, sameCode T p.Code q.Code = false)
    (hc : sameCode T c p.Code = true) (hv : CodeIsValid c = true) :
    (DB.Add T d p).2.2 = none ∧
      (DB.Add T d p).1.Produce = d.Produce ++ [⟨p.Name, p.Code, roundPrice p.UnitPrice⟩] ∧
      DB.Get T (DB.Add T d p).1 p.Code = .ok ⟨p.Name, p.Code, roundPrice p.UnitPrice⟩ ∧
      DB.Get T (DB.Add T d p).1 c = .ok ⟨p.Name, p.Code, roundPrice p.UnitPrice⟩ ∧
      ∀ c2 : String, asciiFold c2 = asciiFold p.Code →
        sameCode T c2 p.Code = true ∧ CodeIsValid c2 = true ∧
        DB.Get T (DB.Add T d p).1 c2 = .ok ⟨p.Name, p.Code, roundPrice p.UnitPrice⟩ := by
  have hadd : (DB.Add T d p).2.2 = none :=
    (Add_eq_none_iff T d p).2 ⟨hcode, hname, Float64.lt0_of_ge0 _ hprice, hnew⟩
  have hst := (Add_store_of_none T d p hadd).1
  have key : ∀ c1 : String, sameCode T c1 p.Code = true → CodeIsValid c1 = true →
      DB.Get T (DB.Add T d p).1 c1 = .ok ⟨p.Name, p.Code, roundPrice p.UnitPrice⟩ := by
    intro c1 h1 h2
    have hcc : ToLower T c1 = ToLower T p.Code := (sameCode_iff T _ _).1 h1
    have hnewc : ∀ q ∈ d.Produce, sameCode T c1 q.Code = false := by
      intro q hq
      have := hnew q hq
      simpa [sameCode, hcc] using this
    rw [hst]
    exact Get_append_last T _ _ _ h2 hnewc (by simp [sameCode, hcc])
  refine ⟨hadd, by rw [hst], key _ (by simp [sameCode]) hcode, key c hc hv, ?_⟩
  intro c2 h2
  have hs : sameCode T c2 p.Code = true :=
    (sameCode_iff T _ _).2 (ToLower_asciiFold T c2 p.Code h2)
  have hv2 : CodeIsValid c2 = true := by
    rw [CodeIsValid_asciiFold c2 p.Code h2]
    exact hcode
  exact ⟨hs, hv2, key c2 hs hv2⟩

/-- Witness of C1: a carrot added next to a bean and looked up with the letters of its
code in the other case. -/
theorem Add_then_Get_witness :
    DB.Get goCase
        (DB.Add goCase ⟨[⟨"bean", "2345-2345-2345-2345", lit false 355 2⟩]⟩
          ⟨"carrot", "1234-abcd-ABCD-1234", lit false 102 2⟩).1 "1234-ABCD-abcd-1234" =
      .ok ⟨"carrot", "1234-abcd-ABCD-1234", roundPrice (lit false 102 2)⟩ :=
  (Add_then_Get goCase ⟨[⟨"bean", "2345-2345-2345-2345", lit false 355 2⟩]⟩
    ⟨"carrot", "1234-abcd-ABCD-1234", lit false 102 2⟩ "1234-ABCD-abcd-1234"
    (by decide) (by decide) (by decide) (by decide) (by decide) (by decide)).2.2.2.1

/-- C1 as stated fails: the kale is added to the empty store with the code
`k234-1234-1234-1234`; the same code written with U+212A (KELVIN SIGN, a capital form of
`k` that `strings.ToLower` maps to `k`) equals the stored code after `strings.ToLower`,
but it fails the format check, so `Get` of it fails with `ErrInvalidCode`. -/
theorem Add_then_Get_counterexample :
    (DB.Add goCase NewDB ⟨"kale", "k234-1234-1234-1234", lit false 100 2⟩).2.2 = none ∧
      sameCode goCase "\u212A234-1234-1234-1234" "k234-1234-1234-1234" = true ∧
      CodeIsValid "\u212A234-1234-1234-1234" = false ∧
      DB.Get goCase (DB.Add goCase NewDB ⟨"kale", "k234-1234-1234-1234", lit false 100 2⟩).1
          "\u212A234-1234-1234-1234" = .err .ErrInvalidCode := by
  decide

/-- C2, as the code has it: once `Add` of an item has succeeded, a second `Add` of any
item with a valid code, a valid name and a non-negative price whose code equals the
first one after `strings.ToLower` fails with `ErrDuplicateItem`, leaves the store as it
was, and the store holds exactly one item with that code; every item with a valid name
and price whose code differs from the first one only in the case of ASCII letters is
such an item. -/
theorem second_Add_is_duplicate (T : CaseTable) (d : DB) (p1 p2 : ProduceItem)
    (hfirst : (DB.Add T d p1).2.2 = none)
    (hcode : CodeIsValid p2.Code = true)
    (hname : NameIsValid p2.Name = true) (hprice : p2.UnitPrice.ge0 = true)
    (hc : sameCode T p2.Code p1.Code = true) :
    (DB.Add T (DB.Add T d p1).1 p2).2.2 = some .ErrDuplicateItem ∧
      (DB.Add T (DB.Add T d p1).1 p2).1 = (DB.Add T d p1).1 ∧
      ((DB.Add T d p1).1.Produce.filter (fun q => sameCode T q.Code p1.Code)).length = 1 ∧
      ∀ p3 : ProduceItem, NameIsValid p3.Name = true → p3.UnitPrice.ge0 = true →
        asciiFold p3.Code = asciiFold p1.Code →
        (DB.Add T (DB.Add T d p1).1 p3).2.2 = some .ErrDuplicateItem ∧
          (DB.Add T (DB.Add T d p1).1 p3).1 = (DB.Add T d p1).1 := by
  obtain ⟨h1, _, _, h4⟩ := (Add_eq_none_iff T d p1).1 hfirst
  have hst := (Add_store_of_none T d p1 hfirst).1
  have key : ∀ p : ProduceItem, CodeIsValid p.Code = true → NameIsValid p.Name = true →
      p.UnitPrice.ge0 = true → sameCode T p.Code p1.Code = true →
      (DB.Add T (DB.Add T d p1).1 p).2.2 = some .ErrDuplicateItem := by
    intro p hv hn hp hs
    have hcc : ToLower T p.Code = ToLower T p1.Code := (sameCode_iff T _ _).1 hs
    have hdup : (GetItemIndex T p.Code (DB.Add T d p1).1.Produce).isSome = true := by
      rw [GetItemIndex_isSome_iff, hst]
      exact ⟨⟨p1.Name, p1.Code, roundPrice p1.UnitPrice⟩, by simp, by simp [sameCode, hcc]⟩
    rw [Add_eq]
    simp [hv, hn, Float64.lt0_of_ge0 _ hp, hdup]
  have herr := key p2 hcode hname hprice hc
  refine ⟨herr, Add_store_of_some T _ _ _ herr, ?_, ?_⟩
  · rw [hst]
    have hnone : d.Produce.filter (fun q => sameCode T q.Code p1.Code) = [] := by
      rw [List.filter_eq_nil_iff]
      intro q hq
      rw [sameCode_comm]
      simp [h4 q hq]
    rw [List.filter_append, hnone]
    simp [List.filter_cons, sameCode]
  · intro p3 hn hp hf
    have hv3 : CodeIsValid p3.Code = true := by
      rw [CodeIsValid_asciiFold _ _ hf]
      exact h1
    have h3 := key p3 hv3 hn hp ((sameCode_iff T _ _).2 (ToLower_asciiFold T _ _ hf))
    exact ⟨h3, Add_store_of_some T _ _ _ h3⟩

/-- Witness of C2: the gopher of the tests, added again with its letters in the other
case. -/
theorem second_Add_is_duplicate_witness :
    (DB.Add goCase (DB.Add goCase NewDB ⟨"gopher2", "1234-abcd-ABCD-1234", lit false 200 2⟩).1
        ⟨"pname", "1234-ABCD-abcd-1234", lit false 2001123 6⟩).2.2 =
      some .ErrDuplicateItem :=
  (second_Add_is_duplicate goCase NewDB ⟨"gopher2", "1234-abcd-ABCD-1234", lit false 200 2⟩
    ⟨"pname", "1234-ABCD-abcd-1234", lit false 2001123 6⟩
    (by decide) (by decide) (by decide) (by decide) (by decide)).1

/-- C2 as stated fails: with the kale stored under `k234-1234-1234-1234`, the second
`Add` of an item with a valid name and price whose code is the same text with U+212A
(KELVIN SIGN) for `k` (equal to the stored code after `strings.ToLower`) fails with
`ErrInvalidCode`, not with `ErrDuplicateItem`: the format check runs before the scan. -/
theorem second_Add_is_duplicate_counterexample :
    (DB.Add goCase NewDB ⟨"kale", "k234-1234-1234-1234", lit false 100 2⟩).2.2 = none ∧
      sameCode goCase "\u212A234-1234-1234-1234" "k234-1234-1234-1234" = true ∧
      NameIsValid "kale" = true ∧ (lit false 100 2).ge0 = true ∧
      (DB.Add goCase (DB.Add goCase NewDB ⟨"kale", "k234-1234-1234-1234", lit false 100 2⟩).1
          ⟨"kale", "\u212A234-1234-1234-1234", lit false 100 2⟩).2.2 =
        some .ErrInvalidCode := by
  decide

/-- C4: `Add` checks code, then name, then price, then duplicates and reports the
first failure only: `ErrInvalidCode` iff the code is invalid; otherwise `ErrInvalidName`
iff the name is invalid; otherwise `ErrInvalidUnitPrice` iff the price is negative;
otherwise `ErrDuplicateItem` iff some stored item has the same code ignoring case;
otherwise nil. -/
theorem Add_error_order (T : CaseTable) (d : DB) (p : ProduceItem) :
    (DB.Add T d p).2.2 =
      if CodeIsValid p.Code = false then some .ErrInvalidCode
      else if NameIsValid p.Name = false then some .ErrInvalidName
      else if p.UnitPrice.lt0 = true then some .ErrInvalidUnitPrice
      else if ∃ q ∈ d.Produce, sameCode T p.Code q.Code = true then some .ErrDuplicateItem
      else none := by
  rw [Add_eq]
  have hiff := GetItemIndex_isSome_iff T p.Code d.Produce
  by_cases hd : (GetItemIndex T p.Code d.Produce).isSome = true
  · have := hiff.1 hd
    split_ifs <;> simp_all
  · have : ¬ ∃ q ∈ d.Produce, sameCode T p.Code q.Code = true := fun h => hd (hiff.2 h)
    split_ifs <;> simp_all

/-! ## `Delete` -/

theorem lastToFront_perm (l : List ProduceItem) : (lastToFront l).Perm l := by
  rcases List.eq_nil_or_concat l with rfl | ⟨L, z, rfl⟩
  · simp [lastToFront]
  · simp only [lastToFront, List.concat_eq_append, List.getLast?_concat, List.dropLast_concat]
    exact (List.perm_append_singleton z L).symm

theorem swap_remove_eq (l1 l2 : List ProduceItem) (p : ProduceItem) :
    ∃ last, (l1 ++ p :: l2)[(l1 ++ p :: l2).length - 1]? = some last ∧
      ((l1 ++ p :: l2).set l1.length last).dropLast = l1 ++ lastToFront l2 := by
  rcases List.eq_nil_or_concat l2 with rfl | ⟨L, z, rfl⟩
  · refine ⟨p, by simp, ?_⟩
    simp [lastToFront]
  · refine ⟨z, ?_, ?_⟩
    · have : (l1 ++ p :: L.concat z).length - 1 = l1.length + (L.length + 1) := by
        simp
      rw [this, List.getElem?_append_right (by omega)]
      simp
    · simp only [lastToFront, List.concat_eq_append, List.getLast?_concat,
        List.dropLast_concat]
      rw [List.set_append_right _ _ (le_refl _)]
      simp only [Nat.sub_self, List.set_cons_zero]
      rw [show l1 ++ z :: (L ++ [z]) = (l1 ++ z :: L) ++ [z] by simp]
      exact List.dropLast_concat

/-- What a successful scan makes of `Delete`: the slice splits at the first item with
the code, and that slot receives the last item. -/
theorem Delete_of_found (T : CaseTable) (d : DB) (code : String) (idx : Nat)
    (h : GetItemIndex T code d.Produce = some idx) :
    ∃ l1 p l2, d.Produce = l1 ++ p :: l2 ∧ l1.length = idx ∧
      sameCode T code p.Code = true ∧ (∀ q ∈ l1, sameCode T code q.Code = false) ∧
      DB.Delete T d code = (⟨l1 ++ lastToFront l2⟩, .ok ()) := by
  obtain ⟨k, p, hk, hp, hs, hall⟩ := GetItemIndexFrom_eq_some T code d.Produce 0 idx h
  have hk' : idx = k := by omega
  subst hk'
  obtain ⟨hlt, hget⟩ := List.getElem?_eq_some_iff.1 hp
  have hsplit : d.Produce = d.Produce.take idx ++ p :: d.Produce.drop (idx + 1) := by
    rw [← hget, ← List.drop_eq_getElem_cons hlt, List.take_append_drop]
  have hlen : (d.Produce.take idx).length = idx := by
    rw [List.length_take]
    omega
  refine ⟨d.Produce.take idx, p, d.Produce.drop (idx + 1), hsplit, hlen, hs, hall, ?_⟩
  obtain ⟨last, hl1, hl2⟩ := swap_remove_eq (d.Produce.take idx) (d.Produce.drop (idx + 1)) p
  rw [← hsplit] at hl1
  rw [hlen, ← hsplit] at hl2
  unfold DB.Delete
  rw [h]
  simp only [hl1, hlt, decide_True, hl2]

theorem Delete_of_not_found (T : CaseTable) (d : DB) (code : String)
    (h : GetItemIndex T code d.Produce = none) :
    DB.Delete T d code = (d, .err .ErrNotFound) := by
  unfold DB.Delete
  rw [h]

/-! ## The rounding is idempotent -/

theorem scaledRne_eq (a b : Nat) (e : Int) :
    scaledRne a b e = rneDiv (a * 2 ^ (-e).toNat) (b * 2 ^ e.toNat) := by
  unfold scaledRne
  by_cases h : 0 ≤ e
  · have : (-e).toNat = 0 := by omega
    simp [h, this]
  · have : e.toNat = 0 := by omega
    simp [h, this]

theorem scaledFloor_eq (a b : Nat) (e : Int) :
    scaledFloor a b e = (a * 2 ^ (-e).toNat) / (b * 2 ^ e.toNat) := by
  unfold scaledFloor
  by_cases h : 0 ≤ e
  · have : (-e).toNat = 0 := by omega
    simp [h, this]
  · have : e.toNat = 0 := by omega
    simp [h, this]

/-- The rounded quotient is within half a unit of the exact one. -/
theorem rneDiv_close (a c : Nat) (hc : 0 < c) :
    2 * a ≤ 2 * (c * rneDiv a c) + c ∧ 2 * (c * rneDiv a c) ≤ 2 * a + c := by
  unfold rneDiv
  have hdm : c * (a / c) + a % c = a := Nat.div_add_mod a c
  have hr : a % c < c := Nat.mod_lt a hc
  simp only
  split_ifs <;> (try rw [Nat.mul_add, Nat.mul_one]) <;> omega

/-- A quotient strictly within half a unit of `n` rounds to `n`. -/
theorem rneDiv_eq_of_close (a c n : Nat) (hc : 0 < c) (h1 : 2 * a < 2 * (c * n) + c)
    (h2 : 2 * (c * n) < 2 * a + c) : rneDiv a c = n := by
  obtain ⟨k1, k2⟩ := rneDiv_close a c hc
  by_contra hne
  rcases Nat.lt_or_gt_of_ne hne with hlt | hgt
  · have : c * (rneDiv a c + 1) ≤ c * n := Nat.mul_le_mul_left c hlt
    rw [Nat.mul_add, Nat.mul_one] at this
    omega
  · have : c * (n + 1) ≤ c * rneDiv a c := Nat.mul_le_mul_left c hgt
    rw [Nat.mul_add, Nat.mul_one] at this
    omega

theorem rneDiv_mul (n c : Nat) (hc : 0 < c) : rneDiv (n * c) c = n := by
  apply rneDiv_eq_of_close _ _ _ hc
  · rw [Nat.mul_comm n c]; omega
  · rw [Nat.mul_comm n c]; omega

theorem rneDiv_ge_of_mul_le (a c k : Nat) (hc : 0 < c) (h : k * c ≤ a) : k ≤ rneDiv a c := by
  obtain ⟨k1, _⟩ := rneDiv_close a c hc
  by_contra hlt
  have hlt : rneDiv a c + 1 ≤ k := by omega
  have : c * (rneDiv a c + 1) ≤ c * k := Nat.mul_le_mul_left c hlt
  rw [Nat.mul_add, Nat.mul_one, Nat.mul_comm c k] at this
  omega

/-- At the first guess of the exponent the quotient has 53 or 54 binary digits. -/
theorem first_guess_bounds (a b : Nat) (ha : a ≠ 0) (hb : 0 < b) (e0 : Int)
    (he0 : e0 = (bitLen a : Int) - (bitLen b : Int) - 53) :
    2 ^ 52 * (b * 2 ^ e0.toNat) < a * 2 ^ (-e0).toNat ∧
      a * 2 ^ (-e0).toNat < 2 ^ 54 * (b * 2 ^ e0.toNat) := by
  have hla := bitLen_spec a ha
  have hlb := bitLen_spec b (by omega)
  have hla1 := bitLen_pos a ha
  have hlb1 := bitLen_pos b (by omega)
  have hu : 0 < 2 ^ (-e0).toNat := by positivity
  have hv : 0 < 2 ^ e0.toNat := by positivity
  constructor
  · have hk : bitLen a - 1 + (-e0).toNat = 52 + bitLen b + e0.toNat := by omega
    calc 2 ^ 52 * (b * 2 ^ e0.toNat) < 2 ^ 52 * (2 ^ bitLen b * 2 ^ e0.toNat) := by
          apply Nat.mul_lt_mul_of_pos_left _ (by positivity)
          exact Nat.mul_lt_mul_of_pos_right hlb.2 hv
      _ = 2 ^ (52 + bitLen b + e0.toNat) := by rw [pow_add, pow_add]; ring
      _ = 2 ^ (bitLen a - 1 + (-e0).toNat) := by rw [hk]
      _ = 2 ^ (bitLen a - 1) * 2 ^ (-e0).toNat := by rw [pow_add]
      _ ≤ a * 2 ^ (-e0).toNat := Nat.mul_le_mul_right _ hla.1
  · have hk : bitLen a + (-e0).toNat = 54 + (bitLen b - 1) + e0.toNat := by omega
    calc a * 2 ^ (-e0).toNat < 2 ^ bitLen a * 2 ^ (-e0).toNat :=
          Nat.mul_lt_mul_of_pos_right hla.2 hu
      _ = 2 ^ (bitLen a + (-e0).toNat) := by rw [pow_add]
      _ = 2 ^ (54 + (bitLen b - 1) + e0.toNat) := by rw [hk]
      _ = 2 ^ 54 * (2 ^ (bitLen b - 1) * 2 ^ e0.toNat) := by rw [pow_add, pow_add]; ring
      _ ≤ 2 ^ 54 * (b * 2 ^ e0.toNat) := by
          apply Nat.mul_le_mul_left
          exact Nat.mul_le_mul_right _ hlb.1

/-- Raising the exponent by one halves the scaled quotient. -/
theorem scale_succ (a b : Nat) (e : Int) :
    (a * 2 ^ (-(e + 1)).toNat) * (b * 2 ^ e.toNat) * 2 =
      (a * 2 ^ (-e).toNat) * (b * 2 ^ (e + 1).toNat) := by
  by_cases h : 0 ≤ e
  · have h1 : (-(e + 1)).toNat = 0 := by omega
    have h2 : (-e).toNat = 0 := by omega
    have h3 : (e + 1).toNat = e.toNat + 1 := by omega
    rw [h1, h2, h3, pow_succ]
    ring
  · have h1 : (-e).toNat = (-(e + 1)).toNat + 1 := by omega
    have h2 : e.toNat = 0 := by omega
    have h3 : (e + 1).toNat = 0 := by omega
    rw [h1, h2, h3, pow_succ]
    ring

/-- The exponent found puts the quotient between 2^52 and 2^53. -/
theorem binadeExp_spec (a b : Nat) (ha : a ≠ 0) (hb : 0 < b) :
    2 ^ 52 * (b * 2 ^ (binadeExp a b).toNat) ≤ a * 2 ^ (-(binadeExp a b)).toNat ∧
      a * 2 ^ (-(binadeExp a b)).toNat < 2 ^ 53 * (b * 2 ^ (binadeExp a b).toNat) := by
  obtain ⟨hlo, hhi⟩ := first_guess_bounds a b ha hb _ rfl
  have hdef : binadeExp a b =
      if Float64.hidden * 2 ≤ scaledFloor a b ((bitLen a : Int) - (bitLen b : Int) - 53)
      then (bitLen a : Int) - (bitLen b : Int) - 53 + 1
      else (bitLen a : Int) - (bitLen b : Int) - 53 := rfl
  generalize (bitLen a : Int) - (bitLen b : Int) - 53 = e0 at hlo hhi hdef
  have hden : 0 < b * 2 ^ e0.toNat := by positivity
  rw [scaledFloor_eq, hidden_eq] at hdef
  have hiff := Nat.le_div_iff_mul_le hden (x := 2 ^ 52 * 2) (y := a * 2 ^ (-e0).toNat)
  by_cases hc : 2 ^ 52 * 2 * (b * 2 ^ e0.toNat) ≤ a * 2 ^ (-e0).toNat
  · rw [if_pos (hiff.2 hc)] at hdef
    rw [hdef]
    have hs := scale_succ a b e0
    have hden1 : 0 < b * 2 ^ (e0 + 1).toNat := by positivity
    constructor
    · by_contra hlt
      have hlt : a * 2 ^ (-(e0 + 1)).toNat < 2 ^ 52 * (b * 2 ^ (e0 + 1).toNat) := by omega
      have h1 : (a * 2 ^ (-(e0 + 1)).toNat) * (b * 2 ^ e0.toNat) * 2 <
          (2 ^ 52 * (b * 2 ^ (e0 + 1).toNat)) * (b * 2 ^ e0.toNat) * 2 :=
        Nat.mul_lt_mul_of_pos_right (Nat.mul_lt_mul_of_pos_right hlt hden) (by decide)
      have h2 : (2 ^ 52 * 2 * (b * 2 ^ e0.toNat)) * (b * 2 ^ (e0 + 1).toNat) ≤
          (a * 2 ^ (-e0).toNat) * (b * 2 ^ (e0 + 1).toNat) :=
        Nat.mul_le_mul_right _ hc
      rw [hs] at h1
      have h3 : (2 ^ 52 * (b * 2 ^ (e0 + 1).toNat)) * (b * 2 ^ e0.toNat) * 2 =
          (2 ^ 52 * 2 * (b * 2 ^ e0.toNat)) * (b * 2 ^ (e0 + 1).toNat) := by ring
      omega
    · by_contra hge
      have hge : 2 ^ 53 * (b * 2 ^ (e0 + 1).toNat) ≤ a * 2 ^ (-(e0 + 1)).toNat := by omega
      have h1 : (2 ^ 53 * (b * 2 ^ (e0 + 1).toNat)) * (b * 2 ^ e0.toNat) * 2 ≤
          (a * 2 ^ (-(e0 + 1)).toNat) * (b * 2 ^ e0.toNat) * 2 :=
        Nat.mul_le_mul_right _ (Nat.mul_le_mul_right _ hge)
      have h2 : (a * 2 ^ (-e0).toNat) * (b * 2 ^ (e0 + 1).toNat) <
          (2 ^ 54 * (b * 2 ^ e0.toNat)) * (b * 2 ^ (e0 + 1).toNat) :=
        Nat.mul_lt_mul_of_pos_right hhi hden1
      rw [hs] at h1
      have h3 : (2 ^ 53 * (b * 2 ^ (e0 + 1).toNat)) * (b * 2 ^ e0.toNat) * 2 =
          (2 ^ 54 * (b * 2 ^ e0.toNat)) * (b * 2 ^ (e0 + 1).toNat) := by ring
      omega
  · rw [if_neg (fun h => hc (hiff.1 h))] at hdef
    rw [hdef]
    refine ⟨hlo.le, ?_⟩
    have : 2 ^ 52 * 2 * (b * 2 ^ e0.toNat) = 2 ^ 53 * (b * 2 ^ e0.toNat) := by ring
    omega

/-- Raising the exponent from `e` to `e1` divides the scaled quotient by
`2 ^ (e1 - e)`. -/
theorem scale_le (a b : Nat) (e e1 : Int) (h : e ≤ e1) :
    (a * 2 ^ (-e1).toNat) * (b * 2 ^ e.toNat) * 2 ^ (e1 - e).toNat =
      (a * 2 ^ (-e).toNat) * (b * 2 ^ e1.toNat) := by
  have hk : (-e1).toNat + e.toNat + (e1 - e).toNat = (-e).toNat + e1.toNat := by omega
  calc (a * 2 ^ (-e1).toNat) * (b * 2 ^ e.toNat) * 2 ^ (e1 - e).toNat
      = a * b * 2 ^ ((-e1).toNat + e.toNat + (e1 - e).toNat) := by
        rw [pow_add, pow_add]; ring
    _ = a * b * 2 ^ ((-e).toNat + e1.toNat) := by rw [hk]
    _ = (a * 2 ^ (-e).toNat) * (b * 2 ^ e1.toNat) := by rw [pow_add]; ring

theorem binade_not_lt (a b : Nat) (hb : 0 < b) (e e1 : Int) (hlt : e < e1)
    (h : a * 2 ^ (-e).toNat < 2 ^ 53 * (b * 2 ^ e.toNat))
    (h1 : 2 ^ 52 * (b * 2 ^ e1.toNat) ≤ a * 2 ^ (-e1).toNat) : False := by
  have hs := scale_le a b e e1 hlt.le
  have hden : 0 < b * 2 ^ e.toNat := by positivity
  have hden1 : 0 < b * 2 ^ e1.toNat := by positivity
  have hd : 2 ≤ 2 ^ (e1 - e).toNat := by
    have : 1 ≤ (e1 - e).toNat := by omega
    calc 2 = 2 ^ 1 := rfl
      _ ≤ 2 ^ (e1 - e).toNat := Nat.pow_le_pow_right (by decide) this
  have k1 : (2 ^ 52 * (b * 2 ^ e1.toNat)) * (b * 2 ^ e.toNat) * 2 ^ (e1 - e).toNat ≤
      (a * 2 ^ (-e1).toNat) * (b * 2 ^ e.toNat) * 2 ^ (e1 - e).toNat :=
    Nat.mul_le_mul_right _ (Nat.mul_le_mul_right _ h1)
  rw [hs] at k1
  have k2 : (a * 2 ^ (-e).toNat) * (b * 2 ^ e1.toNat) <
      (2 ^ 53 * (b * 2 ^ e.toNat)) * (b * 2 ^ e1.toNat) :=
    Nat.mul_lt_mul_of_pos_right h hden1
  have k3 : (2 ^ 52 * (b * 2 ^ e1.toNat)) * (b * 2 ^ e.toNat) * 2 ≤
      (2 ^ 52 * (b * 2 ^ e1.toNat)) * (b * 2 ^ e.toNat) * 2 ^ (e1 - e).toNat :=
    Nat.mul_le_mul_left _ hd
  have k4 : (2 ^ 52 * (b * 2 ^ e1.toNat)) * (b * 2 ^ e.toNat) * 2 =
      (2 ^ 53 * (b * 2 ^ e.toNat)) * (b * 2 ^ e1.toNat) := by ring
  omega

/-- Only one exponent puts the quotient between 2^52 and 2^53: the one found. -/
theorem binadeExp_unique (a b : Nat) (ha : a ≠ 0) (hb : 0 < b) (e : Int)
    (h1 : 2 ^ 52 * (b * 2 ^ e.toNat) ≤ a * 2 ^ (-e).toNat)
    (h2 : a * 2 ^ (-e).toNat < 2 ^ 53 * (b * 2 ^ e.toNat)) : binadeExp a b = e := by
  obtain ⟨k1, k2⟩ := binadeExp_spec a b ha hb
  rcases lt_trichotomy (binadeExp a b) e with hlt | heq | hgt
  · exact (binade_not_lt a b hb _ _ hlt k2 h1).elim
  · exact heq
  · exact (binade_not_lt a b hb _ _ hgt h2 k1).elim

/-- Decoding the fields of a normal number gives back its significand and exponent. -/
theorem encodeFloat_normal (neg : Bool) (m : Nat) (e : Int) (hm1 : 2 ^ 52 ≤ m)
    (hm2 : m < 2 ^ 53) (he1 : -1074 ≤ e) (he2 : e ≤ 971) :
    (encodeFloat neg m e).2 = false ∧ (encodeFloat neg m e).1.sign = neg ∧
      (encodeFloat neg m e).1.mant = m ∧ (encodeFloat neg m e).1.exp2 = e ∧
      (encodeFloat neg m e).1.isNaN = false ∧ (encodeFloat neg m e).1.isInf = false := by
  have h1 : ¬ 971 < e := by omega
  have h2 : ¬ m < Float64.hidden := by rw [hidden_eq]; omega
  have hex : (e + 1075).toNat % 2048 = (e + 1075).toNat := Nat.mod_eq_of_lt (by omega)
  have hfr : (m - Float64.hidden) % 4503599627370496 = m - Float64.hidden := by
    apply Nat.mod_eq_of_lt
    rw [hidden_eq]
    omega
  have hh : Float64.hidden = 4503599627370496 := rfl
  unfold encodeFloat
  simp only [h1, h2, if_false]
  refine ⟨trivial, trivial, ?_, ?_, ?_, ?_⟩
  · simp only [Float64.mant, hex, hfr]
    have : (e + 1075).toNat ≠ 0 := by omega
    rw [if_neg this]
    omega
  · simp only [Float64.exp2, hex]
    omega
  · simp only [Float64.isNaN, hex]
    have : (e + 1075).toNat ≠ 2047 := by omega
    simp [this]
  · simp only [Float64.isInf, hex]
    have : (e + 1075).toNat ≠ 2047 := by omega
    simp [this]

/-- The value `mag * 2 ^ e` for two-decimal texts never needs a subnormal exponent. -/
theorem binadeExp_hundredths_ge (N : Nat) (hN : N ≠ 0) : -1074 ≤ binadeExp N 100 := by
  obtain ⟨_, k2⟩ := binadeExp_spec N 100 hN (by decide)
  by_contra hlt
  have hu : 60 ≤ (-(binadeExp N 100)).toNat := by omega
  have hv : (binadeExp N 100).toNat = 0 := by omega
  rw [hv] at k2
  have h1 : 2 ^ 60 ≤ 2 ^ (-(binadeExp N 100)).toNat := Nat.pow_le_pow_right (by decide) hu
  have h2 : 2 ^ (-(binadeExp N 100)).toNat ≤ N * 2 ^ (-(binadeExp N 100)).toNat :=
    Nat.le_mul_of_pos_left _ (by omega)
  simp only [pow_zero, Nat.mul_one] at k2
  omega

/-- Significand and exponent found for a text of `N` hundredths: a normal number, and
`N / 100` is within half a unit in the last place of it. -/
theorem roundSig_hundredths (N : Nat) (hN : N ≠ 0)
    (hb : N ≤ 9007199254740991 * (100 * 2 ^ 971)) :
    2 ^ 52 ≤ (roundSig N 100).1 ∧ (roundSig N 100).1 < 2 ^ 53 ∧
      -1074 ≤ (roundSig N 100).2 ∧ (roundSig N 100).2 ≤ 971 ∧
      2 * (N * 2 ^ (-(roundSig N 100).2).toNat) ≤
        2 * (100 * 2 ^ (roundSig N 100).2.toNat * (roundSig N 100).1) +
          100 * 2 ^ (roundSig N 100).2.toNat ∧
      2 * (100 * 2 ^ (roundSig N 100).2.toNat * (roundSig N 100).1) ≤
        2 * (N * 2 ^ (-(roundSig N 100).2).toNat) + 100 * 2 ^ (roundSig N 100).2.toNat := by
  have hle := roundSig_exp_le N 100 hN (by decide) hb
  have hge := binadeExp_hundredths_ge N hN
  obtain ⟨k1, k2⟩ := binadeExp_spec N 100 hN (by decide)
  have hmax : max (binadeExp N 100) (-1074) = binadeExp N 100 := by omega
  have hcpos : 0 < 100 * 2 ^ (binadeExp N 100).toNat := by positivity
  have hraw1 : 2 ^ 52 ≤ scaledRne N 100 (binadeExp N 100) := by
    rw [scaledRne_eq]
    exact rneDiv_ge_of_mul_le _ _ _ hcpos k1
  have hraw2 : scaledRne N 100 (binadeExp N 100) ≤ 2 ^ 53 := by
    rw [scaledRne_eq]
    exact rneDiv_le_of_le_mul _ _ _ hcpos k2.le
  have hclose := rneDiv_close (N * 2 ^ (-(binadeExp N 100)).toNat)
    (100 * 2 ^ (binadeExp N 100).toNat) hcpos
  rw [← scaledRne_eq] at hclose
  have hrs : roundSig N 100 =
      if scaledRne N 100 (binadeExp N 100) = Float64.hidden * 2
      then (Float64.hidden, binadeExp N 100 + 1)
      else (scaledRne N 100 (binadeExp N 100), binadeExp N 100) := by
    unfold roundSig
    simp only [hmax]
  rw [hrs] at hle ⊢
  generalize scaledRne N 100 (binadeExp N 100) = m at *
  generalize binadeExp N 100 = eb at *
  by_cases hc : m = Float64.hidden * 2
  · rw [if_pos hc] at hle ⊢
    simp only at hle ⊢
    rw [hidden_eq] at hc ⊢
    subst hc
    refine ⟨le_refl _, by norm_num, by omega, hle, ?_, ?_⟩
    · by_cases h0 : 0 ≤ eb
      · have e1 : (-(eb + 1)).toNat = 0 := by omega
        have e2 : (-eb).toNat = 0 := by omega
        have e3 : (eb + 1).toNat = eb.toNat + 1 := by omega
        rw [e1, e3, pow_succ]
        rw [e2] at hclose
        have := hclose.1
        generalize 2 ^ eb.toNat = X at *
        omega
      · have e1 : (-eb).toNat = (-(eb + 1)).toNat + 1 := by omega
        have e2 : eb.toNat = 0 := by omega
        have e3 : (eb + 1).toNat = 0 := by omega
        rw [e3]
        rw [e1, e2, pow_succ, show N * (2 ^ (-(eb + 1)).toNat * 2) =
          2 * (N * 2 ^ (-(eb + 1)).toNat) by ring] at hclose
        have := hclose.1
        generalize 2 ^ (-(eb + 1)).toNat = X at *
        omega
    · by_cases h0 : 0 ≤ eb
      · have e1 : (-(eb + 1)).toNat = 0 := by omega
        have e2 : (-eb).toNat = 0 := by omega
        have e3 : (eb + 1).toNat = eb.toNat + 1 := by omega
        rw [e1, e3, pow_succ]
        rw [e2] at hclose
        have := hclose.2
        generalize 2 ^ eb.toNat = X at *
        omega
      · have e1 : (-eb).toNat = (-(eb + 1)).toNat + 1 := by omega
        have e2 : eb.toNat = 0 := by omega
        have e3 : (eb + 1).toNat = 0 := by omega
        rw [e3]
        rw [e1, e2, pow_succ, show N * (2 ^ (-(eb + 1)).toNat * 2) =
          2 * (N * 2 ^ (-(eb + 1)).toNat) by ring] at hclose
        have := hclose.2
        generalize 2 ^ (-(eb + 1)).toNat = X at *
        omega
  · rw [if_neg hc] at hle ⊢
    simp only at hle ⊢
    rw [hidden_eq] at hc
    refine ⟨hraw1, by omega, hge, hle, hclose.1, hclose.2⟩

theorem roundSig_of_binade (a : Nat) (m : Nat) (e : Int) (ha : a ≠ 0) (he : -1074 ≤ e)
    (h1 : 2 ^ 52 * (100 * 2 ^ e.toNat) ≤ a * 2 ^ (-e).toNat)
    (h2 : a * 2 ^ (-e).toNat < 2 ^ 53 * (100 * 2 ^ e.toNat))
    (hm : rneDiv (a * 2 ^ (-e).toNat) (100 * 2 ^ e.toNat) = m) (hm2 : m < 2 ^ 53) :
    roundSig a 100 = (m, e) := by
  have hb := binadeExp_unique a 100 ha (by decide) e h1 h2
  have hmax : max e (-1074) = e := by omega
  have hne : m ≠ Float64.hidden * 2 := by
    rw [hidden_eq]
    omega
  unfold roundSig
  simp only [hb, hmax, scaledRne_eq, hm, hne, if_false]

/-- Formatting the float found for `N` hundredths and parsing the text again finds the
same significand and exponent. -/
theorem roundSig_again (N m : Nat) (e : Int) (hrs : roundSig N 100 = (m, e))
    (hm1 : 2 ^ 52 ≤ m) (hm2 : m < 2 ^ 53) (he1 : -1074 ≤ e)
    (hc1 : 2 * (N * 2 ^ (-e).toNat) ≤ 2 * (100 * 2 ^ e.toNat * m) + 100 * 2 ^ e.toNat)
    (hc2 : 2 * (100 * 2 ^ e.toNat * m) ≤ 2 * (N * 2 ^ (-e).toNat) + 100 * 2 ^ e.toNat) :
    scaledRne (100 * m) 1 (-e) ≠ 0 ∧ roundSig (scaledRne (100 * m) 1 (-e)) 100 = (m, e) := by
  rw [scaledRne_eq]
  simp only [neg_neg, Nat.one_mul]
  by_cases h0 : 0 ≤ e
  · -- the float is an integer: the text spells it exactly
    have hu : (-e).toNat = 0 := by omega
    rw [hu]
    simp only [pow_zero, rneDiv_one]
    have hpos : 0 < 2 ^ e.toNat := by positivity
    have hne : 100 * m * 2 ^ e.toNat ≠ 0 := by
      have : 0 < 100 * m * 2 ^ e.toNat := by positivity
      omega
    refine ⟨hne, ?_⟩
    apply roundSig_of_binade _ m e hne he1
    · rw [hu, pow_zero, Nat.mul_one]
      calc 2 ^ 52 * (100 * 2 ^ e.toNat) ≤ m * (100 * 2 ^ e.toNat) :=
            Nat.mul_le_mul_right _ hm1
        _ = 100 * m * 2 ^ e.toNat := by ring
    · rw [hu, pow_zero, Nat.mul_one]
      calc 100 * m * 2 ^ e.toNat = m * (100 * 2 ^ e.toNat) := by ring
        _ < 2 ^ 53 * (100 * 2 ^ e.toNat) :=
            Nat.mul_lt_mul_of_pos_right hm2 (by positivity)
    · rw [hu, pow_zero, Nat.mul_one]
      rw [show 100 * m * 2 ^ e.toNat = m * (100 * 2 ^ e.toNat) by ring]
      exact rneDiv_mul m _ (by positivity)
    · exact hm2
  · have hv : e.toNat = 0 := by omega
    rw [hv] at hc1 hc2 ⊢
    simp only [pow_zero, Nat.mul_one] at hc1 hc2 ⊢
    by_cases h7 : e ≤ -7
    · -- below 2^46 the text found is the text parsed
      have hk : 128 ≤ 2 ^ (-e).toNat := by
        calc 128 = 2 ^ 7 := rfl
          _ ≤ 2 ^ (-e).toNat := Nat.pow_le_pow_right (by decide) (by omega)
      have hN : rneDiv (100 * m) (2 ^ (-e).toNat) = N := by
        apply rneDiv_eq_of_close _ _ _ (by positivity)
        · rw [Nat.mul_comm (2 ^ (-e).toNat) N]
          omega
        · rw [Nat.mul_comm (2 ^ (-e).toNat) N]
          omega
      rw [hN]
      refine ⟨?_, hrs⟩
      rintro rfl
      simp only [Nat.zero_mul] at hc2
      omega
    · -- from 2^46 to 2^52 the text moves by less than half a unit in the last place
      have hcl := rneDiv_close (100 * m) (2 ^ (-e).toNat) (by positivity)
      have he6 : -6 ≤ e := by omega
      have hem : e ≤ -1 := by omega
      generalize hN1 : rneDiv (100 * m) (2 ^ (-e).toNat) = N1 at hcl ⊢
      have hne : N1 ≠ 0 := by
        rintro rfl
        interval_cases e <;> simp at hcl <;> omega
      refine ⟨hne, ?_⟩
      apply roundSig_of_binade _ m e hne he1
      · rw [hv]
        interval_cases e <;> simp at hcl ⊢ <;> omega
      · rw [hv]
        interval_cases e <;> simp at hcl ⊢ <;> omega
      · rw [hv, pow_zero, Nat.mul_one]
        apply rneDiv_eq_of_close _ _ _ (by decide)
        · interval_cases e <;> simp at hcl ⊢ <;> omega
        · interval_cases e <;> simp at hcl ⊢ <;> omega
      · exact hm2

theorem roundPrice_of_mant_zero (x : Float64) (h1 : x.isNaN = false) (h2 : x.isInf = false)
    (h3 : x.mant = 0) : roundPrice x = Float64.zero x.sign := by
  have h0 : ∀ e : Int, scaledRne (100 * 0) 1 e = 0 := by
    intro e
    rw [scaledRne_eq, Nat.mul_zero, Nat.zero_mul, rneDiv_zero]
  simp only [roundPrice, Sprintf02f, h1, h2, h3, h0, ParseFloat, nearestFloat, if_true,
    Bool.false_eq_true, if_false]

theorem roundPrice_zero (s : Bool) : roundPrice (Float64.zero s) = Float64.zero s :=
  roundPrice_of_mant_zero (Float64.zero s) rfl rfl rfl

/-- The rounding `Add` applies is idempotent: a price that came out of it is left as it
is by a second rounding (bit for bit, NaN and the infinities included). -/
theorem roundPrice_idem (x : Float64) : roundPrice (roundPrice x) = roundPrice x := by
  by_cases hn : x.isNaN = true
  · have h1 : roundPrice x = Float64.nan := by
      simp [roundPrice, Sprintf02f, hn, ParseFloat]
    rw [h1]
    decide
  · by_cases hi : x.isInf = true
    · have h1 : roundPrice x = Float64.inf x.sign := by
        simp [roundPrice, Sprintf02f, hn, hi, ParseFloat]
      rw [h1]
      cases x.sign <;> decide
    · have hn' : x.isNaN = false := by simpa using hn
      have hi' : x.isInf = false := by simpa using hi
      have hb := sprintf_hundredths_le x hn' hi'
      have h1 : roundPrice x =
          (nearestFloat x.sign (scaledRne (100 * x.mant) 1 (-x.exp2)) 100).1 := by
        simp [roundPrice, Sprintf02f, hn, hi, ParseFloat]
      rw [h1]
      generalize scaledRne (100 * x.mant) 1 (-x.exp2) = N at hb
      generalize x.sign = s
      by_cases hN : N = 0
      · subst hN
        have : (nearestFloat s 0 100).1 = Float64.zero s := by simp [nearestFloat]
        rw [this]
        exact roundPrice_zero s
      · obtain ⟨m1, m2, e1, e2, c1, c2⟩ := roundSig_hundredths N hN hb
        have hnf : (nearestFloat s N 100).1 =
            (encodeFloat s (roundSig N 100).1 (roundSig N 100).2).1 := by
          simp [nearestFloat, hN]
        rw [hnf]
        obtain ⟨_, ysign, ymant, yexp, ynan, yinf⟩ :=
          encodeFloat_normal s _ _ m1 m2 e1 e2
        obtain ⟨hne, hagain⟩ :=
          roundSig_again N (roundSig N 100).1 (roundSig N 100).2 rfl m1 m2 e1 c1 c2
        generalize hy : (encodeFloat s (roundSig N 100).1 (roundSig N 100).2).1 = y at *
        have h2 : roundPrice y =
            (nearestFloat s (scaledRne (100 * (roundSig N 100).1) 1 (-(roundSig N 100).2))
              100).1 := by
          simp [roundPrice, Sprintf02f, ynan, yinf, ParseFloat, ysign, ymant, yexp]
        rw [h2, nearestFloat, if_neg hne, hagain]
        exact hy

theorem Float64.ge0_of_not_lt0 (x : Float64) (hn : x.isNaN = false) (h : x.lt0 = false) :
    x.ge0 = true := by
  unfold Float64.lt0 at h
  unfold Float64.ge0
  cases hs : x.sign <;> cases hz : x.isZero <;> simp_all

/-! ## The store invariant -/

theorem nearestFloat_sign (neg : Bool) (a b : Nat) : (nearestFloat neg a b).1.sign = neg := by
  unfold nearestFloat encodeFloat
  split_ifs <;> rfl

/-- Rounding never turns a price that is not below zero into one that is. -/
theorem roundPrice_not_lt0 (x : Float64) (h : x.lt0 = false) : (roundPrice x).lt0 = false := by
  unfold roundPrice Sprintf02f
  by_cases hn : x.isNaN = true
  · simp only [hn, if_true, ParseFloat]
    decide
  · by_cases hi : x.isInf = true
    · have hs : x.sign = false := by
        have hz : x.isZero = false := by
          simp only [Float64.isInf, Bool.and_eq_true, beq_iff_eq] at hi
          simp [Float64.isZero, hi.1]
        cases hsg : x.sign
        · rfl
        · simp [Float64.lt0, hsg, hn, hz] at h
      simp only [hn, hi, if_true, if_false, ParseFloat, hs]
      decide
    · simp only [hn, hi, if_false, ParseFloat]
      cases hsg : x.sign
      · have := nearestFloat_sign false (scaledRne (100 * x.mant) 1 (-x.exp2)) 100
        simp [Float64.lt0, this]
      · have hz : x.isZero = true := by
          cases hzz : x.isZero
          · simp [Float64.lt0, hsg, hn, hzz] at h
          · rfl
        have hm : x.mant = 0 := by
          simp only [Float64.isZero, Bool.and_eq_true, beq_iff_eq] at hz
          simp [Float64.mant, hz.1, hz.2]
        have h0 : scaledRne (100 * x.mant) 1 (-x.exp2) = 0 := by
          rw [hm]
          unfold scaledRne
          split_ifs <;> simp [rneDiv_zero]
        rw [h0]
        decide

theorem StoreInv_newDB (T : CaseTable) : StoreInv T NewDB := by
  simp [StoreInv, NewDB]

theorem StoreInv_add (T : CaseTable) (d : DB) (p : ProduceItem) (h : StoreInv T d) :
    StoreInv T (DB.Add T d p).1 := by
  cases he : (DB.Add T d p).2.2 with
  | some e => rw [Add_store_of_some T d p e he]; exact h
  | none =>
    obtain ⟨h1, h2, h3, h4⟩ := (Add_eq_none_iff T d p).1 he
    rw [(Add_store_of_none T d p he).1]
    refine ⟨?_, ?_⟩
    · rw [List.pairwise_append]
      refine ⟨h.1, List.pairwise_singleton _ _, ?_⟩
      intro a ha b hb
      rw [List.mem_singleton] at hb
      subst hb
      rw [sameCode_comm]
      exact h4 a ha
    · intro q hq
      rw [List.mem_append, List.mem_singleton] at hq
      rcases hq with hq | rfl
      · exact h.2 q hq
      · exact ⟨h1, h2, roundPrice_not_lt0 _ h3, roundPrice_idem _⟩

theorem StoreInv_delete (T : CaseTable) (d : DB) (code : String) (h : StoreInv T d) :
    StoreInv T (DB.Delete T d code).1 := by
  cases hg : GetItemIndex T code d.Produce with
  | none => rw [Delete_of_not_found T d code hg]; exact h
  | some idx =>
    obtain ⟨l1, p, l2, hsplit, _, _, _, hdel⟩ := Delete_of_found T d code idx hg
    rw [hdel]
    have hperm : (l1 ++ lastToFront l2).Perm (l1 ++ l2) :=
      List.Perm.append_left l1 (lastToFront_perm l2)
    have hsub : (l1 ++ l2).Sublist d.Produce := by
      rw [hsplit]
      exact List.Sublist.append_left (List.sublist_cons_self p l2) l1
    refine ⟨?_, ?_⟩
    · have hsymm : ∀ a b : ProduceItem, sameCode T a.Code b.Code = false →
          sameCode T b.Code a.Code = false := by
        intro a b hab
        rw [sameCode_comm]
        exact hab
      exact (hperm.pairwise_iff (fun {a b} hab => hsymm a b hab)).2 (h.1.sublist hsub)
    · intro q hq
      exact h.2 q (hsub.subset (hperm.subset hq))

/-- Every reachable store satisfies the invariant. -/
theorem Reachable.inv (T : CaseTable) (d : DB) (h : Reachable T d) : StoreInv T d := by
  induction h with
  | newDB => exact StoreInv_newDB T
  | add d p _ ih => exact StoreInv_add T d p ih
  | delete d code _ ih => exact StoreInv_delete T d code ih

/-- In every reachable store a price is left as it is by the rounding, and is `>= 0`
unless it is NaN. -/
theorem Reachable.price (T : CaseTable) (d : DB) (h : Reachable T d) :
    ∀ q ∈ d.Produce, roundPrice q.UnitPrice = q.UnitPrice ∧
      (q.UnitPrice.isNaN = false → q.UnitPrice.ge0 = true) := by
  intro q hq
  obtain ⟨_, _, h3, h4⟩ := (Reachable.inv T d h).2 q hq
  exact ⟨h4, fun hn => Float64.ge0_of_not_lt0 _ hn h3⟩

/-- After a successful `Delete` in a store with pairwise different codes no item with
the code is left. -/
theorem Delete_removes (T : CaseTable) (d : DB) (code : String) (hinv : StoreInv T d)
    (hdel : (DB.Delete T d code).2 = .ok ()) :
    ∀ q ∈ (DB.Delete T d code).1.Produce, sameCode T code q.Code = false := by
  cases hg : GetItemIndex T code d.Produce with
  | none =>
    rw [Delete_of_not_found T d code hg] at hdel
    simp at hdel
  | some idx =>
    obtain ⟨l1, p, l2, hsplit, _, hs, hall, hd⟩ := Delete_of_found T d code idx hg
    rw [hd]
    intro q hq
    rw [List.mem_append] at hq
    rcases hq with hq | hq
    · exact hall q hq
    · have hq2 : q ∈ l2 := (lastToFront_perm l2).subset hq
      have hpw := hinv.1
      rw [hsplit, List.pairwise_append] at hpw
      have hpq : sameCode T p.Code q.Code = false := (List.pairwise_cons.1 hpw.2.1).1 q hq2
      have hcp : ToLower T code = ToLower T p.Code := (sameCode_iff T _ _).1 hs
      simpa [sameCode, hcp] using hpq

/-! ## Claims about `Delete` followed by `Get` -/

/-- In a store reached by calls made one after the other, a `Delete` that succeeds is
followed by a `Get` of the same text that fails: with `ErrNotFound` when the text passes
the format check and with `ErrInvalidCode` when it does not. -/
theorem Delete_then_Get_in_sequence (T : CaseTable) (d : DB) (code : String)
    (hr : Reachable T d) (hdel : (DB.Delete T d code).2 = .ok ()) :
    DB.Get T (DB.Delete T d code).1 code =
      if CodeIsValid code = true then .err .ErrNotFound else .err .ErrInvalidCode := by
  have hgone := Delete_removes T d code (Reachable.inv T d hr) hdel
  have hnone : GetItemIndex T code (DB.Delete T d code).1.Produce = none :=
    (GetItemIndexFrom_eq_none T code _ 0).2 hgone
  unfold DB.Get
  by_cases hv : CodeIsValid code = true
  · simp [hv, hnone]
  · simp [hv]

theorem Delete_never_ErrInvalidCode (T : CaseTable) (d : DB) (code : String) :
    (DB.Delete T d code).2 ≠ .err .ErrInvalidCode := by
  unfold DB.Delete
  split
  · simp
  · split <;> simp

/-- C3 fails on the code: `Delete` scans without the format check that `Get` and `Add`
make first, so it never returns `ErrInvalidCode` (the text `1234` is answered
`ErrNotFound`).  With the kale stored under `k234-1234-1234-1234`, `Delete` of the same
text with U+212A (KELVIN SIGN) for `k`, which fails the format check, succeeds and
removes the kale, and the `Get` of that text that follows fails with `ErrInvalidCode`,
not with `ErrNotFound`.  And on the store with the lettuce twice, which two concurrent
`Add` calls leave, `Delete` of the lettuce's code succeeds and the `Get` that follows
succeeds too. -/
theorem Delete_skips_format_check :
    (∀ (T : CaseTable) (d : DB) (code : String),
        (DB.Delete T d code).2 ≠ .err .ErrInvalidCode) ∧
      CodeIsValid "1234" = false ∧
      DB.Get goCase NewDB "1234" = .err .ErrInvalidCode ∧
      (DB.Delete goCase NewDB "1234").2 = .err .ErrNotFound ∧
      CodeIsValid "\u212A234-1234-1234-1234" = false ∧
      DB.Delete goCase (DB.Add goCase NewDB ⟨"kale", "k234-1234-1234-1234", lit false 100 2⟩).1
          "\u212A234-1234-1234-1234" = (NewDB, .ok ()) ∧
      DB.Get goCase
          (DB.Delete goCase
            (DB.Add goCase NewDB ⟨"kale", "k234-1234-1234-1234", lit false 100 2⟩).1
            "\u212A234-1234-1234-1234").1 "\u212A234-1234-1234-1234" = .err .ErrInvalidCode ∧
      (DB.Delete goCase
          ⟨[⟨"Lettuce", "A12T-4GH7-QPL9-3N4M", lit false 346 2⟩,
            ⟨"Lettuce", "A12T-4GH7-QPL9-3N4M", lit false 346 2⟩]⟩
          "A12T-4GH7-QPL9-3N4M").2 = .ok () ∧
      DB.Get goCase
          (DB.Delete goCase
            ⟨[⟨"Lettuce", "A12T-4GH7-QPL9-3N4M", lit false 346 2⟩,
              ⟨"Lettuce", "A12T-4GH7-QPL9-3N4M", lit false 346 2⟩]⟩
            "A12T-4GH7-QPL9-3N4M").1 "A12T-4GH7-QPL9-3N4M" =
        .ok ⟨"Lettuce", "A12T-4GH7-QPL9-3N4M", lit false 346 2⟩ :=
  ⟨Delete_never_ErrInvalidCode, by decide, by decide, by decide, by decide, by decide,
    by decide, by decide, by decide⟩

/-- The error `Add` returns, as a chain of tests. -/
theorem Add_err_chain (T : CaseTable) (d : DB) (p : ProduceItem) :
    (DB.Add T d p).2.2 =
      if CodeIsValid p.Code = false then some .ErrInvalidCode
      else if NameIsValid p.Name = false then some .ErrInvalidName
      else if p.UnitPrice.lt0 = true then some .ErrInvalidUnitPrice
      else if (GetItemIndex T p.Code d.Produce).isSome = true then some .ErrDuplicateItem
      else none := by
  rw [Add_eq]
  split_ifs <;> rfl

/-! ## Claims about the `add` stage -/

/-- C7: for every store and every undecided result (status code 0) the `add` stage
sets the status code to 201 when `Add` succeeds, 400 when it fails with `ErrInvalidCode`
or `ErrInvalidName`, 409 when it fails with `ErrDuplicateItem` and 500 for any other
error; an item with valid code and name and a negative price gets 500; the code set is
one of 201, 400, 409, 500 and never 0. -/
theorem add_statusCode (T : CaseTable) (d : DB) (i : AddResult) (h0 : i.StatusCode = 0) :
    (add T d i).2.StatusCode =
        (match (DB.Add T d i.Produce).2.2 with
          | none => 201
          | some .ErrInvalidCode => 400
          | some .ErrInvalidName => 400
          | some .ErrDuplicateItem => 409
          | some _ => 500) ∧
      (CodeIsValid i.Produce.Code = true → NameIsValid i.Produce.Name = true →
        i.Produce.UnitPrice.lt0 = true →
        (DB.Add T d i.Produce).2.2 = some .ErrInvalidUnitPrice ∧
          (add T d i).2.StatusCode = 500) ∧
      ((add T d i).2.StatusCode = 201 ∨ (add T d i).2.StatusCode = 400 ∨
        (add T d i).2.StatusCode = 409 ∨ (add T d i).2.StatusCode = 500) ∧
      (add T d i).2.StatusCode ≠ 0 := by
  have hmap : (add T d i).2.StatusCode =
      (match (DB.Add T d i.Produce).2.2 with
        | none => 201
        | some .ErrInvalidCode => 400
        | some .ErrInvalidName => 400
        | some .ErrDuplicateItem => 409
        | some _ => 500) := by
    unfold add
    rw [if_pos h0]
    rcases hA : DB.Add T d i.Produce with ⟨d1, p1, e⟩
    cases e with
    | none => rfl
    | some e => cases e <;> rfl
  refine ⟨hmap, ?_, ?_, ?_⟩
  · intro hc hn hp
    have he : (DB.Add T d i.Produce).2.2 = some .ErrInvalidUnitPrice := by
      rw [Add_err_chain]
      simp [hc, hn, hp]
    exact ⟨he, by rw [hmap, he]⟩
  · rw [hmap]
    rcases (DB.Add T d i.Produce).2.2 with _ | e
    · exact Or.inl rfl
    · cases e <;> simp
  · rw [hmap]
    rcases (DB.Add T d i.Produce).2.2 with _ | e
    · decide
    · cases e <;> decide

/-- Witness of C7: the peach of `LoadDB` posted to the empty store gets 201. -/
theorem add_statusCode_witness :
    (add goCase NewDB (genResult ⟨"Peach", "E5T6-9UI3-TH15-QR88", lit false 299 2⟩)).2.StatusCode
      ≠ 0 :=
  (add_statusCode goCase NewDB (genResult ⟨"Peach", "E5T6-9UI3-TH15-QR88", lit false 299 2⟩)
    (by decide)).2.2.2

/-- C8, as the code has it: for every store and every undecided result the `add` stage
sets the status text to `201: added` on success, `400 item code is invalid` for
`ErrInvalidCode` (no colon), `400: item name is invalid` for `ErrInvalidName`,
`409: item already exists` for `ErrDuplicateItem`, and `500: ` followed by the error
text for any other error: every text starts with the status code. -/
theorem add_statusText (T : CaseTable) (d : DB) (i : AddResult) (h0 : i.StatusCode = 0) :
    (add T d i).2.Status =
      (match (DB.Add T d i.Produce).2.2 with
        | none => "201: added"
        | some .ErrInvalidCode => "400 item code is invalid"
        | some .ErrInvalidName => "400: item name is invalid"
        | some .ErrDuplicateItem => "409: item already exists"
        | some e => "500: " ++ e.Error) := by
  unfold add
  rw [if_pos h0]
  rcases hA : DB.Add T d i.Produce with ⟨d1, p1, e⟩
  cases e with
  | none => rfl
  | some e => cases e <;> rfl

/-- Witness of C8: a duplicate of the stored lettuce gets `409: item already exists`. -/
theorem add_statusText_witness :
    (add goCase ⟨[⟨"Lettuce", "A12T-4GH7-QPL9-3N4M", lit false 346 2⟩]⟩
        (genResult ⟨"Lettuce", "a12t-4gh7-qpl9-3n4m", lit false 346 2⟩)).2.Status =
      (match (DB.Add goCase ⟨[⟨"Lettuce", "A12T-4GH7-QPL9-3N4M", lit false 346 2⟩]⟩
          (genResult ⟨"Lettuce", "a12t-4gh7-qpl9-3n4m", lit false 346 2⟩).Produce).2.2 with
        | none => "201: added"
        | some .ErrInvalidCode => "400 item code is invalid"
        | some .ErrInvalidName => "400: item name is invalid"
        | some .ErrDuplicateItem => "409: item already exists"
        | some e => "500: " ++ e.Error) :=
  add_statusText goCase ⟨[⟨"Lettuce", "A12T-4GH7-QPL9-3N4M", lit false 346 2⟩]⟩
    (genResult ⟨"Lettuce", "a12t-4gh7-qpl9-3n4m", lit false 346 2⟩) (by decide)

/-- C8 as stated fails: the candidate `x`, `1234`, 1.00 gets status code 400 with the
status text `400 item code is invalid`, which is not the bare error text. -/
theorem add_statusText_counterexample :
    (add goCase NewDB (genResult ⟨"x", "1234", lit false 100 2⟩)).2.StatusCode = 400 ∧
      (add goCase NewDB (genResult ⟨"x", "1234", lit false 100 2⟩)).2.Status =
        "400 item code is invalid" ∧
      (add goCase NewDB (genResult ⟨"x", "1234", lit false 100 2⟩)).2.Status ≠
        "item code is invalid" := by
  decide

/-! ## Claims about `Get` and `Delete` alone -/

theorem GetItemIndexFrom_find (T : CaseTable) (c : String) (l : List ProduceItem) :
    ∀ i, (GetItemIndexFrom T c l i = none ∧
        l.find? (fun q => sameCode T c q.Code) = none) ∨
      ∃ k q, GetItemIndexFrom T c l i = some (i + k) ∧ l[k]? = some q ∧
        l.find? (fun q => sameCode T c q.Code) = some q := by
  induction l with
  | nil => intro i; left; simp [GetItemIndexFrom]
  | cons p ps ih =>
    intro i
    by_cases h : ToLower T c = ToLower T p.Code
    · right
      refine ⟨0, p, ?_, by simp, ?_⟩
      · simp [GetItemIndexFrom, h]
      · simp [List.find?, sameCode, h]
    · have hs : sameCode T c p.Code = false := (sameCode_false_iff T _ _).2 h
      rcases ih (i + 1) with ⟨h1, h2⟩ | ⟨k, q, h1, h2, h3⟩
      · left
        simp [GetItemIndexFrom, h, h1, List.find?, hs, h2]
      · right
        refine ⟨k + 1, q, ?_, by simpa using h2, ?_⟩
        · simp only [GetItemIndexFrom, h, if_false, h1]
          congr 1
          omega
        · simp [List.find?, hs, h3]

/-- C12: for every store and code string, `Get` fails with `ErrInvalidCode` exactly when
the code fails the format check, whatever is stored; otherwise it fails with
`ErrNotFound` exactly when no stored item's code equals the code ignoring case;
otherwise it returns the first stored item whose code equals it ignoring case.  (`Get`
only reads the slice: it has no store to give back.) -/
theorem Get_spec (T : CaseTable) (d : DB) (code : String) :
    DB.Get T d code =
      if CodeIsValid code = false then .err .ErrInvalidCode
      else
        match d.Produce.find? (fun q => sameCode T code q.Code) with
        | none => .err .ErrNotFound
        | some q => .ok q := by
  unfold DB.Get GetItemIndex
  by_cases hv : CodeIsValid code = true
  · simp only [hv, Bool.not_true, Bool.false_eq_true, if_false, Bool.true_eq_false]
    rcases GetItemIndexFrom_find T code d.Produce 0 with ⟨h1, h2⟩ | ⟨k, q, h1, h2, h3⟩
    · rw [h1, h2]
    · rw [h1, h3]
      simp only [Nat.zero_add, h2]
  · simp [hv]

/-- C15: for every store and code string, `Delete` fails with `ErrNotFound` exactly when
no stored item's code equals the code ignoring case; otherwise it succeeds and the new
slice is the old one with the first matching slot overwritten by the last item and the
last slot dropped: one shorter, and holding the items of all the other slots, each once
(their order may differ). -/
theorem Delete_spec (T : CaseTable) (d : DB) (code : String) :
    ((DB.Delete T d code).2 = .err .ErrNotFound ↔
        ∀ q ∈ d.Produce, sameCode T code q.Code = false) ∧
      ((∃ q ∈ d.Produce, sameCode T code q.Code = true) →
        ∃ l1 p l2 last, d.Produce = l1 ++ p :: l2 ∧
          (∀ q ∈ l1, sameCode T code q.Code = false) ∧ sameCode T code p.Code = true ∧
          d.Produce[d.Produce.length - 1]? = some last ∧
          DB.Delete T d code = (⟨(d.Produce.set l1.length last).dropLast⟩, .ok ()) ∧
          (DB.Delete T d code).1.Produce.length + 1 = d.Produce.length ∧
          (DB.Delete T d code).1.Produce.Perm (l1 ++ l2)) := by
  cases hg : GetItemIndex T code d.Produce with
  | none =>
    have hall := (GetItemIndexFrom_eq_none T code d.Produce 0).1 hg
    rw [Delete_of_not_found T d code hg]
    refine ⟨⟨fun _ => hall, fun _ => rfl⟩, ?_⟩
    rintro ⟨q, hq, hs⟩
    rw [hall q hq] at hs
    exact absurd hs (by decide)
  | some idx =>
    obtain ⟨l1, p, l2, hsplit, hlen, hs, hall, hdel⟩ := Delete_of_found T d code idx hg
    obtain ⟨last, hl1, hl2⟩ := swap_remove_eq l1 l2 p
    rw [← hsplit] at hl1 hl2
    have hperm : (l1 ++ lastToFront l2).Perm (l1 ++ l2) :=
      List.Perm.append_left l1 (lastToFront_perm l2)
    constructor
    · rw [hdel]
      constructor
      · intro h
        exact absurd h (by simp)
      · intro h
        rw [hsplit] at h
        have := h p (by simp)
        rw [hs] at this
        exact absurd this (by decide)
    · intro _
      refine ⟨l1, p, l2, last, hsplit, hall, hs, hl1, ?_, ?_, ?_⟩
      · rw [hdel, hl2]
      · rw [hdel]
        have := hperm.length_eq
        simp only [List.length_append] at this
        rw [hsplit]
        simp only [List.length_append, List.length_cons]
        omega
      · rw [hdel]
        exact hperm

/-- C16 fails on the code: the pattern of `CodeIsValid` is not anchored, so a text that
only contains four groups of four is accepted, with extra characters before it, after
it, or a fifth group; what the documentation describes (and every text of exactly that
format) is accepted too. -/
theorem CodeIsValid_unanchored :
    CodeIsValid "aaa1-bbb2-ccc3-ddd4-eee5" = true ∧
      codeFormatExact "aaa1-bbb2-ccc3-ddd4-eee5" = false ∧
      CodeIsValid "$aaa1-bbb2-ccc3-ddd4" = true ∧
      codeFormatExact "$aaa1-bbb2-ccc3-ddd4" = false ∧
      CodeIsValid "aaa1-bbb2-ccc3-ddd4!" = true ∧
      codeFormatExact "aaa1-bbb2-ccc3-ddd4!" = false ∧
      codeFormatExact "aaa1-bbb2-ccc3-ddd4" = true ∧
      ∀ c : String, codeFormatExact c = true → CodeIsValid c = true := by
  refine ⟨by decide, by decide, by decide, by decide, by decide, by decide, by decide, ?_⟩
  intro c hc
  simp only [codeFormatExact, Bool.and_eq_true] at hc
  unfold CodeIsValid
  cases hd : c.data with
  | nil => rw [hd] at hc; simp [matchCodeAt] at hc
  | cons a l =>
    rw [hd] at hc
    simp [matchCodeAnywhere, hc.2]

/-- C17: for every configuration string and every hardware parallelism `n >= 1`,
`loadMaxProcs` returns `r` with `0 < r <= n`: the integer the string denotes when
`Atoi` parses it and it lies in `1..n`, and `n` in every other case (not parsed, zero,
negative, or greater than `n`). -/
theorem loadMaxProcs_spec (n : Int) (s : String) (hn : 1 ≤ n) :
    0 < loadMaxProcs n s ∧ loadMaxProcs n s ≤ n ∧
      (∀ v, Atoi s = some v → 1 ≤ v → v ≤ n → loadMaxProcs n s = v) ∧
      ((∀ v, Atoi s = some v → v < 1 ∨ n < v) → loadMaxProcs n s = n) := by
  unfold loadMaxProcs
  cases h : Atoi s with
  | none =>
    refine ⟨by simp only; omega, by simp, ?_, ?_⟩
    · intro v hv
      exact absurd hv (by simp)
    · intro _
      rfl
  | some v =>
    simp only
    by_cases hc : v ≤ 0 ∨ v > n
    · rw [if_pos hc]
      refine ⟨by omega, le_refl _, ?_, fun _ => rfl⟩
      intro w hw h1 h2
      simp only [Option.some.injEq] at hw
      omega
    · rw [if_neg hc]
      refine ⟨by omega, by omega, ?_, ?_⟩
      · intro w hw _ _
        simp only [Option.some.injEq] at hw
        exact hw
      · intro hall
        have := hall v rfl
        omega

/-- Witness of C17: `"5"` on eight processors gives 5. -/
theorem loadMaxProcs_spec_witness : loadMaxProcs 8 "5" = 5 :=
  (loadMaxProcs_spec 8 "5" (by decide)).2.2.1 5 (by decide) (by decide) (by decide)

/-! ## Claims about the worker pipeline and the price of an Outcome -/

theorem addOutcome_statusCode_ne_zero (p1 : ProduceItem) (e : Option Err) :
    (addOutcome p1 e).StatusCode ≠ 0 := by
  cases e with
  | none => simp [addOutcome]
  | some e => cases e <;> simp [addOutcome]

theorem addOutcome_Produce (p1 : ProduceItem) (e : Option Err) :
    (addOutcome p1 e).Produce = p1 := by
  cases e with
  | none => rfl
  | some e => cases e <;> rfl

theorem verifyPrice_of_decided (i : AddResult) (h : i.StatusCode ≠ 0) : verifyPrice i = i := by
  simp [verifyPrice, h]

theorem verifyCode_of_decided (i : AddResult) (h : i.StatusCode ≠ 0) : verifyCode i = i := by
  simp [verifyCode, h]

theorem verifyName_of_decided (i : AddResult) (h : i.StatusCode ≠ 0) : verifyName i = i := by
  simp [verifyName, h]

theorem add_decided (T : CaseTable) (d : DB) (i : AddResult) :
    (add T d i).2.StatusCode ≠ 0 := by
  unfold add
  by_cases h0 : i.StatusCode = 0
  · rw [if_pos h0]
    exact addOutcome_statusCode_ne_zero _ _
  · rw [if_neg h0]
    exact h0

/-- The three validator stages leave what the `add` stage sends as it is. -/
theorem validators_after_add (T : CaseTable) (d : DB) (i : AddResult) :
    verifyName (verifyCode (verifyPrice (add T d i).2)) = (add T d i).2 := by
  have h := add_decided T d i
  rw [verifyPrice_of_decided _ h, verifyCode_of_decided _ h, verifyName_of_decided _ h]

theorem add_genResult (T : CaseTable) (d : DB) (p : ProduceItem) :
    add T d (genResult p) =
      ((DB.Add T d p).1, addOutcome (DB.Add T d p).2.1 (DB.Add T d p).2.2) := by
  simp [add, genResult]

/-- On a slice of items nobody else writes to, an `Add` that returns an error and a
`Delete` that returns `ErrNotFound` return the slice they were given. -/
theorem failed_calls_return_slice (T : CaseTable) (d : DB) (p : ProduceItem) (e : Err)
    (code : String) (hadd : (DB.Add T d p).2.2 = some e)
    (hdel : (DB.Delete T d code).2 = .err .ErrNotFound) :
    (DB.Add T d p).1 = d ∧ (DB.Delete T d code).1 = d ∧ (add T d (genResult p)).1 = d := by
  have h1 := Add_store_of_some T d p e hadd
  have h2 : (DB.Delete T d code).1 = d := by
    cases hg : GetItemIndex T code d.Produce with
    | none => rw [Delete_of_not_found T d code hg]
    | some idx =>
      obtain ⟨_, _, _, _, _, _, _, hd⟩ := Delete_of_found T d code idx hg
      rw [hd] at hdel
      exact absurd hdel (by simp)
  refine ⟨h1, h2, ?_⟩
  rw [add_genResult]
  exact h1

/-- C20: for every store and candidate, the Outcome the worker pipeline makes of it
carries the candidate's name and code unchanged; its price is the candidate's price
rounded to two decimals whenever the status code is 201 or 409 (a rejected duplicate is
rounded too) and the candidate's price unchanged whenever it is 400 or 500. -/
theorem outcome_item (T : CaseTable) (d : DB) (p : ProduceItem) :
    (verifyName (verifyCode (verifyPrice (add T d (genResult p)).2))).Produce.Name = p.Name ∧
      (verifyName (verifyCode (verifyPrice (add T d (genResult p)).2))).Produce.Code =
        p.Code ∧
      (((verifyName (verifyCode (verifyPrice (add T d (genResult p)).2))).StatusCode = 201 ∨
          (verifyName (verifyCode (verifyPrice (add T d (genResult p)).2))).StatusCode = 409) →
        (verifyName (verifyCode (verifyPrice (add T d (genResult p)).2))).Produce.UnitPrice =
          roundPrice p.UnitPrice) ∧
      (((verifyName (verifyCode (verifyPrice (add T d (genResult p)).2))).StatusCode = 400 ∨
          (verifyName (verifyCode (verifyPrice (add T d (genResult p)).2))).StatusCode = 500) →
        (verifyName (verifyCode (verifyPrice (add T d (genResult p)).2))).Produce.UnitPrice =
          p.UnitPrice) := by
  rw [validators_after_add, add_genResult, Add_eq]
  simp only
  by_cases h1 : CodeIsValid p.Code = true
  · by_cases h2 : NameIsValid p.Name = true
    · by_cases h3 : p.UnitPrice.lt0 = true
      · simp [h1, h2, h3, addOutcome, Err.Error]
      · by_cases h4 : (GetItemIndex T p.Code d.Produce).isSome = true
        · simp [h1, h2, h3, h4, addOutcome, Err.Error]
        · simp [h1, h2, h3, h4, addOutcome]
    · simp [h1, h2, addOutcome, Err.Error]
  · simp [h1, addOutcome, Err.Error]

/-! ## Claims about the rounding of the price -/

theorem hundredths_closest (x : Float64) :
    closestInt (100 * x.mant * 2 ^ x.exp2.toNat) (2 ^ (-x.exp2).toNat) (hundredths x) := by
  unfold hundredths closestInt
  rw [scaledRne_eq]
  simp only [neg_neg, Nat.one_mul]
  exact rneDiv_close _ _ (by positivity)

theorem roundPrice_finite (x : Float64) (hn : x.isNaN = false) (hi : x.isInf = false) :
    Sprintf02f x = .fixed x.sign (hundredths x) ∧
      roundPrice x = (nearestFloat x.sign (hundredths x) 100).1 := by
  constructor
  · simp [Sprintf02f, hn, hi, hundredths]
  · simp [roundPrice, Sprintf02f, hn, hi, hundredths, ParseFloat]

/-- The float parsed from a non-zero number of hundredths is a normal number with the
sign of the text whose significand is a closest integer to the scaled decimal. -/
theorem roundPrice_nearest (x : Float64) (hn : x.isNaN = false) (hi : x.isInf = false)
    (h0 : hundredths x ≠ 0) :
    (roundPrice x).sign = x.sign ∧ 2 ^ 52 ≤ (roundPrice x).mant ∧
      (roundPrice x).mant < 2 ^ 53 ∧
      closestInt (hundredths x * 2 ^ (-(roundPrice x).exp2).toNat)
        (100 * 2 ^ (roundPrice x).exp2.toNat) (roundPrice x).mant := by
  have hb := sprintf_hundredths_le x hn hi
  rw [(roundPrice_finite x hn hi).2]
  change hundredths x ≤ _ at hb
  generalize hundredths x = N at *
  obtain ⟨m1, m2, e1, e2, c1, c2⟩ := roundSig_hundredths N h0 hb
  obtain ⟨_, ysign, ymant, yexp, _, _⟩ :=
    encodeFloat_normal x.sign _ _ m1 m2 e1 e2
  have hnf : (nearestFloat x.sign N 100).1 =
      (encodeFloat x.sign (roundSig N 100).1 (roundSig N 100).2).1 := by
    simp [nearestFloat, h0]
  rw [hnf, ysign, ymant, yexp]
  exact ⟨rfl, m1, m2, c1, c2⟩

/-- C11: for every item with a valid code and name, a price `p >= 0` and a code not yet
in the store, `Add` stores the item with its price rounded to the nearest hundredth: the
number of hundredths written is a closest integer to `100 * p`, and the price stored is
the float64 closest to that decimal (a normal number whose significand is a closest
integer to the scaled decimal, zero for no hundredths, `+Inf` for `+Inf`); 2.001123 is
stored as 2.00 and 3.4655555555 as 3.47. -/
theorem Add_rounds_price (T : CaseTable) (d : DB) (p : ProduceItem)
    (hcode : CodeIsValid p.Code = true) (hname : NameIsValid p.Name = true)
    (hprice : p.UnitPrice.ge0 = true)
    (hnew : ∀ q ∈ d.Produce, sameCode T p.Code q.Code = false) :
    (DB.Add T d p).2.2 = none ∧
      (DB.Add T d p).1.Produce = d.Produce ++ [⟨p.Name, p.Code, roundPrice p.UnitPrice⟩] ∧
      (p.UnitPrice.isInf = true → roundPrice p.UnitPrice = p.UnitPrice) ∧
      (p.UnitPrice.isInf = false →
        Sprintf02f p.UnitPrice = .fixed p.UnitPrice.sign (hundredths p.UnitPrice) ∧
        closestInt (100 * p.UnitPrice.mant * 2 ^ p.UnitPrice.exp2.toNat)
          (2 ^ (-p.UnitPrice.exp2).toNat) (hundredths p.UnitPrice) ∧
        roundPrice p.UnitPrice =
          (nearestFloat p.UnitPrice.sign (hundredths p.UnitPrice) 100).1 ∧
        (hundredths p.UnitPrice = 0 → roundPrice p.UnitPrice = Float64.zero p.UnitPrice.sign) ∧
        (hundredths p.UnitPrice ≠ 0 →
          (roundPrice p.UnitPrice).sign = p.UnitPrice.sign ∧
          2 ^ 52 ≤ (roundPrice p.UnitPrice).mant ∧ (roundPrice p.UnitPrice).mant < 2 ^ 53 ∧
          closestInt (hundredths p.UnitPrice * 2 ^ (-(roundPrice p.UnitPrice).exp2).toNat)
            (100 * 2 ^ (roundPrice p.UnitPrice).exp2.toNat) (roundPrice p.UnitPrice).mant)) ∧
      roundPrice (lit false 2001123 6) = lit false 200 2 ∧
      roundPrice (lit false 34655555555 10) = lit false 347 2 := by
  have hadd : (DB.Add T d p).2.2 = none :=
    (Add_eq_none_iff T d p).2 ⟨hcode, hname, Float64.lt0_of_ge0 _ hprice, hnew⟩
  have hst := (Add_store_of_none T d p hadd).1
  have hn : p.UnitPrice.isNaN = false := by
    unfold Float64.ge0 at hprice
    cases h : p.UnitPrice.isNaN
    · rfl
    · simp [h] at hprice
  refine ⟨hadd, by rw [hst], ?_, ?_, by decide, by decide⟩
  · intro hi
    have h1 : roundPrice p.UnitPrice = Float64.inf p.UnitPrice.sign := by
      simp [roundPrice, Sprintf02f, hn, hi, ParseFloat]
    rw [h1]
    simp only [Float64.isInf, Bool.and_eq_true, beq_iff_eq] at hi
    rcases hx : p.UnitPrice with ⟨s, ⟨ev, he⟩, ⟨fv, hf⟩⟩
    rw [hx] at hi
    simp only at hi
    obtain ⟨h2, h3⟩ := hi
    subst h2
    subst h3
    rfl
  · intro hi
    obtain ⟨f1, f2⟩ := roundPrice_finite p.UnitPrice hn hi
    refine ⟨f1, hundredths_closest _, f2, ?_, roundPrice_nearest _ hn hi⟩
    intro h0
    rw [f2, h0]
    simp [nearestFloat]

/-- Witness of C11: the item of the tests with the price 2.001123 is stored with the
price 2.00. -/
theorem Add_rounds_price_witness :
    (DB.Add goCase NewDB ⟨"pname", "1234-abcd-ABCD-1234", lit false 2001123 6⟩).1.Produce =
      [⟨"pname", "1234-abcd-ABCD-1234", roundPrice (lit false 2001123 6)⟩] :=
  (Add_rounds_price goCase NewDB ⟨"pname", "1234-abcd-ABCD-1234", lit false 2001123 6⟩
    (by decide) (by decide) (by decide) (by decide)).2.1

/-! ## The network: what every move preserves -/

theorem split_at_slot {α : Type} (l : List α) (j : Nat) (a : α) (h : l[j]? = some a) :
    ∃ A B, l = A ++ a :: B ∧ A.length = j := by
  obtain ⟨hlt, hget⟩ := List.getElem?_eq_some_iff.1 h
  refine ⟨l.take j, l.drop (j + 1), ?_, ?_⟩
  · rw [← hget, ← List.drop_eq_getElem_cons hlt, List.take_append_drop]
  · rw [List.length_take]
    omega

theorem split_at_two_slots {α : Type} (l : List α) (j : Nat) (a b : α) (h : l[j]? = some a)
    (h1 : l[j + 1]? = some b) : ∃ A B, l = A ++ a :: b :: B ∧ A.length = j := by
  obtain ⟨A, B, hl, hA⟩ := split_at_slot l j a h
  refine ⟨A, B.tail, ?_, hA⟩
  subst hl
  rw [List.getElem?_append_right (by omega)] at h1
  have : j + 1 - A.length = 1 := by omega
  rw [this] at h1
  cases B with
  | nil => simp at h1
  | cons c B =>
    simp only [List.getElem?_cons_succ, List.getElem?_cons_zero, Option.some.injEq] at h1
    subst h1
    rfl

theorem set_at_slot {α : Type} (A B : List α) (a c : α) :
    (A ++ a :: B).set A.length c = A ++ c :: B := by
  rw [List.set_append_right _ _ (le_refl _)]
  simp

theorem slotWeight_append (A B : List (Option Tok)) :
    ∀ j, slotWeight j (A ++ B) = slotWeight j A + slotWeight (j + A.length) B := by
  induction A with
  | nil => intro j; simp [slotWeight]
  | cons a A ih =>
    intro j
    have e : j + 1 + A.length = j + (A.length + 1) := by omega
    rw [List.cons_append]
    simp only [slotWeight, List.length_cons]
    rw [ih, e]
    omega

theorem AddCheck_code (T : CaseTable) (d : DB) (p : ProduceItem) :
    (DB.AddCheck T d p).1.Code = p.Code := by
  simp only [DB.AddCheck]
  split_ifs <;> rfl

theorem stage_code (T : CaseTable) (k w : Nat) (h : Heap) (t : Tok) :
    (stage T k w h t).2.res.Produce.Code = t.res.Produce.Code := by
  unfold stage
  split
  · split_ifs
    · simp only [Heap.AddCheck]
      exact AddCheck_code T _ _
    · rfl
  · split
    · rfl
    · rename_i e _
      simp only [addOutcome]
      split_ifs <;> rfl
    · rfl
  · simp only [verifyPrice]
    split_ifs <;> rfl
  · simp only [verifyCode]
    split_ifs <;> rfl
  · simp only [verifyName]
    split_ifs <;> rfl
  · rfl

/-- The variables of the lanes are as many after a stage as before. -/
theorem stage_vars_length (T : CaseTable) (k w : Nat) (h : Heap) (t : Tok) :
    (stage T k w h t).1.vars.length = h.vars.length := by
  unfold stage
  split
  · split_ifs
    · simp [Heap.AddCheck, Heap.setVar]
    · rfl
  · split <;> rfl
  · rfl
  · rfl
  · rfl
  · rfl

/-- A move is made by a live process only; it keeps the number of slots, the number of
variables and the codes held, and, unless it is the panic, uses up one unit of the
weight. -/
theorem step_inv (T : CaseTable) (s s1 : Net) (m : Move) (h : step T s m = some s1) :
    s.crashed = false ∧ s1.slots.length = s.slots.length ∧
      s1.heap.vars.length = s.heap.vars.length ∧ s1.codes.Perm s.codes ∧
      (s1.crashed = false → s1.weight + 1 = s.weight) := by
  unfold step at h
  split_ifs at h with hc
  have hc0 : s.crashed = false := by simpa using hc
  refine ⟨hc0, ?_⟩
  cases m with
  | recv w =>
    simp only at h
    split at h
    · rename_i x xs hp h0 _ _
      simp only [Option.some.injEq] at h
      subst h
      obtain ⟨A, B, hl, hA⟩ := split_at_slot s.slots (7 * w) none h0
      refine ⟨by simp, by simp [Heap.setVar], ?_, ?_⟩
      · simp only [Net.codes, hp, hl, ← hA, set_at_slot, List.reduceOption_append,
          List.reduceOption_cons_of_some, List.reduceOption_cons_of_none, List.map_append,
          List.map_cons, genResult]
        rw [List.perm_iff_count]
        intro c
        simp only [List.count_append, List.count_cons]
        omega
      · intro _
        simp only [Net.weight, hp, hl, ← hA, set_at_slot, slotWeight_append, slotWeight,
          List.length_cons, Option.isSome_some, Option.isSome_none, if_true]
        have : (0 + A.length) % 7 = 0 := by
          rw [hA]
          omega
        simp only [this]
        simp
        omega
    · simp at h
  | advance j =>
    simp only at h
    split_ifs at h with h6
    split at h
    · rename_i t h0 h1
      simp only [Option.some.injEq] at h
      subst h
      obtain ⟨A, B, hl, hA⟩ := split_at_two_slots s.slots j (some t) none h0 h1
      have hset : (s.slots.set j none).set (j + 1) (some (stage T (j % 7) (j / 7) s.heap t).2) =
          A ++ none :: some (stage T (j % 7) (j / 7) s.heap t).2 :: B := by
        rw [hl, ← hA, set_at_slot]
        have : A ++ none :: none :: B = (A ++ [none]) ++ none :: B := by simp
        rw [this]
        have hlen : A.length + 1 = (A ++ [none]).length := by simp
        rw [hlen, set_at_slot]
        simp
      refine ⟨by simp, stage_vars_length T _ _ _ _, ?_, ?_⟩
      · simp only [Net.codes, hset]
        rw [hl]
        simp only [List.reduceOption_append, List.reduceOption_cons_of_some,
          List.reduceOption_cons_of_none, List.map_append, List.map_cons, stage_code]
        exact List.Perm.refl _
      · intro _
        simp only [Net.weight, hset]
        rw [hl]
        simp only [slotWeight_append, slotWeight, Option.isSome_some, Option.isSome_none,
          if_true]
        have e1 : (0 + A.length) % 7 = j % 7 := by rw [hA]; simp
        have e2 : (0 + A.length + 1) % 7 = j % 7 + 1 := by rw [hA]; omega
        simp only [e1, e2]
        simp
        omega
    · simp at h
  | drain j =>
    simp only at h
    split_ifs at h with h6
    split at h
    · rename_i t h0
      simp only [Option.some.injEq] at h
      subst h
      obtain ⟨A, B, hl, hA⟩ := split_at_slot s.slots j (some t) h0
      refine ⟨by simp, rfl, ?_, ?_⟩
      · simp only [Net.codes]
        rw [hl, ← hA, set_at_slot]
        simp only [List.reduceOption_append, List.reduceOption_cons_of_some,
          List.reduceOption_cons_of_none, List.map_append, List.map_cons, List.map_nil]
        rw [List.perm_iff_count]
        intro c
        simp only [List.count_append, List.count_cons, List.count_nil]
        omega
      · intro _
        simp only [Net.weight]
        rw [hl, ← hA, set_at_slot]
        simp only [slotWeight_append, slotWeight, Option.isSome_some, Option.isSome_none,
          if_true]
        have e1 : (0 + A.length) % 7 = 6 := by rw [hA]; simpa using h6
        simp only [e1]
        simp
        omega
    · simp at h
  | tear a b =>
    simp only at h
    split_ifs at h with ht
    simp only [Option.some.injEq] at h
    subst h
    exact ⟨rfl, rfl, List.Perm.refl _, fun hx => absurd hx (by simp)⟩

/-- Every move but the panic leaves the process alive. -/
theorem step_keeps_alive (T : CaseTable) (s s1 : Net) (m : Move) (h : step T s m = some s1)
    (hm : ∀ a b, m ≠ Move.tear a b) : s1.crashed = false := by
  unfold step at h
  split_ifs at h with hc
  have hc0 : s.crashed = false := by simpa using hc
  cases m with
  | recv w =>
    simp only at h
    split at h
    · simp only [Option.some.injEq] at h
      subst h
      exact hc0
    · simp at h
  | advance j =>
    simp only at h
    split_ifs at h
    split at h
    · simp only [Option.some.injEq] at h
      subst h
      exact hc0
    · simp at h
  | drain j =>
    simp only at h
    split_ifs at h
    split at h
    · simp only [Option.some.injEq] at h
      subst h
      exact hc0
    · simp at h
  | tear a b => exact absurd rfl (hm a b)

/-- After the panic no move is made. -/
theorem step_crashed (T : CaseTable) (s : Net) (m : Move) (h : s.crashed = true) :
    step T s m = none := by
  simp [step, h]

theorem run_crashed (T : CaseTable) (s s1 : Net) (sched : List Move) (h : s.crashed = true)
    (hrun : run T s sched = some s1) : s1 = s ∧ sched = [] := by
  cases sched with
  | nil =>
    simp only [run, Option.some.injEq] at hrun
    exact ⟨hrun.symm, rfl⟩
  | cons m ms => simp [run, step_crashed T s m h] at hrun

theorem run_inv (T : CaseTable) (sched : List Move) :
    ∀ s s1 : Net, run T s sched = some s1 →
      s1.slots.length = s.slots.length ∧ s1.heap.vars.length = s.heap.vars.length ∧
        s1.codes.Perm s.codes ∧
        (s1.crashed = false → s1.weight + sched.length = s.weight) := by
  induction sched with
  | nil =>
    intro s s1 h
    simp only [run, Option.some.injEq] at h
    subst h
    exact ⟨rfl, rfl, List.Perm.refl _, fun _ => rfl⟩
  | cons m ms ih =>
    intro s s1 h
    simp only [run] at h
    cases hs : step T s m with
    | none => simp [hs] at h
    | some s2 =>
      rw [hs] at h
      obtain ⟨_, a1, a2, a3, a4⟩ := step_inv T s s2 m hs
      obtain ⟨b1, b2, b3, b4⟩ := ih s2 s1 h
      refine ⟨b1.trans a1, b2.trans a2, b3.trans a3, ?_⟩
      intro hlive
      have h2 : s2.crashed = false := by
        cases hc2 : s2.crashed with
        | false => rfl
        | true =>
          obtain ⟨e, _⟩ := run_crashed T s2 s1 ms hc2 h
          rw [e, hc2] at hlive
          exact absurd hlive (by simp)
      have := a4 h2
      have := b4 hlive
      simp only [List.length_cons]
      omega

theorem slotWeight_replicate_none (n : Nat) : ∀ j, slotWeight j (List.replicate n none) = 0 := by
  induction n with
  | zero => intro j; rfl
  | succ n ih => intro j; simp [List.replicate_succ, slotWeight, ih]

theorem slotWeight_eq_zero (l : List (Option Tok)) :
    ∀ j, slotWeight j l = 0 ↔ l.all Option.isNone = true := by
  induction l with
  | nil => intro j; simp [slotWeight]
  | cons o l ih =>
    intro j
    have hj : 0 < 7 - j % 7 := by omega
    cases o with
    | none => simp [slotWeight, ih]
    | some t =>
      simp only [slotWeight, Option.isSome_some, if_true, List.all_cons, Option.isNone_some,
        Bool.false_and, Bool.false_eq_true, iff_false]
      omega

theorem init_weight (d : DB) (batch : List ProduceItem) (P : Nat) :
    (Net.init d batch P).weight = 8 * batch.length := by
  simp [Net.init, Net.weight, slotWeight_replicate_none]

theorem init_codes (d : DB) (batch : List ProduceItem) (P : Nat) :
    (Net.init d batch P).codes = batch.map (·.Code) := by
  have : ∀ n, (List.replicate n (none : Option Tok)).reduceOption = [] := by
    intro n
    induction n with
    | zero => rfl
    | succ n ih => simp [List.replicate_succ, List.reduceOption_cons_of_none, ih]
  simp [Net.init, Net.codes, this]

/-- With at least one lane and no panic, the handler's loop has ended exactly when no
move is left to make. -/
theorem finished_iff_weight (s : Net) (h : s.slots ≠ []) (hlive : s.crashed = false) :
    s.finished = true ↔ s.weight = 0 := by
  have he : s.slots.isEmpty = false := by
    cases hs : s.slots with
    | nil => exact absurd hs h
    | cons a l => rfl
  simp only [Net.finished, hlive, he, Bool.not_false, Bool.true_and, Bool.false_or,
    Bool.and_eq_true, Net.weight, Nat.add_eq_zero_iff, Nat.mul_eq_zero, slotWeight_eq_zero,
    List.isEmpty_iff, List.length_eq_zero]
  simp

theorem finished_live (s : Net) (h : s.finished = true) : s.crashed = false := by
  cases hc : s.crashed with
  | false => rfl
  | true => simp [Net.finished, hc] at h

/-- The last occupied slot of a list, with nothing occupied behind it. -/
theorem last_occupied (l : List (Option Tok)) (h : l.all Option.isNone = false) :
    ∃ j t, l[j]? = some (some t) ∧ ∀ k, j < k → k < l.length → l[k]? = some none := by
  induction l with
  | nil => simp at h
  | cons o l ih =>
    by_cases hl : l.all Option.isNone = true
    · cases o with
      | none => simp [hl] at h
      | some t =>
        refine ⟨0, t, by simp, ?_⟩
        intro k hk hk2
        obtain ⟨k, rfl⟩ : ∃ k1, k = k1 + 1 := ⟨k - 1, by omega⟩
        simp only [List.length_cons, Nat.add_lt_add_iff_right] at hk2
        simp only [List.getElem?_cons_succ]
        rw [List.getElem?_eq_getElem hk2]
        have := List.all_eq_true.1 hl l[k] (List.getElem_mem hk2)
        cases hv : l[k] with
        | none => rfl
        | some v => simp [hv] at this
    · obtain ⟨j, t, hj, hall⟩ := ih (by simpa using hl)
      refine ⟨j + 1, t, by simpa using hj, ?_⟩
      intro k hk hk2
      obtain ⟨k, rfl⟩ : ∃ k1, k = k1 + 1 := ⟨k - 1, by omega⟩
      simp only [List.length_cons, Nat.add_lt_add_iff_right] at hk2
      simp only [List.getElem?_cons_succ]
      exact hall k (by omega) hk2

/-- No deadlock: as long as the process is alive and the handler's loop has not ended,
some move other than the panic is enabled. -/
theorem step_enabled (T : CaseTable) (s : Net) (P : Nat) (hP : 1 ≤ P)
    (hlen : s.slots.length = 7 * P) (hlive : s.crashed = false) (hf : s.finished = false) :
    ∃ m s1, step T s m = some s1 ∧ s1.crashed = false := by
  have key : ∃ m, (step T s m).isSome = true ∧ ∀ a b, m ≠ Move.tear a b := by
    have hne : s.slots.isEmpty = false := by
      cases hs : s.slots with
      | nil => rw [hs] at hlen; simp at hlen; omega
      | cons a l => rfl
    simp only [Net.finished, hlive, hne, Bool.not_false, Bool.true_and, Bool.false_or,
      Bool.and_eq_false_iff] at hf
    by_cases hocc : s.slots.all Option.isNone = true
    · have hp : s.pending.isEmpty = false := by
        rcases hf with hf | hf
        · exact hf
        · rw [hocc] at hf
          simp at hf
      have hget : ∀ k, k < 7 * P → s.slots[k]? = some none := by
        intro k hk
        have hk2 : k < s.slots.length := by omega
        rw [List.getElem?_eq_getElem hk2]
        have := List.all_eq_true.1 hocc s.slots[k] (List.getElem_mem hk2)
        cases hv : s.slots[k] with
        | none => rfl
        | some v => simp [hv] at this
      refine ⟨.recv 0, ?_, fun a b h => by cases h⟩
      cases hpd : s.pending with
      | nil => simp [hpd] at hp
      | cons x xs =>
        simp [step, hlive, hpd, hget 0 (by omega), hget 1 (by omega), hget 2 (by omega)]
    · obtain ⟨j, t, hj, hall⟩ := last_occupied s.slots (by simpa using hocc)
      have hjlt : j < s.slots.length := (List.getElem?_eq_some_iff.1 hj).1
      by_cases h6 : j % 7 = 6
      · exact ⟨.drain j, by simp [step, hlive, h6, hj], fun a b h => by cases h⟩
      · have hj1 : j + 1 < s.slots.length := by omega
        refine ⟨.advance j, ?_, fun a b h => by cases h⟩
        simp [step, hlive, h6, hj, hall (j + 1) (by omega) hj1]
  obtain ⟨m, hsome, hm⟩ := key
  obtain ⟨s1, hs1⟩ := Option.isSome_iff_exists.1 hsome
  exact ⟨m, s1, hs1, step_keeps_alive T s s1 m hs1 hm⟩

theorem reduceOption_of_all_none (l : List (Option Tok)) (h : l.all Option.isNone = true) :
    l.reduceOption = [] := by
  induction l with
  | nil => rfl
  | cons o l ih =>
    cases o with
    | none =>
      rw [List.reduceOption_cons_of_none]
      exact ih (by simpa using h)
    | some t => simp at h

/-- When the handler's loop has ended with at least one lane, the codes collected are
the codes posted, up to their order. -/
theorem finished_codes (T : CaseTable) (d : DB) (batch : List ProduceItem) (P : Nat)
    (sched : List Move) (s : Net) (hP : 1 ≤ P)
    (hrun : run T (Net.init d batch P) sched = some s) (hfin : s.finished = true) :
    (s.results.map (·.Produce.Code)).Perm (batch.map (·.Code)) := by
  obtain ⟨hlen, _, hperm, _⟩ := run_inv T sched _ s hrun
  have hlive := finished_live s hfin
  have hne : s.slots.isEmpty = false := by
    cases hs : s.slots with
    | nil =>
      rw [hs] at hlen
      simp [Net.init] at hlen
      omega
    | cons a l => rfl
  simp only [Net.finished, hlive, hne, Bool.not_false, Bool.true_and, Bool.false_or,
    Bool.and_eq_true, List.isEmpty_iff] at hfin
  rw [init_codes] at hperm
  simpa [Net.codes, hfin.1, reduceOption_of_all_none _ hfin.2] using hperm

/-- A run of a request in which no scan is torn: it makes at most eight moves per
candidate, the handler's loop has ended exactly when all of them are made, until then
some move other than the panic is enabled, and when the loop has ended the results are
as many as the candidates. -/
theorem run_progress (T : CaseTable) (d : DB) (batch : List ProduceItem) (P : Nat)
    (sched : List Move) (s : Net) (hP : 1 ≤ P)
    (hrun : run T (Net.init d batch P) sched = some s) (hlive : s.crashed = false) :
    sched.length ≤ 8 * batch.length ∧
      (s.finished = true ↔ sched.length = 8 * batch.length) ∧
      (s.finished = false → ∃ m s1, step T s m = some s1 ∧ s1.crashed = false) ∧
      (s.finished = true → s.results.length = batch.length) := by
  obtain ⟨hlen, _, _, hw⟩ := run_inv T sched _ s hrun
  have hw := hw hlive
  rw [init_weight] at hw
  have hlen7 : s.slots.length = 7 * P := by
    rw [hlen]
    simp [Net.init]
  have hne : s.slots ≠ [] := by
    intro h0
    rw [h0] at hlen7
    simp at hlen7
    omega
  have hfw := finished_iff_weight s hne hlive
  refine ⟨by omega, ?_, ?_, ?_⟩
  · rw [hfw]
    omega
  · intro hf
    exact step_enabled T s P hP hlen7 hlive hf
  · intro hf
    have := (finished_codes T d batch P sched s hP hrun hf).length_eq
    simpa using this

/-- With one lane no scan is torn: the lane that scans is the only one that writes. -/
theorem one_lane_never_tears (T : CaseTable) (d : DB) (batch : List ProduceItem)
    (sched : List Move) (s : Net) (hrun : run T (Net.init d batch 1) sched = some s) :
    s.crashed = false := by
  have key : ∀ (sched : List Move) (s0 s1 : Net), s0.slots.length = 7 → s0.crashed = false →
      run T s0 sched = some s1 → s1.crashed = false := by
    intro sched
    induction sched with
    | nil =>
      intro s0 s1 _ hc h
      simp only [run, Option.some.injEq] at h
      subst h
      exact hc
    | cons m ms ih =>
      intro s0 s1 hlen hc h
      simp only [run] at h
      cases hs : step T s0 m with
      | none => simp [hs] at h
      | some s2 =>
        rw [hs] at h
        obtain ⟨_, a1, _, _, _⟩ := step_inv T s0 s2 m hs
        refine ih s2 s1 (a1.trans hlen) ?_ h
        refine step_keeps_alive T s0 s2 m hs ?_
        rintro a b rfl
        simp only [step, hc, Bool.false_eq_true, if_false] at hs
        split_ifs at hs with ht
        obtain ⟨hab, hsa, hwb⟩ := ht
        have ha : a = 0 := by
          by_contra hne
          have : s0.slots[7 * a]? = none := List.getElem?_eq_none (by omega)
          simp [Net.scans, this] at hsa
        have hb : b = 0 := by
          by_contra hne
          have h1 : s0.slots[7 * b + 1]? = none := List.getElem?_eq_none (by omega)
          have h0 : s0.slots[7 * b]? = none := List.getElem?_eq_none (by omega)
          simp [Net.writes, h1, h0] at hwb
        exact hab (ha.trans hb.symm)
  exact key sched _ s (by simp [Net.init]) rfl hrun

/-! ## Claims about the batch -/

/-- C5 fails on the code: the lettuce and the peach posted to the empty store with two
lanes.  Lane 0 has scanned for the lettuce and is about to append it when lane 1, which
has received the peach, scans the slice without the lock: the scan is torn, the process
ends with a panic, the handler's loop never ends and no result is returned (after the
panic no move is made), though the batch has two candidates.  What holds: a run in which
no scan is torn makes at most eight moves per candidate, can be continued without a
panic until the handler's loop has ended, and then has as many results as the batch has
candidates; with one lane no scan is torn. -/
theorem AddBatch_torn_read :
    (run goCase
        (Net.init NewDB [⟨"Lettuce", "A12T-4GH7-QPL9-3N4M", lit false 346 2⟩,
          ⟨"Peach", "E5T6-9UI3-TH15-QR88", lit false 299 2⟩] 2)
        [.recv 0, .advance 0, .recv 1, .tear 1 0]).map
      (fun s => (s.crashed, s.finished, s.results.length)) = some (true, false, 0) ∧
      (∀ (T : CaseTable) (s : Net) (m : Move), s.crashed = true → step T s m = none) ∧
      (∀ (T : CaseTable) (d : DB) (batch : List ProduceItem) (P : Nat) (sched : List Move)
        (s : Net), 1 ≤ P → run T (Net.init d batch P) sched = some s → s.crashed = false →
        sched.length ≤ 8 * batch.length ∧
          (s.finished = true ↔ sched.length = 8 * batch.length) ∧
          (s.finished = false → ∃ m s1, step T s m = some s1 ∧ s1.crashed = false) ∧
          (s.finished = true → s.results.length = batch.length)) ∧
      ∀ (T : CaseTable) (d : DB) (batch : List ProduceItem) (sched : List Move) (s : Net),
        run T (Net.init d batch 1) sched = some s → s.crashed = false :=
  ⟨by decide, fun T s m h => step_crashed T s m h,
    fun T d batch P sched s hP hrun hlive => run_progress T d batch P sched s hP hrun hlive,
    fun T d batch sched s hrun => one_lane_never_tears T d batch sched s hrun⟩

/-- C6, as the code has it: when the handler's loop has ended (any store, any batch,
`P >= 1` lanes, any schedule; with two lanes or more the process may end with a panic
before), the codes of the results are the codes of the candidates up to their order, so
for every code the results matching it ignoring case are as many as the candidates
matching it; in particular exactly one result matches a candidate whose code no other
candidate of the batch shares. -/
theorem AddBatch_codes (T : CaseTable) (d : DB) (batch : List ProduceItem) (P : Nat)
    (sched : List Move) (s : Net) (hP : 1 ≤ P)
    (hrun : run T (Net.init d batch P) sched = some s) (hfin : s.finished = true) :
    (s.results.map (·.Produce.Code)).Perm (batch.map (·.Code)) ∧
      (∀ c : String,
        (s.results.filter (fun r => sameCode T r.Produce.Code c)).length =
          (batch.filter (fun p => sameCode T p.Code c)).length) ∧
      (∀ p ∈ batch, (batch.filter (fun q => sameCode T q.Code p.Code)).length = 1 →
        (s.results.filter (fun r => sameCode T r.Produce.Code p.Code)).length = 1) := by
  have hperm := finished_codes T d batch P sched s hP hrun hfin
  have hcount : ∀ c : String,
      (s.results.filter (fun r => sameCode T r.Produce.Code c)).length =
        (batch.filter (fun p => sameCode T p.Code c)).length := by
    intro c
    have h1 := hperm.countP_eq (fun x => sameCode T x c)
    rw [List.countP_map, List.countP_map] at h1
    rw [← List.countP_eq_length_filter, ← List.countP_eq_length_filter]
    exact h1
  refine ⟨hperm, hcount, ?_⟩
  intro p _ h1
  rw [hcount]
  exact h1

/-- Witness of C6: the lettuce and the peach posted to the empty store with two lanes;
one result carries the peach's code. -/
theorem AddBatch_codes_witness :
    (((run goCase
        (Net.init NewDB [⟨"Lettuce", "A12T-4GH7-QPL9-3N4M", lit false 346 2⟩,
          ⟨"Peach", "E5T6-9UI3-TH15-QR88", lit false 299 2⟩] 2)
        (laneMoves 1 ++ laneMoves 0)).get (by decide)).results.filter
          (fun r => sameCode goCase r.Produce.Code "e5t6-9ui3-th15-qr88")).length =
      ([(⟨"Lettuce", "A12T-4GH7-QPL9-3N4M", lit false 346 2⟩ : ProduceItem),
          ⟨"Peach", "E5T6-9UI3-TH15-QR88", lit false 299 2⟩].filter
          (fun p => sameCode goCase p.Code "e5t6-9ui3-th15-qr88")).length :=
  (AddBatch_codes goCase NewDB [⟨"Lettuce", "A12T-4GH7-QPL9-3N4M", lit false 346 2⟩,
      ⟨"Peach", "E5T6-9UI3-TH15-QR88", lit false 299 2⟩] 2 (laneMoves 1 ++ laneMoves 0)
    _ (by decide) (Option.some_get _).symm (by decide)).2.1 "e5t6-9ui3-th15-qr88"

/-- C6 as stated fails: the lettuce posted twice in one batch (one lane, empty store)
yields two results whose code matches the candidate's, one with status 201 and one with
409. -/
theorem AddBatch_codes_counterexample :
    (run goCase
        (Net.init NewDB [⟨"Lettuce", "A12T-4GH7-QPL9-3N4M", lit false 346 2⟩,
          ⟨"Lettuce", "A12T-4GH7-QPL9-3N4M", lit false 346 2⟩] 1)
        (laneMoves 0 ++ laneMoves 0)).map
      (fun s => (s.finished, s.results.map (·.StatusCode),
        (s.results.filter
          (fun r => sameCode goCase r.Produce.Code "A12T-4GH7-QPL9-3N4M")).length)) =
      some (true, [201, 409], 2) := by
  decide

/-- C9 fails on the code: the scan for a duplicate runs before the lock is taken.  Two
`Add` calls for the same lettuce on the empty store, each scanning before the other
appends, both return nil and leave two items with one code; and one batch with the
lettuce twice on two lanes, scheduled that way, yields two results with status 201. -/
theorem Add_check_then_append_race :
    (DB.AddCheck goCase NewDB ⟨"Lettuce", "A12T-4GH7-QPL9-3N4M", lit false 346 2⟩).2 = none ∧
      (DB.AddAppend
          (DB.AddAppend NewDB
            (DB.AddCheck goCase NewDB ⟨"Lettuce", "A12T-4GH7-QPL9-3N4M", lit false 346 2⟩).1)
          (DB.AddCheck goCase NewDB
            ⟨"Lettuce", "A12T-4GH7-QPL9-3N4M", lit false 346 2⟩).1).Produce.map (·.Code) =
        ["A12T-4GH7-QPL9-3N4M", "A12T-4GH7-QPL9-3N4M"] ∧
      (run goCase
          (Net.init NewDB [⟨"Lettuce", "A12T-4GH7-QPL9-3N4M", lit false 346 2⟩,
            ⟨"Lettuce", "A12T-4GH7-QPL9-3N4M", lit false 346 2⟩] 2)
          ([.recv 0, .recv 1, .advance 0, .advance 7, .advance 1, .advance 8] ++
            (laneMoves 0).drop 3 ++ (laneMoves 1).drop 3)).map
        (fun s => (s.finished, s.results.map (·.StatusCode), s.db.Produce.map (·.Code))) =
        some (true, [201, 201], ["A12T-4GH7-QPL9-3N4M", "A12T-4GH7-QPL9-3N4M"]) := by
  decide

/-- `PriceIsValid` accepts a price that is not a number (it only rejects `p < 0`), so an
`Add` of such a price would store it; `encoding/json` delivers no such price. -/
theorem Add_stores_NaN_price :
    Reachable goCase (DB.Add goCase NewDB ⟨"kale", "aaaa-bbbb-cccc-dddd", Float64.nan⟩).1 ∧
      DB.Add goCase NewDB ⟨"kale", "aaaa-bbbb-cccc-dddd", Float64.nan⟩ =
        (⟨[⟨"kale", "aaaa-bbbb-cccc-dddd", Float64.nan⟩]⟩,
          ⟨"kale", "aaaa-bbbb-cccc-dddd", Float64.nan⟩, none) ∧
      Float64.nan.ge0 = false ∧ Float64.nan.isNaN = true :=
  ⟨Reachable.add _ _ Reachable.newDB, by decide, by decide, by decide⟩

/-! ## Claims the pointer to the loop variable decides -/

/-- C10 fails on the code.  Calls made one after the other, each `Add` with a pointer to
an item nobody writes to afterwards, keep the invariant: codes pairwise different after
`strings.ToLower`, code and name valid, price not below zero (`>= 0` unless it is not a
number) and equal to its own rounding.  But `Add` keeps the caller's pointer, and the
`add` stage passes the pointer to its loop variable in every call: the lettuce and a
peach with the price -2.99 posted to the empty store with one lane are two `Add` calls,
one after the other; the first stores the pointer and returns nil, then the stage
receives the peach into the variable, the second returns `ErrInvalidUnitPrice` (status
500), and the store holds one item, the peach with the price -2.99. -/
theorem store_holds_loop_variable :
    (∀ (T : CaseTable) (d : DB), Reachable T d →
        StoreInv T d ∧
          ∀ q ∈ d.Produce, q.UnitPrice.isNaN = false → q.UnitPrice.ge0 = true) ∧
      (run goCase
          (Net.init NewDB [⟨"Lettuce", "A12T-4GH7-QPL9-3N4M", lit false 346 2⟩,
            ⟨"Peach", "E5T6-9UI3-TH15-QR88", lit true 299 2⟩] 1)
          (laneMoves 0 ++ laneMoves 0)).map
        (fun s => (s.finished, s.results.map (·.StatusCode), s.db.List)) =
        some (true, [201, 500], [⟨"Peach", "E5T6-9UI3-TH15-QR88", lit true 299 2⟩]) ∧
      (lit true 299 2).ge0 = false ∧ (lit true 299 2).lt0 = true :=
  ⟨fun T d h => ⟨Reachable.inv T d h, fun q hq => (Reachable.price T d h q hq).2⟩,
    by decide, by decide, by decide⟩

/-- C13 fails on the code: the lettuce and the peach (valid, with different codes)
posted to the empty store with one lane.  The lettuce is added and gets status 201; the
slice now points to the loop variable of the `add` stage, so when the stage has received
the peach the scan of `Add` finds the peach in the store: the peach gets status 409, and
`List()` holds one item, the peach, and no lettuce. -/
theorem AddBatch_stores_loop_variable :
    (∀ p ∈ [(⟨"Lettuce", "A12T-4GH7-QPL9-3N4M", lit false 346 2⟩ : ProduceItem),
        ⟨"Peach", "E5T6-9UI3-TH15-QR88", lit false 299 2⟩],
        CodeIsValid p.Code = true ∧ NameIsValid p.Name = true ∧
          PriceIsValid p.UnitPrice = true) ∧
      sameCode goCase "A12T-4GH7-QPL9-3N4M" "E5T6-9UI3-TH15-QR88" = false ∧
      (run goCase
          (Net.init NewDB [⟨"Lettuce", "A12T-4GH7-QPL9-3N4M", lit false 346 2⟩,
            ⟨"Peach", "E5T6-9UI3-TH15-QR88", lit false 299 2⟩] 1)
          (laneMoves 0 ++ laneMoves 0)).map
        (fun s => (s.finished, s.results.map (·.StatusCode), s.db.List)) =
        some (true, [201, 409], [⟨"Peach", "E5T6-9UI3-TH15-QR88", lit false 299 2⟩]) := by
  decide

/-- C14 fails on the code: the lettuce and the peach posted twice to the store that was
empty, with one lane.  The first run leaves one item, the peach (the slot points to the
loop variable, which holds the candidate received last).  In the second run the lettuce
is therefore not found and gets status 201, not 409, and the second run leaves the store
with two slots, which both show the peach. -/
theorem AddBatch_twice_loop_variable :
    (run goCase
        (Net.init NewDB [⟨"Lettuce", "A12T-4GH7-QPL9-3N4M", lit false 346 2⟩,
          ⟨"Peach", "E5T6-9UI3-TH15-QR88", lit false 299 2⟩] 1)
        (laneMoves 0 ++ laneMoves 0)).map (fun s => (s.finished, s.db)) =
      some (true, ⟨[⟨"Peach", "E5T6-9UI3-TH15-QR88", lit false 299 2⟩]⟩) ∧
      (run goCase
          (Net.init ⟨[⟨"Peach", "E5T6-9UI3-TH15-QR88", lit false 299 2⟩]⟩
            [⟨"Lettuce", "A12T-4GH7-QPL9-3N4M", lit false 346 2⟩,
              ⟨"Peach", "E5T6-9UI3-TH15-QR88", lit false 299 2⟩] 1)
          (laneMoves 0 ++ laneMoves 0)).map
        (fun s => (s.finished, s.results.map (·.StatusCode), s.db.List)) =
        some (true, [201, 409],
          [⟨"Peach", "E5T6-9UI3-TH15-QR88", lit false 299 2⟩,
            ⟨"Peach", "E5T6-9UI3-TH15-QR88", lit false 299 2⟩]) := by
  decide

/-- C18 fails on the code, in both parts.  `Add` is called with the pointer to the loop
variable, which the slice holds already once the lane has added an item.
The call: the lettuce posted at 3.46 and again at 3.4655555555, one lane.  When the
stage has received the second lettuce the store shows it at 3.4655555555; the `Add` of
it finds it there and returns `ErrDuplicateItem`, and has rounded the stored price to
3.47 on the way.
Another candidate: lettuce, an item with the code `1234`, lettuce, two lanes.  Lane 0
adds the first lettuce (201) and fails to add the item with the bad code (400), which
now is what the store shows; the second lettuce, in lane 1, is not found and gets
status 201.  Without the failed candidate it gets 409. -/
theorem failed_Add_rewrites_store :
    (run goCase
        (Net.init NewDB [⟨"Lettuce", "A12T-4GH7-QPL9-3N4M", lit false 346 2⟩,
          ⟨"Lettuce", "A12T-4GH7-QPL9-3N4M", lit false 34655555555 10⟩] 1)
        (laneMoves 0 ++ [.recv 0])).map (fun s => s.db.List) =
      some [⟨"Lettuce", "A12T-4GH7-QPL9-3N4M", lit false 34655555555 10⟩] ∧
      (run goCase
          (Net.init NewDB [⟨"Lettuce", "A12T-4GH7-QPL9-3N4M", lit false 346 2⟩,
            ⟨"Lettuce", "A12T-4GH7-QPL9-3N4M", lit false 34655555555 10⟩] 1)
          (laneMoves 0 ++ [.recv 0, .advance 0])).map
        (fun s => (s.slots.reduceOption.map (·.scanned), s.db.List)) =
        some ([some (some .ErrDuplicateItem)],
          [⟨"Lettuce", "A12T-4GH7-QPL9-3N4M", lit false 347 2⟩]) ∧
      lit false 34655555555 10 ≠ lit false 347 2 ∧
      (run goCase
          (Net.init NewDB [⟨"Lettuce", "A12T-4GH7-QPL9-3N4M", lit false 346 2⟩,
            ⟨"x", "1234", lit false 100 2⟩,
            ⟨"Lettuce", "A12T-4GH7-QPL9-3N4M", lit false 346 2⟩] 2)
          (laneMoves 0 ++ laneMoves 0 ++ laneMoves 1)).map
        (fun s => (s.finished, s.results.map (·.StatusCode), s.db.List)) =
        some (true, [201, 400, 201],
          [⟨"x", "1234", lit false 100 2⟩,
            ⟨"Lettuce", "A12T-4GH7-QPL9-3N4M", lit false 346 2⟩]) ∧
      (run goCase
          (Net.init NewDB [⟨"Lettuce", "A12T-4GH7-QPL9-3N4M", lit false 346 2⟩,
            ⟨"Lettuce", "A12T-4GH7-QPL9-3N4M", lit false 346 2⟩] 2)
          (laneMoves 0 ++ laneMoves 1)).map
        (fun s => (s.finished, s.results.map (·.StatusCode))) =
        some (true, [201, 409]) := by
  decide

/-! ## The network: properties stated element by element -/

/-- One move preserves a property stated element by element, when every stage hands an
element on with the property of the next place. -/
theorem step_local (T : CaseTable) (Pp : ProduceItem → Prop) (Pt : Nat → Tok → Prop)
    (Pr : AddResult → Prop)
    (hrecv : ∀ x, Pp x → Pt 0 ⟨genResult x, none⟩)
    (hadv : ∀ (k w : Nat) (h : Heap) (t : Tok), k < 6 → Pt k t → Pt (k + 1) (stage T k w h t).2)
    (hdrain : ∀ t, Pt 6 t → Pr t.res)
    (s s1 : Net) (m : Move) (hinv : NetInv Pp Pt Pr s) (h : step T s m = some s1) :
    NetInv Pp Pt Pr s1 := by
  obtain ⟨hp, ht, hr⟩ := hinv
  unfold step at h
  split_ifs at h with hc
  cases m with
  | recv w =>
    simp only at h
    split at h
    · rename_i x xs hpd h0 _ _
      simp only [Option.some.injEq] at h
      subst h
      refine ⟨?_, ?_, hr⟩
      · intro y hy
        exact hp y (by rw [hpd]; exact List.mem_cons_of_mem _ hy)
      · intro j t hj
        simp only [List.getElem?_set] at hj
        split_ifs at hj with e1
        · simp only [Option.some.injEq] at hj
          subst hj
          subst e1
          have : 7 * w % 7 = 0 := by omega
          rw [this]
          exact hrecv _ (hp x (by rw [hpd]; exact List.mem_cons_self _ _))
        · exact ht j t hj
    · simp at h
  | advance j =>
    simp only at h
    split_ifs at h with h6
    split at h
    · rename_i t h0 h1
      simp only [Option.some.injEq] at h
      subst h
      have hk : j % 7 < 6 := by omega
      refine ⟨hp, ?_, hr⟩
      intro j2 t2 hj2
      simp only [List.getElem?_set, List.length_set] at hj2
      split_ifs at hj2 with e1 e2 e3
      · simp only [Option.some.injEq] at hj2
        subst hj2
        subst e1
        have : (j + 1) % 7 = j % 7 + 1 := by omega
        rw [this]
        exact hadv _ _ _ _ hk (ht j t h0)
      · simp at hj2
      · exact ht j2 t2 hj2
    · simp at h
  | drain j =>
    simp only at h
    split_ifs at h with h6
    split at h
    · rename_i t h0
      simp only [Option.some.injEq] at h
      subst h
      refine ⟨hp, ?_, ?_⟩
      · intro j2 t2 hj2
        simp only [List.getElem?_set] at hj2
        split_ifs at hj2 with e1
        · simp at hj2
        · exact ht j2 t2 hj2
      · intro r hr1
        simp only [List.mem_append, List.mem_singleton] at hr1
        rcases hr1 with hr1 | rfl
        · exact hr r hr1
        · have := ht j t h0
          rw [h6] at this
          exact hdrain _ this
    · simp at h
  | tear a b =>
    simp only at h
    split_ifs at h with ht2
    simp only [Option.some.injEq] at h
    subst h
    exact ⟨hp, ht, hr⟩

/-- A run preserves a property stated element by element. -/
theorem run_local (T : CaseTable) (Pp : ProduceItem → Prop) (Pt : Nat → Tok → Prop)
    (Pr : AddResult → Prop)
    (hrecv : ∀ x, Pp x → Pt 0 ⟨genResult x, none⟩)
    (hadv : ∀ (k w : Nat) (h : Heap) (t : Tok), k < 6 → Pt k t → Pt (k + 1) (stage T k w h t).2)
    (hdrain : ∀ t, Pt 6 t → Pr t.res)
    (sched : List Move) :
    ∀ s s1 : Net, NetInv Pp Pt Pr s → run T s sched = some s1 → NetInv Pp Pt Pr s1 := by
  induction sched with
  | nil =>
    intro s s1 hinv h
    simp only [run, Option.some.injEq] at h
    subst h
    exact hinv
  | cons m ms ih =>
    intro s s1 hinv h
    simp only [run] at h
    cases hs : step T s m with
    | none => simp [hs] at h
    | some s2 =>
      rw [hs] at h
      exact ih s2 s1 (step_local T Pp Pt Pr hrecv hadv hdrain s s2 m hinv hs) h

/-- The network the handler sets up has a property stated element by element as soon as
the posted items have it. -/
theorem init_local (Pp : ProduceItem → Prop) (Pt : Nat → Tok → Prop) (Pr : AddResult → Prop)
    (d : DB) (batch : List ProduceItem) (P : Nat) (hp : ∀ x ∈ batch, Pp x) :
    NetInv Pp Pt Pr (Net.init d batch P) := by
  refine ⟨hp, ?_, ?_⟩
  · intro j t hj
    simp only [Net.init] at hj
    have := List.getElem?_mem hj
    simp [List.mem_replicate] at this
  · intro r hr
    simp [Net.init] at hr

/-! ## The range variable of a lane -/

theorem Heap.setVar_var (h : Heap) (w : Nat) (p : ProduceItem) (hw : w < h.vars.length) :
    (h.setVar w p).var w = p := by
  simp [Heap.setVar, Heap.var, List.getD_eq_getElem?_getD, hw]

theorem Heap.setVar_var_ne (h : Heap) (w w2 : Nat) (p : ProduceItem) (hne : w ≠ w2) :
    (h.setVar w p).var w2 = h.var w2 := by
  simp [Heap.setVar, Heap.var, List.getD_eq_getElem?_getD, List.getElem?_set_ne hne]

/-- A write to the variable of a lane that no slot of the slice points to is not seen
by a reader of the slice. -/
theorem Heap.setVar_db (h : Heap) (w : Nat) (p : ProduceItem) (hfresh : Ref.lane w ∉ h.refs) :
    (h.setVar w p).db = h.db := by
  have hrefs : (h.setVar w p).refs = h.refs := rfl
  simp only [Heap.db, hrefs, DB.mk.injEq]
  apply List.map_congr_left
  intro r hr
  cases r with
  | item q => rfl
  | lane w2 =>
    have hne : w ≠ w2 := by
      rintro rfl
      exact hfresh hr
    exact Heap.setVar_var_ne h w w2 p hne

/-- The store after the append by lane `w`, as a reader finds it: one slot more, which
shows the lane's variable. -/
theorem Heap.AddAppend_db (h : Heap) (w : Nat) :
    (h.AddAppend w).db = ⟨h.db.Produce ++ [h.var w]⟩ := by
  have hd : (h.AddAppend w).deref = h.deref := by
    funext r
    cases r <;> rfl
  simp only [Heap.db, hd]
  simp [Heap.AddAppend, Heap.deref]

theorem AddCheck_fst (T : CaseTable) (d d2 : DB) (p : ProduceItem) :
    (DB.AddCheck T d p).1 = (DB.AddCheck T d2 p).1 := by
  simp only [DB.AddCheck]
  split_ifs <;> rfl

theorem Add_snd (T : CaseTable) (d : DB) (p : ProduceItem) :
    (DB.Add T d p).2 = DB.AddCheck T d p := by
  unfold DB.Add
  cases h : DB.AddCheck T d p with
  | mk p1 e => cases e <;> rfl

/-- The two halves of `DB.Add` the network runs for an element, one after the other on
the same memory, are the `add` stage on the store as a reader finds it, when no slot of
the slice points to the lane's variable yet. -/
theorem stage_scan_append (T : CaseTable) (h : Heap) (w : Nat) (x : ProduceItem)
    (hw : w < h.vars.length) (hfresh : Ref.lane w ∉ h.refs) :
    (stage T 1 w (stage T 0 w h ⟨genResult x, none⟩).1
        (stage T 0 w h ⟨genResult x, none⟩).2).1.db = (add T h.db (genResult x)).1 ∧
      (stage T 1 w (stage T 0 w h ⟨genResult x, none⟩).1
        (stage T 0 w h ⟨genResult x, none⟩).2).2 = ⟨(add T h.db (genResult x)).2, none⟩ := by
  have hdb := Heap.setVar_db h w (DB.AddCheck T h.db x).1 hfresh
  have hvar := Heap.setVar_var h w (DB.AddCheck T h.db x).1 hw
  simp only [stage, genResult, add, DB.Add, if_true, Heap.AddCheck, hdb]
  cases hc : DB.AddCheck T h.db x with
  | mk p1 e =>
    rw [hc] at hdb hvar
    cases e with
    | none =>
      simp only [DB.AddAppend, and_true]
      rw [Heap.AddAppend_db, hdb, hvar]
    | some e => exact ⟨hdb, rfl⟩

/-- The result the `add` stage records depends on the scan only. -/
theorem stage_append_res (T : CaseTable) (w : Nat) (h : Heap) (db0 : DB) (x : ProduceItem) :
    (stage T 1 w h
        ⟨{ genResult x with Produce := (DB.AddCheck T db0 x).1 },
          some (DB.AddCheck T db0 x).2⟩).2 =
      ⟨(add T db0 (genResult x)).2, none⟩ := by
  simp only [stage, genResult, add, DB.Add, if_true]
  cases h : DB.AddCheck T db0 x with
  | mk p1 e => cases e <;> simp

/-- The two halves of `DB.Add` the network runs for an element give the element the
outcome of the `add` stage on the store as the scan finds it: with the lane's variable
written. -/
theorem stage_scan_seen (T : CaseTable) (h : Heap) (w : Nat) (x : ProduceItem) :
    (stage T 1 w (stage T 0 w h ⟨genResult x, none⟩).1
        (stage T 0 w h ⟨genResult x, none⟩).2).2 =
      ⟨(add T (h.setVar w (DB.AddCheck T h.db x).1).db (genResult x)).2, none⟩ := by
  have h0 : (stage T 0 w h ⟨genResult x, none⟩).2 =
      ⟨{ genResult x with
          Produce := (DB.AddCheck T (h.setVar w (DB.AddCheck T h.db x).1).db x).1 },
        some (DB.AddCheck T (h.setVar w (DB.AddCheck T h.db x).1).db x).2⟩ := by
    simp [stage, genResult, Heap.AddCheck]
  rw [h0]
  exact stage_append_res T w _ _ x

theorem addOutcome_status (p1 : ProduceItem) (e : Option Err) :
    (addOutcome p1 e).Status ≠ "400: ErrInvalidName" ∧
      (addOutcome p1 e).Status ≠ "400: ErrInvalidCode" ∧
      (addOutcome p1 e).Status ≠ "400: ErrInvalidPrice" := by
  cases e with
  | none => simp [addOutcome]
  | some e => cases e <;> simp [addOutcome, Err.Error]

/-- Every result the handler collects is what the `add` stage alone makes of a candidate
of the batch, on the store as its scan saw it. -/
theorem results_from_add (T : CaseTable) (d : DB) (batch : List ProduceItem) (P : Nat)
    (sched : List Move) (s : Net) (hrun : run T (Net.init d batch P) sched = some s) :
    ∀ r ∈ s.results, ∃ x ∈ batch, ∃ db0 : DB, r = (add T db0 (genResult x)).2 := by
  have key := run_local T (fun x => x ∈ batch)
    (fun k t =>
      (k = 0 → ∃ x ∈ batch, t = ⟨genResult x, none⟩) ∧
      (k = 1 → ∃ x ∈ batch, ∃ db0 : DB,
        t = ⟨{ genResult x with Produce := (DB.AddCheck T db0 x).1 },
          some (DB.AddCheck T db0 x).2⟩) ∧
      (2 ≤ k → ∃ x ∈ batch, ∃ db0 : DB, t = ⟨(add T db0 (genResult x)).2, none⟩))
    (fun r => ∃ x ∈ batch, ∃ db0 : DB, r = (add T db0 (genResult x)).2)
    ?_ ?_ ?_ sched (Net.init d batch P) s ?_ hrun
  · exact key.2.2
  · intro x hx
    exact ⟨fun _ => ⟨x, hx, rfl⟩, fun h => absurd h (by decide), fun h => absurd h (by decide)⟩
  · intro k w h t hk ⟨h0, h1, h2⟩
    refine ⟨fun h => absurd h (by omega), ?_, ?_⟩
    · intro hk1
      have hk0 : k = 0 := by omega
      subst hk0
      obtain ⟨x, hx, rfl⟩ := h0 rfl
      exact ⟨x, hx, (h.setVar w (DB.AddCheck T h.db x).1).db, by
        simp [stage, genResult, Heap.AddCheck]⟩
    · intro hk2
      by_cases hk1 : k = 1
      · subst hk1
        obtain ⟨x, hx, db0, rfl⟩ := h1 rfl
        exact ⟨x, hx, db0, stage_append_res T w h db0 x⟩
      · obtain ⟨x, hx, db0, rfl⟩ := h2 (by omega)
        refine ⟨x, hx, db0, ?_⟩
        have hdec := add_decided T db0 (genResult x)
        obtain ⟨k, rfl⟩ : ∃ k1, k = k1 + 2 := ⟨k - 2, by omega⟩
        match k with
        | 0 => simp [stage, verifyPrice_of_decided _ hdec]
        | 1 => simp [stage, verifyCode_of_decided _ hdec]
        | 2 => simp [stage, verifyName_of_decided _ hdec]
        | 3 => simp [stage]
        | k + 4 => omega
  · intro t ⟨_, _, h2⟩
    obtain ⟨x, hx, db0, rfl⟩ := h2 (by decide)
    exact ⟨x, hx, db0, rfl⟩
  · exact init_local _ _ _ d batch P (fun x hx => hx)

/-- C19: for every store and candidate the three validator stages, run after the `add`
stage (the committer), return what the `add` stage made; each validator returns an
element with a non-zero status code untouched, and the `add` stage always leaves a
non-zero status code.  The two halves of `DB.Add` the network runs for an element give it
the outcome of the `add` stage on the store as the scan finds it, and are the `add` stage
on the store as it was when no slot points to the lane's variable yet.  In the network, whatever the schedule, every result collected is what the
`add` stage alone makes of a candidate of the batch, so none of the validator statuses
"400: ErrInvalidName", "400: ErrInvalidCode", "400: ErrInvalidPrice" is the status of a
result. -/
theorem pipeline_is_committer (T : CaseTable) (d : DB) (batch : List ProduceItem) (P : Nat)
    (sched : List Move) (s : Net) (hrun : run T (Net.init d batch P) sched = some s) :
    (∀ (db : DB) (i : AddResult),
        verifyName (verifyCode (verifyPrice (add T db i).2)) = (add T db i).2) ∧
      (∀ i : AddResult, i.StatusCode ≠ 0 →
        verifyPrice i = i ∧ verifyCode i = i ∧ verifyName i = i) ∧
      (∀ (db : DB) (i : AddResult), (add T db i).2.StatusCode ≠ 0) ∧
      (∀ (h : Heap) (w : Nat) (x : ProduceItem),
        (stage T 1 w (stage T 0 w h ⟨genResult x, none⟩).1
            (stage T 0 w h ⟨genResult x, none⟩).2).2 =
          ⟨(add T (h.setVar w (DB.AddCheck T h.db x).1).db (genResult x)).2, none⟩) ∧
      (∀ (h : Heap) (w : Nat) (x : ProduceItem), w < h.vars.length → Ref.lane w ∉ h.refs →
        (stage T 1 w (stage T 0 w h ⟨genResult x, none⟩).1
            (stage T 0 w h ⟨genResult x, none⟩).2).1.db = (add T h.db (genResult x)).1 ∧
          (stage T 1 w (stage T 0 w h ⟨genResult x, none⟩).1
            (stage T 0 w h ⟨genResult x, none⟩).2).2 =
            ⟨(add T h.db (genResult x)).2, none⟩) ∧
      ∀ r ∈ s.results,
        (∃ x ∈ batch, ∃ db0 : DB, r = (add T db0 (genResult x)).2 ∧
          r = verifyName (verifyCode (verifyPrice (add T db0 (genResult x)).2))) ∧
        r.Status ≠ "400: ErrInvalidName" ∧ r.Status ≠ "400: ErrInvalidCode" ∧
        r.Status ≠ "400: ErrInvalidPrice" := by
  refine ⟨validators_after_add T, ?_, add_decided T, stage_scan_seen T, stage_scan_append T, ?_⟩
  · intro i hi
    exact ⟨verifyPrice_of_decided i hi, verifyCode_of_decided i hi, verifyName_of_decided i hi⟩
  · intro r hr
    obtain ⟨x, hx, db0, rfl⟩ := results_from_add T d batch P sched s hrun r hr
    refine ⟨⟨x, hx, db0, rfl, (validators_after_add T db0 _).symm⟩, ?_⟩
    rw [add_genResult]
    exact addOutcome_status _ _

/-- Witness of C19: a candidate with a hyphen in its name and the peach, posted to the
empty store with two lanes; no result carries the status of the name validator. -/
theorem pipeline_is_committer_witness :
    (add goCase NewDB
        (genResult ⟨"Let-tuce", "A12T-4GH7-QPL9-3N4M", lit false 346 2⟩)).2.StatusCode ≠ 0 ∧
      ∀ r ∈ ((run goCase
          (Net.init NewDB [⟨"Let-tuce", "A12T-4GH7-QPL9-3N4M", lit false 346 2⟩,
            ⟨"Peach", "E5T6-9UI3-TH15-QR88", lit false 299 2⟩] 2)
          (laneMoves 0 ++ laneMoves 1)).get (by decide)).results,
        r.Status ≠ "400: ErrInvalidName" :=
  have h := pipeline_is_committer goCase NewDB
    [⟨"Let-tuce", "A12T-4GH7-QPL9-3N4M", lit false 346 2⟩,
      ⟨"Peach", "E5T6-9UI3-TH15-QR88", lit false 299 2⟩] 2 (laneMoves 0 ++ laneMoves 1)
    _ (Option.some_get _).symm
  ⟨h.2.2.1 NewDB (genResult ⟨"Let-tuce", "A12T-4GH7-QPL9-3N4M", lit false 346 2⟩),
    fun r hr => (h.2.2.2.2.2 r hr).2.1⟩

/-- What a stage leaves in the variable of its lane: `DB.Add` up to the lock writes the
item as it leaves it, the other stages write nothing. -/
theorem stage_var (T : CaseTable) (k w : Nat) (h : Heap) (t : Tok) (hw : w < h.vars.length)
    (hk : k ≤ 1) (hv : h.var w = t.res.Produce) :
    (stage T k w h t).1.var w = (stage T k w h t).2.res.Produce := by
  match k with
  | 0 =>
    simp only [stage]
    split_ifs
    · simp only [Heap.AddCheck]
      rw [Heap.setVar_var h w _ hw]
      exact AddCheck_fst T _ _ _
    · exact hv
  | 1 =>
    simp only [stage]
    split
    · simp only [addOutcome_Produce]
      exact hv
    · simp only [addOutcome_Produce]
      exact hv
    · exact hv
  | k + 2 => omega

/-- A stage writes to no variable but the one of its lane. -/
theorem stage_var_ne (T : CaseTable) (k w w2 : Nat) (h : Heap) (t : Tok) (hne : w ≠ w2) :
    (stage T k w h t).1.var w2 = h.var w2 := by
  unfold stage
  split
  · split_ifs
    · simp only [Heap.AddCheck]
      exact Heap.setVar_var_ne h w w2 _ hne
    · rfl
  · split <;> rfl
  · rfl
  · rfl
  · rfl
  · rfl

/-- From place 1 on a stage writes to no variable. -/
theorem stage_vars (T : CaseTable) (k w : Nat) (h : Heap) (t : Tok) (hk : 1 ≤ k) :
    (stage T k w h t).1.vars = h.vars := by
  match k with
  | 0 => omega
  | 1 =>
    simp only [stage]
    split <;> rfl
  | 2 => rfl
  | 3 => rfl
  | 4 => rfl
  | k + 5 => rfl

/-- One move keeps this: there is a variable for every lane, an element at place 0, 1 or
2 of a lane is what the lane's variable holds, and a lane has at most one element at
these places. -/
theorem step_var (T : CaseTable) (s s1 : Net) (m : Move) (h : step T s m = some s1)
    (hlen : s.slots.length = 7 * s.heap.vars.length)
    (hinv : ∀ j t, j % 7 ≤ 2 → s.slots[j]? = some (some t) →
      s.heap.var (j / 7) = t.res.Produce ∧
        ∀ j2 t2, j2 / 7 = j / 7 → j2 % 7 ≤ 2 → s.slots[j2]? = some (some t2) → j2 = j) :
    s1.slots.length = 7 * s1.heap.vars.length ∧
      ∀ j t, j % 7 ≤ 2 → s1.slots[j]? = some (some t) →
        s1.heap.var (j / 7) = t.res.Produce ∧
          ∀ j2 t2, j2 / 7 = j / 7 → j2 % 7 ≤ 2 → s1.slots[j2]? = some (some t2) → j2 = j := by
  obtain ⟨_, a1, a2, _, _⟩ := step_inv T s s1 m h
  refine ⟨by rw [a1, a2, hlen], ?_⟩
  unfold step at h
  split_ifs at h with hc
  cases m with
  | recv w =>
    simp only at h
    split at h
    · rename_i x xs hpd h0 h1 h2
      simp only [Option.some.injEq] at h
      subst h
      have hw : w < s.heap.vars.length := by
        have := (List.getElem?_eq_some_iff.1 h0).1
        omega
      have hold : ∀ j2 t2, j2 / 7 = w → j2 % 7 ≤ 2 → s.slots[j2]? = some (some t2) → False := by
        intro j2 t2 e1 e2 e3
        have : j2 = 7 * w ∨ j2 = 7 * w + 1 ∨ j2 = 7 * w + 2 := by omega
        rcases this with e | e | e
        · rw [e, h0] at e3
          simp at e3
        · rw [e, h1] at e3
          simp at e3
        · rw [e, h2] at e3
          simp at e3
      intro j t hj hjt
      simp only [List.getElem?_set] at hjt
      split_ifs at hjt with e1
      · simp only [Option.some.injEq] at hjt
        subst hjt
        subst e1
        have hq : 7 * w / 7 = w := by omega
        refine ⟨?_, ?_⟩
        · simp only [hq]
          exact Heap.setVar_var _ _ _ hw
        · intro j2 t2 f1 f2 f3
          simp only [List.getElem?_set] at f3
          split_ifs at f3 with e2
          · exact e2.symm
          · exact (hold j2 t2 (by omega) f2 f3).elim
      · have hne : w ≠ j / 7 := by
          intro e
          exact hold j t e.symm hj hjt
        obtain ⟨b1, b2⟩ := hinv j t hj hjt
        refine ⟨?_, ?_⟩
        · simp only
          rw [Heap.setVar_var_ne _ _ _ _ hne]
          exact b1
        · intro j2 t2 f1 f2 f3
          simp only [List.getElem?_set] at f3
          split_ifs at f3 with e2
          · omega
          · exact b2 j2 t2 f1 f2 f3
    · simp at h
  | advance j0 =>
    simp only at h
    split_ifs at h with h6
    split at h
    · rename_i t0 h0 h1
      simp only [Option.some.injEq] at h
      subst h
      have hw : j0 / 7 < s.heap.vars.length := by
        have := (List.getElem?_eq_some_iff.1 h0).1
        omega
      intro j t hj hjt
      simp only [List.getElem?_set, List.length_set] at hjt
      split_ifs at hjt with e1 e2 e3
      · simp only [Option.some.injEq] at hjt
        subst hjt
        subst e1
        have hk : j0 % 7 ≤ 1 := by omega
        have hq : (j0 + 1) / 7 = j0 / 7 := by omega
        obtain ⟨b1, b2⟩ := hinv j0 t0 (by omega) h0
        refine ⟨?_, ?_⟩
        · simp only [hq]
          exact stage_var T _ _ _ _ hw hk b1
        · intro j2 t2 f1 f2 f3
          simp only [List.getElem?_set, List.length_set] at f3
          split_ifs at f3 with g1 g2 g3
          · exact g1.symm
          · simp at f3
          · have := b2 j2 t2 (by omega) f2 f3
            omega
      · simp at hjt
      · obtain ⟨b1, b2⟩ := hinv j t hj hjt
        have hne : j0 ≠ j := e3
        refine ⟨?_, ?_⟩
        · simp only
          by_cases hk0 : j0 % 7 = 0
          · have hl : j0 / 7 ≠ j / 7 := by
              intro e
              have := b2 j0 t0 e (by omega) h0
              omega
            rw [stage_var_ne T _ _ _ _ _ hl]
            exact b1
          · have hv := stage_vars T (j0 % 7) (j0 / 7) s.heap t0 (by omega)
            simp only [Heap.var, hv]
            exact b1
        · intro j2 t2 f1 f2 f3
          simp only [List.getElem?_set, List.length_set] at f3
          split_ifs at f3 with g1 g2 g3
          · have := b2 j0 t0 (by omega) (by omega) h0
            omega
          · simp at f3
          · exact b2 j2 t2 f1 f2 f3
    · simp at h
  | drain j0 =>
    simp only at h
    split_ifs at h with h6
    split at h
    · rename_i t0 h0
      simp only [Option.some.injEq] at h
      subst h
      intro j t hj hjt
      simp only [List.getElem?_set] at hjt
      split_ifs at hjt with e1
      · simp at hjt
      · obtain ⟨b1, b2⟩ := hinv j t hj hjt
        refine ⟨b1, ?_⟩
        intro j2 t2 f1 f2 f3
        simp only [List.getElem?_set] at f3
        split_ifs at f3 with g1
        · simp at f3
        · exact b2 j2 t2 f1 f2 f3
    · simp at h
  | tear a b =>
    simp only at h
    split_ifs at h with ht2
    simp only [Option.some.injEq] at h
    subst h
    exact hinv

/-- In every state a request reaches, an element at place 0, 1 or 2 of a lane is what
the range variable of the lane's `add` stage holds. -/
theorem var_is_token (T : CaseTable) (d : DB) (batch : List ProduceItem) (P : Nat)
    (sched : List Move) (s : Net) (hrun : run T (Net.init d batch P) sched = some s) :
    ∀ j t, j % 7 ≤ 2 → s.slots[j]? = some (some t) → s.heap.var (j / 7) = t.res.Produce := by
  have key : ∀ (sched : List Move) (s0 s1 : Net),
      s0.slots.length = 7 * s0.heap.vars.length →
      (∀ j t, j % 7 ≤ 2 → s0.slots[j]? = some (some t) →
        s0.heap.var (j / 7) = t.res.Produce ∧
          ∀ j2 t2, j2 / 7 = j / 7 → j2 % 7 ≤ 2 → s0.slots[j2]? = some (some t2) → j2 = j) →
      run T s0 sched = some s1 →
      ∀ j t, j % 7 ≤ 2 → s1.slots[j]? = some (some t) →
        s1.heap.var (j / 7) = t.res.Produce := by
    intro sched
    induction sched with
    | nil =>
      intro s0 s1 _ hinv h
      simp only [run, Option.some.injEq] at h
      subst h
      intro j t hj hjt
      exact (hinv j t hj hjt).1
    | cons m ms ih =>
      intro s0 s1 hlen hinv h
      simp only [run] at h
      cases hs : step T s0 m with
      | none => simp [hs] at h
      | some s2 =>
        rw [hs] at h
        obtain ⟨c1, c2⟩ := step_var T s0 s2 m hs hlen hinv
        exact ih s2 s1 c1 c2 h
  refine key sched _ s (by simp [Net.init]) ?_ hrun
  intro j t _ hjt
  simp only [Net.init] at hjt
  have := List.getElem?_mem hjt
  simp [List.mem_replicate] at this

end Produce
